import Mathlib

/-!
# Aho-Corasick string matcher (AhoCorasick.c): shallow embedding

Conventions of the embedding.

* A C string is the list of its characters before the terminating NUL.  A
  `Symbol` (`char`) is modelled by its code and a `State` (`unsigned int`) by
  its number: both are natural numbers.
* The arrays `trans_matrix`, `output` and `failure`, indexed by state, are
  total maps from state numbers, and allocation is taken to succeed.  Their
  allocated size `sz`, an `unsigned int` that grows by 1024, is kept: `none`
  stands for the undefined behaviour of `new_state` when it writes the entries
  of a state that lies outside the arrays, which happens once `sz + 1024` has
  wrapped around.  `n_alpha` is the length of `alphabet`; its capacity
  `sz_alpha` is not modelled (a `char` has at most 256 values, `sz_alpha`
  doubles from 64).  The array `patterns[n]` with its `int` count is the list
  of the patterns.
* The result array of `find_matched_string` is the list of the hits stored so
  far; its size `sz`, an `int` that grows by 64, is kept, and `none` stands
  for the undefined behaviour of `sz += 64` when the sum does not fit `int`.
* The head-inserted `SLIST`s are lists whose head is the most recent insertion.
* `goto_state` returns `none` where the C function returns the sentinel
  `FAIL_STATE`; where the C code stores the result of `goto_state` without a
  test, the sentinel value `FAIL_STATE` is stored.
* A string can be longer than an `int` or an `unsigned int` can tell.  Where
  the C code stores the `size_t` result of `strlen` in an `int` (lines 157 and
  370) or passes it as an `unsigned int` (line 395) the value is converted as
  the usual compilers do, by reduction modulo 2^32 (`to_int`, `to_uint`), and
  the loops bounded by that `int` read only the characters below it.
* State numbers and the text index are natural numbers.  A state number stays
  below the size of the state arrays, the text index below the `int` bound of
  its loop, and the number of hits below the size of the result array.  The
  offset `boff` is the exact integer value of the C expression `i - blen + 1`;
  the value stored in the `unsigned int` field is its residue modulo 2^32.
* The `while` loops run on fuel (the number of states); a loop that would need
  more iterations yields `none`.
-/

namespace AhoCorasick

/-- The sentinel `FAIL_STATE` (`UINT_MAX`). -/
def FAIL_STATE : Nat := 4294967295

/-- One element of a transition list (`struct transition_elt`). -/
structure transition_elt where
  sym : Nat
  st : Nat
deriving DecidableEq, Repr

/-- The matcher (`struct _string_matcher`, without `STORE_DICTIONARY_ELT`). -/
structure string_matcher where
  trans_matrix : Nat → List transition_elt
  output : Nat → List Nat
  failure : Nat → Nat
  n : Nat
  sz : Nat
  alphabet : List Nat

/-- One entry of `struct matches`: offset and length of a hit. -/
structure match_entry where
  boff : Int
  blen : Nat
deriving DecidableEq, Repr

/-- Array store `a[i] = v`. -/
def upd {α : Type} (a : Nat → α) (i : Nat) (v : α) : Nat → α :=
  fun j => if j = i then v else a j

/-- The function `init_string_matcher`: zeroed arrays of size `sz`, no state,
no symbol. -/
def init_string_matcher (sz : Nat) : string_matcher :=
  { trans_matrix := fun _ => []
    output := fun _ => []
    failure := fun _ => 0
    n := 0
    sz := sz
    alphabet := [] }

/-- The function `new_state`: the next state number, with empty lists and
failure 0.  When the arrays are full (`n >= sz`) their size becomes
`sz + 1024`, computed in `unsigned int`; the entries of the new state `n` are
then written, which is defined only when `n` lies inside the arrays: `none`
stands for the write outside them. -/
def new_state (sm : string_matcher) : Option (string_matcher × Nat) :=
  let sz := if sm.sz ≤ sm.n then (sm.sz + 1024) % 4294967296 else sm.sz
  if sm.n < sz then
    some ({ sm with
      trans_matrix := upd sm.trans_matrix sm.n []
      output := upd sm.output sm.n []
      failure := upd sm.failure sm.n 0
      n := sm.n + 1
      sz := sz }, sm.n)
  else none

/-- The function `add_symbol`: index of the symbol, appended when it is new. -/
def add_symbol (sm : string_matcher) (symbol : Nat) : string_matcher × Nat :=
  let i := sm.alphabet.indexOf symbol
  if i < sm.alphabet.length then (sm, i)
  else ({ sm with alphabet := sm.alphabet ++ [symbol] }, i)

/-- The function `add_transition`: head insertion in the list of `start`. -/
def add_transition (sm : string_matcher) (start : Nat) (symbol : Nat) (e : Nat) :
    string_matcher :=
  (add_symbol
    { sm with trans_matrix := upd sm.trans_matrix start (⟨symbol, e⟩ :: sm.trans_matrix start) }
    symbol).1

/-- The function `goto_state`; `none` stands for `FAIL_STATE`. -/
def goto_state (sm : string_matcher) (state : Nat) (symbol : Nat) : Option Nat :=
  if sm.n ≤ state then none
  else
    match (sm.trans_matrix state).find? (fun t => t.sym == symbol) with
    | some t => some t.st
    | none => if state = 0 then some 0 else none

/-- The function `fail_state`. -/
def fail_state (sm : string_matcher) (s : Nat) : Nat :=
  if s < sm.n then sm.failure s else 0

/-- The function `output_state`. -/
def output_state (sm : string_matcher) (state : Nat) : List Nat :=
  sm.output state

/-- The function `add_output_state`: head insertion of a length. -/
def add_output_state (sm : string_matcher) (state : Nat) (blen : Nat) : string_matcher :=
  { sm with output := upd sm.output state (blen :: sm.output state) }

/-- First loop of the body of `create_goto_function` (lines 371-377): follow the
existing edges; returns the state reached and the characters left. -/
def trie_walk (sm : string_matcher) : Nat → List Nat → Nat × List Nat
  | state, [] => (state, [])
  | state, c :: cs =>
    match goto_state sm state c with
    | none => (state, c :: cs)
    | some s => if state = 0 ∧ s = 0 then (state, c :: cs) else trie_walk sm s cs

/-- Second loop of the body of `create_goto_function` (lines 380-384): one new
state and one transition per remaining character. -/
def trie_extend : string_matcher → Nat → List Nat → Option (string_matcher × Nat)
  | sm, state, [] => some (sm, state)
  | sm, state, c :: cs =>
    match new_state sm with
    | none => none
    | some p => trie_extend (add_transition p.1 state c p.2) p.2 cs

/-- Conversion of a `size_t` value to `int` (`int len = strlen(text)`, line 157;
`int lp = strlen(pattern)`, line 370): the value modulo 2^32, read as a signed
32-bit number. -/
def to_int (n : Nat) : Int :=
  if n % 4294967296 < 2147483648 then ((n % 4294967296 : Nat) : Int)
  else ((n % 4294967296 : Nat) : Int) - 4294967296

/-- Conversion of a `size_t` value to `unsigned int` (the argument `blen` of
`add_output_state`, line 395): the value modulo 2^32. -/
def to_uint (n : Nat) : Nat := n % 4294967296

/-- Body of the pattern loop of `create_goto_function` (lines 361-396).  The
bound of its two loops is `int lp = strlen(pattern)`: they read `pattern[j]`
for `0 <= j < lp` only, so they are run on the characters `pattern[0..lp)`,
none when `lp <= 0`.  The length stored is `strlen(pattern)` converted to
`unsigned int`. -/
def add_pattern (sm : string_matcher) (pattern : List Nat) : Option string_matcher :=
  let lp := to_int pattern.length
  let w := trie_walk sm 0 (pattern.take lp.toNat)
  match trie_extend sm w.1 w.2 with
  | none => none
  | some e => some (add_output_state e.1 e.2 (to_uint pattern.length))

/-- The pattern loop of `create_goto_function` (line 361), over the patterns
not yet inserted. -/
def add_patterns : string_matcher → List (List Nat) → Option string_matcher
  | sm, [] => some sm
  | sm, pattern :: rest =>
    match add_pattern sm pattern with
    | none => none
    | some sm1 => add_patterns sm1 rest

/-- The function `create_goto_function`: the trie of the patterns, built from
`init_string_matcher(128)` and the root state. -/
def create_goto_function (patterns : List (List Nat)) : Option string_matcher :=
  match new_state (init_string_matcher 128) with
  | none => none
  | some p => add_patterns p.1 patterns

/-- First loop of `create_failure_function` (lines 430-440): the states at
depth 1 get failure 0 and are enqueued. -/
def failure_init (sm : string_matcher) : List Nat → List Nat → string_matcher × List Nat
  | [], queue => (sm, queue)
  | letter :: rest, queue =>
    match goto_state sm 0 letter with
    | none => failure_init sm rest queue
    | some s =>
      if s ≠ 0 then
        failure_init { sm with failure := upd sm.failure s 0 } rest (queue ++ [s])
      else failure_init sm rest queue

/-- The loop of lines 456-459: follow failure links from `state` until a state
has a transition on `letter`, or the root is reached. -/
def failure_follow (sm : string_matcher) (letter : Nat) : Nat → Nat → Option Nat
  | 0, _ => none
  | fuel + 1, state =>
    match goto_state sm state letter with
    | none =>
      if state ≠ 0 then failure_follow sm letter fuel (fail_state sm state) else some state
    | some _ => some state

/-- The value stored in `failure[s]` by lines 460-463. -/
def failure_target (sm : string_matcher) (state : Nat) (letter : Nat) : Nat :=
  match goto_state sm state letter with
  | none => if state = 0 then 0 else FAIL_STATE
  | some t => t

/-- Body of the letter loop of `create_failure_function` (lines 446-475) for the
dequeued state `r`. -/
def failure_letter (sm : string_matcher) (r : Nat) (queue : List Nat) (letter : Nat) :
    Option (string_matcher × List Nat) :=
  match goto_state sm r letter with
  | none => some (sm, queue)
  | some s =>
    match failure_follow sm letter sm.n (fail_state sm r) with
    | none => none
    | some state =>
      let sm1 := { sm with failure := upd sm.failure s (failure_target sm state letter) }
      some ((output_state sm1 (fail_state sm1 s)).foldl (fun acc blen => add_output_state acc s blen)
        sm1, queue ++ [s])

/-- The letter loop of `create_failure_function` (line 445) for the dequeued state `r`. -/
def failure_letters (r : Nat) :
    string_matcher → List Nat → List Nat → Option (string_matcher × List Nat)
  | sm, queue, [] => some (sm, queue)
  | sm, queue, letter :: rest =>
    match failure_letter sm r queue letter with
    | none => none
    | some p => failure_letters r p.1 p.2 rest

/-- The queue loop of `create_failure_function` (lines 441-478). -/
def failure_bfs : Nat → string_matcher → List Nat → Option string_matcher
  | _, sm, [] => some sm
  | 0, _, _ :: _ => none
  | fuel + 1, sm, r :: queue =>
    match failure_letters r sm queue sm.alphabet with
    | none => none
    | some p => failure_bfs fuel p.1 p.2

/-- The function `create_failure_function`. -/
def create_failure_function (sm : string_matcher) : Option string_matcher :=
  let p := failure_init sm sm.alphabet []
  failure_bfs sm.n p.1 p.2

/-- The function `new_string_matcher`. -/
def new_string_matcher (patterns : List (List Nat)) : Option string_matcher :=
  match create_goto_function patterns with
  | none => none
  | some sm => create_failure_function sm

/-- The loop of lines 162-164 of `find_matched_string`: follow failure links
while `goto_state` fails. -/
def scan_fail (sm : string_matcher) (c : Nat) : Nat → Nat → Option Nat
  | 0, _ => none
  | fuel + 1, state =>
    match goto_state sm state c with
    | none => scan_fail sm c fuel (fail_state sm state)
    | some _ => some state

/-- The hits of text index `i` in state `state`, in the order of the output
list (lines 177-184). -/
def emit (sm : string_matcher) (i : Nat) (state : Nat) : List match_entry :=
  (output_state sm state).map (fun (blen : Nat) => ⟨(i : Int) - (blen : Int) + 1, blen⟩)

/-- The loop of lines 172-193 over the hits of one text index: each hit is
stored at the end of the array `match`, whose size `sz` grows by 64 when the
array is full (`results->n >= sz`).  The size is an `int`: `none` stands for
the undefined behaviour of `sz += 64` when the sum exceeds `INT_MAX`. -/
def store_hits : List match_entry → Nat → List match_entry → Option (Nat × List match_entry)
  | [], sz, results => some (sz, results)
  | m :: ms, sz, results =>
    if sz ≤ results.length then
      if sz + 64 ≤ 2147483647 then store_hits ms (sz + 64) (results ++ [m]) else none
    else store_hits ms sz (results ++ [m])

/-- The text loop of `find_matched_string` (lines 158-195), `for (i = 0; i < len;
i++)`, from index `i`: `len` is the `int` bound of the loop, the list holds the
characters `text[i]`, `text[i+1]`, ... up to the end of the string, `sz` is the
size of the result array.  The result gives the values of the variables
`state` and `sz` and the hits stored when the loop stops. -/
def find_matched_run (sm : string_matcher) (len : Int) :
    List Nat → Nat → Nat → Nat → List match_entry → Option (Nat × Nat × List match_entry)
  | [], _, state, sz, results => some (state, sz, results)
  | c :: cs, i, state, sz, results =>
    if (i : Int) < len then
      match scan_fail sm c sm.n state with
      | none => none
      | some st =>
        let state1 := (goto_state sm st c).getD FAIL_STATE
        match store_hits (emit sm i state1) sz results with
        | none => none
        | some p => find_matched_run sm len cs (i + 1) state1 p.1 p.2
    else some (state, sz, results)

/-- The function `find_matched_string`: the list of hits, in the order stored;
the returned count is its length.  The loop bound is `int len = strlen(text)`,
the loop starts at index 0 in state 0 with an empty array of size 64. -/
def find_matched_string (sm : string_matcher) (text : List Nat) : Option (List match_entry) :=
  (find_matched_run sm (to_int text.length) text 0 0 64 []).map (fun r => r.2.2)

/-! ## Notions used by the proofs -/

/-- The function `new_state` without the test of the array bound: the state
`sm.n` is added whatever the size of the arrays. -/
def grow_state (sm : string_matcher) : string_matcher × Nat :=
  ({ sm with
      trans_matrix := upd sm.trans_matrix sm.n []
      output := upd sm.output sm.n []
      failure := upd sm.failure sm.n 0
      n := sm.n + 1
      sz := if sm.sz ≤ sm.n then (sm.sz + 1024) % 4294967296 else sm.sz }, sm.n)

/-- The loop `trie_extend` with `grow_state` for `new_state`. -/
def extend_trie : string_matcher → Nat → List Nat → string_matcher × Nat
  | sm, state, [] => (sm, state)
  | sm, state, c :: cs =>
    let p := grow_state sm
    extend_trie (add_transition p.1 state c p.2) p.2 cs

/-- The loop body `add_pattern` with `extend_trie` for `trie_extend`. -/
def insert_pattern (sm : string_matcher) (pattern : List Nat) : string_matcher :=
  let lp := to_int pattern.length
  let w := trie_walk sm 0 (pattern.take lp.toNat)
  let e := extend_trie sm w.1 w.2
  add_output_state e.1 e.2 (to_uint pattern.length)

/-- The trie of the patterns as `create_goto_function` builds it when no state
falls outside the arrays. -/
def goto_trie (patterns : List (List Nat)) : string_matcher :=
  patterns.foldl insert_pattern (grow_state (init_string_matcher 128)).1

/-- The automaton of the patterns as `new_string_matcher` builds it when no
state falls outside the arrays. -/
def automaton (patterns : List (List Nat)) : Option string_matcher :=
  create_failure_function (goto_trie patterns)

/-- The list search of `goto_state` (lines 288-291): the target of the first
transition of `s` labelled `c`, if there is one. -/
def edge (sm : string_matcher) (s c : Nat) : Option Nat :=
  ((sm.trans_matrix s).find? (fun t => t.sym == c)).map (fun t => t.st)

/-- Shape of the trie: `path s` is the word spelled from the root to state `s`. -/
structure Shape (sm : string_matcher) (path : Nat → List Nat) : Prop where
  n_pos : 0 < sm.n
  root : path 0 = []
  inj : ∀ s t : Nat, s < sm.n → t < sm.n → path s = path t → s = t
  depth_le : ∀ s : Nat, s < sm.n → (path s).length ≤ s
  edge_iff : ∀ s c t : Nat, s < sm.n →
    (edge sm s c = some t ↔ t < sm.n ∧ path t = path s ++ [c])
  parent : ∀ t : Nat, t < sm.n → t ≠ 0 → ∃ s c : Nat, s < sm.n ∧ path t = path s ++ [c]
  alpha_nodup : sm.alphabet.Nodup
  alpha_iff : ∀ c : Nat, c ∈ sm.alphabet ↔ ∃ s t : Nat, s < sm.n ∧ edge sm s c = some t

/-- The words spelled by the states of the trie. -/
def Wd (sm : string_matcher) (path : Nat → List Nat) (w : List Nat) : Prop :=
  ∃ s : Nat, s < sm.n ∧ path s = w

/-- The trie of the patterns `pats` when each one is inserted in full: shape,
words, outputs and failure links as `goto_trie` leaves them. -/
structure Trie (sm : string_matcher) (pats : List (List Nat)) (path : Nat → List Nat) :
    Prop where
  shape : Shape sm path
  words : ∀ w : List Nat, Wd sm path w ↔ (w = [] ∨ ∃ p : List Nat, p ∈ pats ∧ w <+: p)
  out : ∀ s : Nat, s < sm.n →
    sm.output s = List.replicate (pats.count (path s)) (path s).length
  out_fresh : ∀ s : Nat, sm.n ≤ s → sm.output s = []
  fail0 : ∀ s : Nat, sm.failure s = 0

/-- What `insert_pattern` inserts for the pattern `p`: the characters its loops
read, `p[0..lp)`, and the length it stores. -/
def item (p : List Nat) : List Nat × Nat :=
  (p.take (to_int p.length).toNat, to_uint p.length)

/-- The lengths stored by the insertions that end at the word `w`, the most
recent first. -/
def own (items : List (List Nat × Nat)) (w : List Nat) : List Nat :=
  ((items.filter (fun it => decide (it.1 = w))).map (fun it => it.2)).reverse

/-- The trie left by a sequence of insertions: `items` lists, for each one, the
characters inserted and the length stored. -/
structure ItemTrie (sm : string_matcher) (items : List (List Nat × Nat))
    (path : Nat → List Nat) : Prop where
  shape : Shape sm path
  words : ∀ w : List Nat, Wd sm path w ↔
    (w = [] ∨ ∃ it : List Nat × Nat, it ∈ items ∧ w <+: it.1)
  out : ∀ s : Nat, s < sm.n → sm.output s = own items (path s)
  out_fresh : ∀ s : Nat, sm.n ≤ s → sm.output s = []
  fail0 : ∀ s : Nat, sm.failure s = 0

/-- The word `v` is the longest suffix of `x` that satisfies `W`. -/
def IsLSuf (W : List Nat → Prop) (x v : List Nat) : Prop :=
  v <:+ x ∧ W v ∧ ∀ u : List Nat, u <:+ x → W u → u.length ≤ v.length

/-- The failure links of the states of depth at most `d` are in place. -/
def FailUpTo (sm : string_matcher) (path : Nat → List Nat) (d : Nat) : Prop :=
  ∀ t : Nat, t < sm.n → (path t).length ≤ d →
    sm.failure t < sm.n ∧ IsLSuf (Wd sm path) (path t).tail (path (sm.failure t))

/-- State `s` has its final failure link and output list. -/
def Linked (sm0 : string_matcher) (path : Nat → List Nat) (sm : string_matcher) (s : Nat) :
    Prop :=
  sm.failure s < sm0.n ∧ IsLSuf (Wd sm0 path) (path s).tail (path (sm.failure s)) ∧
  sm.output s =
    (if (path s).length ≤ 1 then [] else (sm.output (sm.failure s)).reverse) ++ sm0.output s

/-- State `s` is as the trie construction left it. -/
def Untouched (sm0 sm : string_matcher) (s : Nat) : Prop :=
  sm.failure s = 0 ∧ sm.output s = sm0.output s

/-- Invariant of the queue loop of `create_failure_function`: `done` lists the
states dequeued so far, `ok r c` tells that the transition of `r` on `c` has
been handled. -/
structure BfsInv (sm0 : string_matcher) (path : Nat → List Nat) (ok : Nat → Nat → Prop)
    (sm : string_matcher) (done queue : List Nat) : Prop where
  frame_n : sm.n = sm0.n
  frame_t : sm.trans_matrix = sm0.trans_matrix
  frame_a : sm.alphabet = sm0.alphabet
  nodup : (done ++ queue).Nodup
  mem_iff : ∀ s : Nat, s ∈ done ++ queue ↔
    (s < sm0.n ∧ s ≠ 0 ∧
      ((path s).length = 1 ∨ ∃ r c : Nat, r ∈ done ∧ ok r c ∧ path s = path r ++ [c]))
  sorted : (done ++ queue).Pairwise (fun a b => (path a).length ≤ (path b).length)
  linked : ∀ s : Nat, s < sm0.n → (s = 0 ∨ s ∈ done ++ queue) → Linked sm0 path sm s
  untouched : ∀ s : Nat, s < sm0.n → s ≠ 0 → s ∉ done ++ queue → Untouched sm0 sm s

/-- What `create_failure_function` establishes on the trie `sm0`. -/
structure Final (sm0 : string_matcher) (path : Nat → List Nat) (sm : string_matcher) : Prop where
  frame_n : sm.n = sm0.n
  frame_t : sm.trans_matrix = sm0.trans_matrix
  frame_a : sm.alphabet = sm0.alphabet
  linked : ∀ s : Nat, s < sm0.n → Linked sm0 path sm s

/-- The lengths of the patterns that are suffixes of `x`, in dictionary order. -/
def suffix_lengths (pats : List (List Nat)) (x : List Nat) : List Nat :=
  (pats.filter (fun p => decide (p <:+ x))).map List.length

/-- The state reached from `s` along the transitions labelled by `w`, if they
all exist; the depth of a state is the length of the word that reaches it from 0. -/
def walk (sm : string_matcher) : Nat → List Nat → Option Nat
  | s, [] => some s
  | s, c :: cs =>
    match edge sm s c with
    | none => none
    | some t => walk sm t cs

/-- The transitions and failure links of a finished automaton; `path s` is the
word spelled from the root to state `s`. -/
structure Core (path : Nat → List Nat) (sm : string_matcher) : Prop where
  shape : Shape sm path
  fail_lt : ∀ s : Nat, s < sm.n → sm.failure s < sm.n
  fail_lsuf : ∀ s : Nat, s < sm.n → IsLSuf (Wd sm path) (path s).tail (path (sm.failure s))

/-- The finished automaton of a sequence of insertions: `items` lists, for each
pattern, the characters inserted and the length stored. -/
structure ItemAutomaton (items : List (List Nat × Nat)) (path : Nat → List Nat)
    (sm : string_matcher) : Prop where
  core : Core path sm
  words : ∀ w : List Nat, Wd sm path w ↔
    (w = [] ∨ ∃ it : List Nat × Nat, it ∈ items ∧ w <+: it.1)
  out_eq : ∀ s : Nat, s < sm.n → sm.output s =
    (if (path s).length ≤ 1 then [] else (sm.output (sm.failure s)).reverse) ++
      own items (path s)

/-- The finished automaton of the patterns `pats`, all inserted in full; `path s`
is the word spelled from the root to state `s`. -/
structure Automaton (pats : List (List Nat)) (path : Nat → List Nat) (sm : string_matcher) :
    Prop where
  core : Core path sm
  words : ∀ w : List Nat, Wd sm path w ↔ (w = [] ∨ ∃ p : List Nat, p ∈ pats ∧ w <+: p)
  out_eq : ∀ s : Nat, s < sm.n → sm.output s =
    (if (path s).length ≤ 1 then [] else (sm.output (sm.failure s)).reverse) ++
      List.replicate (pats.count (path s)) (path s).length

/-- The hits that end with the last character of `t`: one per pattern that is
a suffix of `t`, in dictionary order. -/
def hits_at (pats : List (List Nat)) (t : List Nat) : List match_entry :=
  (pats.filter (fun p => decide (p <:+ t))).map
    (fun p => ⟨(t.length : Int) - (p.length : Int), p.length⟩)

/-- All the hits in the text `cs` read after `t`, by ending position. -/
def ideal (pats : List (List Nat)) : List Nat → List Nat → List match_entry
  | _, [] => []
  | t, c :: cs => hits_at pats (t ++ [c]) ++ ideal pats (t ++ [c]) cs

/-- The text loop of `find_matched_string` with a result array that is never
full (the size `sz` left out): the values of `state` and of the hits when the
loop stops.  It describes the scan as long as the array does not overflow. -/
def scan_run (sm : string_matcher) (len : Int) :
    List Nat → Nat → Nat → List match_entry → Option (Nat × List match_entry)
  | [], _, state, results => some (state, results)
  | c :: cs, i, state, results =>
    if (i : Int) < len then
      match scan_fail sm c sm.n state with
      | none => none
      | some st =>
        let state1 := (goto_state sm st c).getD FAIL_STATE
        scan_run sm len cs (i + 1) state1 (results ++ emit sm i state1)
    else some (state, results)

/-- The hits of the scan of `text` with a result array that is never full. -/
def scan_string (sm : string_matcher) (text : List Nat) : Option (List match_entry) :=
  (scan_run sm (to_int text.length) text 0 0 []).map Prod.snd

/-- The part of the text that the loop of `find_matched_string` reads: the
characters below the `int` bound `len`. -/
def scanned (text : List Nat) : List Nat := text.take (to_int text.length).toNat

/-- The size `sz` of the result array is as the scan keeps it: at least the
number of hits stored, a multiple of 64, at most 2147483584. -/
def Cap (sz : Nat) (res : List match_entry) : Prop :=
  res.length ≤ sz ∧ 64 ∣ sz ∧ sz ≤ 2147483584

/-- The state arrays are as `new_state` keeps them: the states lie inside the
arrays, and the size of the arrays is 128 plus a multiple of 1024 that
`unsigned int` holds. -/
def Sized (sm : string_matcher) : Prop :=
  sm.n ≤ sm.sz ∧ sm.sz % 1024 = 128 ∧ sm.sz ≤ 4294966400

/-- Reduction of an integer to the range of `unsigned int`. -/
def u32 (z : Int) : Int := z % 4294967296

/-- No state has two transitions with the same symbol. -/
def TransNodup (sm : string_matcher) : Prop :=
  ∀ s : Nat, ((sm.trans_matrix s).map (fun t => t.sym)).Nodup

/-- The offsets at which the pattern `p` occurs in `text`, in increasing order. -/
def occurrences (text p : List Nat) : List Nat :=
  (List.range (text.length + 1)).filter
    (fun o => decide (o + p.length ≤ text.length ∧ (text.drop o).take p.length = p))

/-- The hits listed pattern by pattern: for each entry of the dictionary, in
order, one hit per occurrence. -/
def by_pattern (pats : List (List Nat)) (text : List Nat) : List match_entry :=
  pats.flatMap (fun p => (occurrences text p).map (fun (o : Nat) => ⟨(o : Int), p.length⟩))

/-! ## Theorems -/

@[simp] theorem upd_same {α : Type} (a : Nat → α) (i : Nat) (v : α) : upd a i v i = v := by
  simp [upd]

@[simp] theorem upd_other {α : Type} (a : Nat → α) (i j : Nat) (v : α) (h : j ≠ i) :
    upd a i v j = a j := by
  simp [upd, h]

theorem goto_state_of_edge (sm : string_matcher) (s t c : Nat) (hs : s < sm.n)
    (h : edge sm s c = some t) : goto_state sm s c = some t := by
  unfold edge at h
  unfold goto_state
  rw [if_neg (by omega)]
  cases hf : (sm.trans_matrix s).find? (fun t => t.sym == c) with
  | none => simp [hf] at h
  | some e => simp [hf] at h; simp [h]

theorem goto_state_root_none (sm : string_matcher) (c : Nat) (hs : 0 < sm.n)
    (h : edge sm 0 c = none) : goto_state sm 0 c = some 0 := by
  unfold edge at h
  unfold goto_state
  rw [if_neg (by omega)]
  cases hf : (sm.trans_matrix 0).find? (fun t => t.sym == c) with
  | none => simp
  | some e => simp [hf] at h

theorem goto_state_none (sm : string_matcher) (s c : Nat) (h0 : s ≠ 0)
    (h : edge sm s c = none) : goto_state sm s c = none := by
  unfold edge at h
  unfold goto_state
  split_ifs
  · rfl
  · cases hf : (sm.trans_matrix s).find? (fun t => t.sym == c) with
    | none => simp [h0]
    | some e => simp [hf] at h

theorem goto_state_ge (sm : string_matcher) (s c : Nat) (h : sm.n ≤ s) :
    goto_state sm s c = none := by
  unfold goto_state
  rw [if_pos h]

theorem add_symbol_alphabet (sm : string_matcher) (c : Nat) :
    (add_symbol sm c).1.alphabet = if c ∈ sm.alphabet then sm.alphabet else sm.alphabet ++ [c] := by
  unfold add_symbol
  by_cases h : c ∈ sm.alphabet
  · have : List.indexOf c sm.alphabet < sm.alphabet.length := List.indexOf_lt_length.2 h
    simp [h, this]
  · have : ¬ List.indexOf c sm.alphabet < sm.alphabet.length := by
      rw [List.indexOf_lt_length]; exact h
    simp [h, this]

theorem add_symbol_fields (sm : string_matcher) (c : Nat) :
    (add_symbol sm c).1.n = sm.n ∧ (add_symbol sm c).1.trans_matrix = sm.trans_matrix ∧
    (add_symbol sm c).1.output = sm.output ∧ (add_symbol sm c).1.failure = sm.failure := by
  unfold add_symbol
  simp only []
  split_ifs <;> simp

/-- The matcher after one new state `sm.n` and the transition `state --c--> sm.n`. -/
theorem step_fields (sm : string_matcher) (state c : Nat) :
    (add_transition (grow_state sm).1 state c sm.n).n = sm.n + 1 ∧
    (add_transition (grow_state sm).1 state c sm.n).trans_matrix =
      upd (upd sm.trans_matrix sm.n []) state (⟨c, sm.n⟩ :: upd sm.trans_matrix sm.n [] state) ∧
    (add_transition (grow_state sm).1 state c sm.n).output = upd sm.output sm.n [] ∧
    (add_transition (grow_state sm).1 state c sm.n).failure = upd sm.failure sm.n 0 ∧
    (add_transition (grow_state sm).1 state c sm.n).alphabet =
      if c ∈ sm.alphabet then sm.alphabet else sm.alphabet ++ [c] := by
  unfold add_transition
  refine ⟨?_, ?_, ?_, ?_, ?_⟩
  · rw [(add_symbol_fields _ _).1]; rfl
  · rw [(add_symbol_fields _ _).2.1]; rfl
  · rw [(add_symbol_fields _ _).2.2.1]; rfl
  · rw [(add_symbol_fields _ _).2.2.2]; rfl
  · rw [add_symbol_alphabet]; rfl

theorem step_edge (sm : string_matcher) (state c : Nat) (hs : state < sm.n) (s d : Nat) :
    edge (add_transition (grow_state sm).1 state c sm.n) s d =
      if s = state then (if c = d then some sm.n else edge sm state d)
      else if s = sm.n then none else edge sm s d := by
  unfold edge
  rw [(step_fields sm state c).2.1]
  have hne : state ≠ sm.n := by omega
  by_cases h1 : s = state
  · subst h1
    rw [if_pos rfl, upd_same, upd_other _ _ _ _ hne]
    by_cases h2 : c = d
    · simp [h2]
    · simp [h2]
  · rw [if_neg h1, upd_other _ _ _ _ h1]
    by_cases h3 : s = sm.n
    · subst h3; simp
    · rw [if_neg h3, upd_other _ _ _ _ h3]

theorem snoc_inj {a b : List Nat} {c d : Nat} (h : a ++ [c] = b ++ [d]) : a = b ∧ c = d := by
  have := List.append_inj' h rfl
  simpa using this

theorem shape_step (sm : string_matcher) (path : Nat → List Nat) (state c : Nat)
    (h : Shape sm path) (hs : state < sm.n) (hnone : edge sm state c = none) :
    Shape (add_transition (grow_state sm).1 state c sm.n) (upd path sm.n (path state ++ [c])) := by
  have hn2 := (step_fields sm state c).1
  have hedge := step_edge sm state c hs
  have hp : ∀ s, s < sm.n → upd path sm.n (path state ++ [c]) s = path s := by
    intro s hs; exact upd_other _ _ _ _ (by omega)
  have hpn : upd path sm.n (path state ++ [c]) sm.n = path state ++ [c] := upd_same _ _ _
  have hnew : ∀ t, t < sm.n → path t ≠ path state ++ [c] := by
    intro t ht heq
    have := (h.edge_iff state c t hs).2 ⟨ht, heq⟩
    rw [hnone] at this; cases this
  have hlt : ∀ s, s < sm.n + 1 → s < sm.n ∨ s = sm.n := by intro s hs; omega
  refine ⟨by omega, ?_, ?_, ?_, ?_, ?_, ?_, ?_⟩
  · rw [hp 0 h.n_pos]; exact h.root
  · intro s t hs1 ht1 heq
    rw [hn2] at hs1 ht1
    rcases hlt s hs1 with hs2 | hs2 <;> rcases hlt t ht1 with ht2 | ht2
    · rw [hp s hs2, hp t ht2] at heq; exact h.inj s t hs2 ht2 heq
    · subst ht2; rw [hp s hs2, hpn] at heq; exact absurd heq (hnew s hs2)
    · subst hs2; rw [hp t ht2, hpn] at heq; exact absurd heq.symm (hnew t ht2)
    · omega
  · intro s hs1
    rw [hn2] at hs1
    rcases hlt s hs1 with hs2 | hs2
    · rw [hp s hs2]; exact h.depth_le s hs2
    · subst hs2; rw [hpn]
      have := h.depth_le state hs
      simp; omega
  · intro s d t hs1
    rw [hn2] at hs1
    rw [hedge s d, hn2]
    by_cases h1 : s = state
    · subst h1
      rw [if_pos rfl, hp s hs]
      by_cases h2 : c = d
      · subst h2
        rw [if_pos rfl]
        constructor
        · intro ht; cases ht; exact ⟨by omega, hpn⟩
        · rintro ⟨ht1, ht2⟩
          rcases hlt t ht1 with ht3 | ht3
          · rw [hp t ht3] at ht2; exact absurd ht2 (hnew t ht3)
          · rw [ht3]
      · rw [if_neg h2, h.edge_iff s d t hs]
        constructor
        · rintro ⟨ht1, ht2⟩; exact ⟨by omega, by rw [hp t ht1]; exact ht2⟩
        · rintro ⟨ht1, ht2⟩
          rcases hlt t ht1 with ht3 | ht3
          · rw [hp t ht3] at ht2; exact ⟨ht3, ht2⟩
          · subst ht3; rw [hpn] at ht2; exact absurd (snoc_inj ht2).2 h2
    · rw [if_neg h1]
      by_cases h3 : s = sm.n
      · subst h3
        rw [if_pos rfl, hpn]
        constructor
        · intro hc; cases hc
        · rintro ⟨ht1, ht2⟩
          exfalso
          rcases hlt t ht1 with ht3 | ht3
          · rw [hp t ht3] at ht2
            have ht0 : t ≠ 0 := by
              intro h0; subst h0; rw [h.root] at ht2; simp at ht2
            obtain ⟨p, e, hp1, hp2⟩ := h.parent t ht3 ht0
            rw [hp2] at ht2
            exact hnew p hp1 (snoc_inj ht2).1
          · subst ht3; rw [hpn] at ht2
            have := congrArg List.length ht2
            simp at this
      · rw [if_neg h3]
        have hs2 : s < sm.n := by omega
        rw [h.edge_iff s d t hs2, hp s hs2]
        constructor
        · rintro ⟨ht1, ht2⟩; exact ⟨by omega, by rw [hp t ht1]; exact ht2⟩
        · rintro ⟨ht1, ht2⟩
          rcases hlt t ht1 with ht3 | ht3
          · rw [hp t ht3] at ht2; exact ⟨ht3, ht2⟩
          · subst ht3; rw [hpn] at ht2
            exact absurd (h.inj _ _ hs hs2 (snoc_inj ht2).1).symm h1
  · intro t ht1 ht0
    rw [hn2] at ht1
    rcases hlt t ht1 with ht3 | ht3
    · obtain ⟨p, e, hp1, hp2⟩ := h.parent t ht3 ht0
      exact ⟨p, e, by omega, by rw [hp t ht3, hp p hp1]; exact hp2⟩
    · subst ht3
      exact ⟨state, c, by omega, by rw [hpn, hp state hs]⟩
  · rw [(step_fields sm state c).2.2.2.2]
    split_ifs with hc
    · exact h.alpha_nodup
    · exact List.Nodup.append h.alpha_nodup (List.nodup_singleton c) (by simpa using hc)
  · intro d
    rw [(step_fields sm state c).2.2.2.2, hn2]
    have hmem : (d ∈ if c ∈ sm.alphabet then sm.alphabet else sm.alphabet ++ [c]) ↔
        (d ∈ sm.alphabet ∨ d = c) := by
      split_ifs with hc
      · constructor
        · intro hd; exact Or.inl hd
        · rintro (hd | hd)
          · exact hd
          · rw [hd]; exact hc
      · simp
    rw [hmem, h.alpha_iff d]
    constructor
    · rintro (⟨s, t, hs1, he⟩ | hd)
      · refine ⟨s, if s = state then (if c = d then sm.n else t) else t, by omega, ?_⟩
        rw [hedge s d]
        by_cases h1 : s = state
        · subst h1
          by_cases h2 : c = d
          · simp [h2]
          · simp [h2, he]
        · have h3 : s ≠ sm.n := by omega
          simp [h1, h3, he]
      · subst hd
        exact ⟨state, sm.n, by omega, by rw [hedge state d]; simp⟩
    · rintro ⟨s, t, hs1, he⟩
      rw [hedge s d] at he
      by_cases h1 : s = state
      · subst h1
        by_cases h2 : c = d
        · exact Or.inr h2.symm
        · rw [if_pos rfl, if_neg h2] at he
          exact Or.inl ⟨s, t, hs, he⟩
      · rw [if_neg h1] at he
        by_cases h3 : s = sm.n
        · rw [if_pos h3] at he; cases he
        · rw [if_neg h3] at he
          exact Or.inl ⟨s, t, by omega, he⟩

theorem Shape.wd_nil {sm : string_matcher} {path : Nat → List Nat} (h : Shape sm path) :
    Wd sm path [] := ⟨0, h.n_pos, h.root⟩

theorem Shape.ne_zero {sm : string_matcher} {path : Nat → List Nat} (h : Shape sm path)
    {s : Nat} (hs : s < sm.n) : s ≠ 0 ↔ path s ≠ [] := by
  constructor
  · intro h0 hp
    exact h0 (h.inj s 0 hs h.n_pos (by rw [hp, h.root]))
  · intro hp h0
    subst h0
    exact hp h.root

theorem Shape.wd_snoc {sm : string_matcher} {path : Nat → List Nat} (h : Shape sm path)
    {w : List Nat} {c : Nat} (hw : Wd sm path (w ++ [c])) : Wd sm path w := by
  obtain ⟨t, ht, hpt⟩ := hw
  have ht0 : t ≠ 0 := by
    rw [h.ne_zero ht, hpt]; simp
  obtain ⟨p, e, hp1, hp2⟩ := h.parent t ht ht0
  rw [hpt] at hp2
  exact ⟨p, hp1, (snoc_inj hp2).1.symm⟩

theorem Shape.wd_append {sm : string_matcher} {path : Nat → List Nat} (h : Shape sm path) :
    ∀ (v w : List Nat), Wd sm path (w ++ v) → Wd sm path w := by
  intro v
  induction v using List.reverseRecOn with
  | nil => intro w hw; simpa using hw
  | append_singleton v c ih =>
    intro w hw
    rw [← List.append_assoc] at hw
    exact ih w (h.wd_snoc hw)

theorem Shape.wd_of_le {sm : string_matcher} {path : Nat → List Nat} (h : Shape sm path)
    {u w : List Nat} (hu : u <+: w) (hw : Wd sm path w) : Wd sm path u := by
  obtain ⟨v, rfl⟩ := hu
  exact h.wd_append v u hw

theorem extend_trie_output : ∀ (rest : List Nat) (sm : string_matcher) (state : Nat),
    (∀ s : Nat, sm.n ≤ s → sm.output s = []) →
    ∀ s : Nat, (extend_trie sm state rest).1.output s = sm.output s := by
  intro rest
  induction rest with
  | nil => intro sm state _ s; rfl
  | cons c cs ih =>
    intro sm state hf s
    have hstep := step_fields sm state c
    have e : extend_trie sm state (c :: cs) =
        extend_trie (add_transition (grow_state sm).1 state c sm.n) sm.n cs := rfl
    have hout : ∀ t : Nat, (add_transition (grow_state sm).1 state c sm.n).output t = sm.output t := by
      intro t
      rw [hstep.2.2.1]
      by_cases ht : t = sm.n
      · subst ht; rw [upd_same, hf _ (le_refl _)]
      · rw [upd_other _ _ _ _ ht]
    rw [e, ih _ _ (fun t ht => by rw [hout t]; exact hf t (by rw [hstep.1] at ht; omega)) s, hout s]

theorem extend_trie_failure : ∀ (rest : List Nat) (sm : string_matcher) (state : Nat),
    (∀ s : Nat, sm.failure s = 0) →
    ∀ s : Nat, (extend_trie sm state rest).1.failure s = 0 := by
  intro rest
  induction rest with
  | nil => intro sm state hf s; exact hf s
  | cons c cs ih =>
    intro sm state hf s
    have hstep := step_fields sm state c
    have e : extend_trie sm state (c :: cs) =
        extend_trie (add_transition (grow_state sm).1 state c sm.n) sm.n cs := rfl
    rw [e]
    apply ih
    intro t
    rw [hstep.2.2.2.1]
    by_cases ht : t = sm.n
    · subst ht; rw [upd_same]
    · rw [upd_other _ _ _ _ ht]; exact hf t

theorem extend_trie_spec : ∀ (rest : List Nat) (sm : string_matcher) (path : Nat → List Nat)
    (state : Nat), Shape sm path → state < sm.n →
    (∀ (c : Nat) (cs : List Nat), rest = c :: cs → edge sm state c = none) →
    ∃ path1 : Nat → List Nat, Shape (extend_trie sm state rest).1 path1 ∧
      (∀ s : Nat, s < sm.n → path1 s = path s) ∧
      sm.n ≤ (extend_trie sm state rest).1.n ∧
      (extend_trie sm state rest).2 < (extend_trie sm state rest).1.n ∧
      path1 (extend_trie sm state rest).2 = path state ++ rest ∧
      (∀ w : List Nat, Wd (extend_trie sm state rest).1 path1 w ↔
        (Wd sm path w ∨ ∃ u : List Nat, u ≠ [] ∧ u <+: rest ∧ w = path state ++ u)) := by
  intro rest
  induction rest with
  | nil =>
    intro sm path state h hs _
    refine ⟨path, h, fun _ _ => rfl, le_refl _, hs, by simp [extend_trie], ?_⟩
    intro w
    constructor
    · intro hw; exact Or.inl hw
    · rintro (hw | ⟨u, hu0, hu, _⟩)
      · exact hw
      · exact absurd (List.prefix_nil.1 hu) hu0
  | cons c cs ih =>
    intro sm path state h hs hfresh
    have hnone := hfresh c cs rfl
    have hstep := step_fields sm state c
    have e : extend_trie sm state (c :: cs) =
        extend_trie (add_transition (grow_state sm).1 state c sm.n) sm.n cs := rfl
    have h2 := shape_step sm path state c h hs hnone
    have hfresh2 : ∀ (d : Nat) (ds : List Nat), cs = d :: ds →
        edge (add_transition (grow_state sm).1 state c sm.n) sm.n d = none := by
      intro d ds _
      rw [step_edge sm state c hs]
      have : sm.n ≠ state := by omega
      simp [this]
    obtain ⟨path1, hsh, hag, hle, hlt, hlast, hwd⟩ :=
      ih _ _ sm.n h2 (by rw [hstep.1]; omega) hfresh2
    rw [hstep.1] at hag hle
    rw [e]
    have hp : ∀ s : Nat, s < sm.n → upd path sm.n (path state ++ [c]) s = path s := by
      intro s hs; exact upd_other _ _ _ _ (by omega)
    refine ⟨path1, hsh, ?_, by omega, hlt, ?_, ?_⟩
    · intro s hs1; rw [hag s (by omega), hp s hs1]
    · rw [hlast, upd_same]; simp
    · intro w
      rw [hwd w, upd_same]
      have hw2 : Wd (add_transition (grow_state sm).1 state c sm.n)
          (upd path sm.n (path state ++ [c])) w ↔ (Wd sm path w ∨ w = path state ++ [c]) := by
        unfold Wd
        rw [hstep.1]
        constructor
        · rintro ⟨s, hs1, hs2⟩
          by_cases hsn : s = sm.n
          · subst hsn; rw [upd_same] at hs2; exact Or.inr hs2.symm
          · rw [upd_other _ _ _ _ hsn] at hs2; exact Or.inl ⟨s, by omega, hs2⟩
        · rintro (⟨s, hs1, hs2⟩ | hw)
          · exact ⟨s, by omega, by rw [hp s hs1]; exact hs2⟩
          · exact ⟨sm.n, by omega, by rw [upd_same]; exact hw.symm⟩
      rw [hw2]
      constructor
      · rintro ((hw | hw) | ⟨u, hu0, hu, hw⟩)
        · exact Or.inl hw
        · exact Or.inr ⟨[c], by simp, by simp, hw⟩
        · refine Or.inr ⟨c :: u, by simp, ?_, by rw [hw]; simp⟩
          exact List.cons_prefix_cons.2 ⟨rfl, hu⟩
      · rintro (hw | ⟨u, hu0, hu, hw⟩)
        · exact Or.inl (Or.inl hw)
        · cases u with
          | nil => exact absurd rfl hu0
          | cons d u =>
            obtain ⟨hd, hu1⟩ := List.cons_prefix_cons.1 hu
            subst hd
            by_cases hu2 : u = []
            · subst hu2; exact Or.inl (Or.inr hw)
            · exact Or.inr ⟨u, hu2, hu1, by rw [hw]; simp⟩

theorem trie_walk_spec : ∀ (p : List Nat) (sm : string_matcher) (path : Nat → List Nat)
    (state : Nat), Shape sm path → state < sm.n →
    (trie_walk sm state p).1 < sm.n ∧
    ∃ pre : List Nat, p = pre ++ (trie_walk sm state p).2 ∧
      path (trie_walk sm state p).1 = path state ++ pre ∧
      ∀ (c : Nat) (cs : List Nat), (trie_walk sm state p).2 = c :: cs →
        edge sm (trie_walk sm state p).1 c = none := by
  intro p
  induction p with
  | nil =>
    intro sm path state _ hs
    refine ⟨hs, [], by simp [trie_walk], by simp [trie_walk], ?_⟩
    intro c cs hc
    simp [trie_walk] at hc
  | cons c cs ih =>
    intro sm path state h hs
    cases he : edge sm state c with
    | none =>
      have hres : trie_walk sm state (c :: cs) = (state, c :: cs) := by
        by_cases h0 : state = 0
        · subst h0
          simp [trie_walk, goto_state_root_none sm c hs he]
        · simp [trie_walk, goto_state_none sm state c h0 he]
      rw [hres]
      refine ⟨hs, [], by simp, by simp, ?_⟩
      intro d ds hd
      simp at hd
      rw [← hd.1]; exact he
    | some t =>
      obtain ⟨ht, hpt⟩ := (h.edge_iff state c t hs).1 he
      have ht0 : t ≠ 0 := by rw [h.ne_zero ht, hpt]; simp
      have hres : trie_walk sm state (c :: cs) = trie_walk sm t cs := by
        simp [trie_walk, goto_state_of_edge sm state t c hs he, ht0]
      rw [hres]
      obtain ⟨h1, pre, h2, h3, h4⟩ := ih sm path t h ht
      refine ⟨h1, c :: pre, by rw [List.cons_append, ← h2], by rw [h3, hpt]; simp, h4⟩

theorem shape_congr {sm sm1 : string_matcher} {path : Nat → List Nat} (h : Shape sm path)
    (hn : sm1.n = sm.n) (ht : sm1.trans_matrix = sm.trans_matrix)
    (ha : sm1.alphabet = sm.alphabet) : Shape sm1 path := by
  have he : ∀ s c : Nat, edge sm1 s c = edge sm s c := by
    intro s c; unfold edge; rw [ht]
  refine ⟨by rw [hn]; exact h.n_pos, h.root, ?_, ?_, ?_, ?_, by rw [ha]; exact h.alpha_nodup, ?_⟩
  · rw [hn]; exact h.inj
  · rw [hn]; exact h.depth_le
  · intro s c t; rw [hn, he]; exact h.edge_iff s c t
  · rw [hn]; exact h.parent
  · intro c; rw [ha, hn, h.alpha_iff]; simp only [he]

theorem to_int_of_le {n : Nat} (h : n ≤ 2147483647) : to_int n = (n : Int) := by
  unfold to_int
  have e : n % 4294967296 = n := Nat.mod_eq_of_lt (by omega)
  rw [e, if_pos (by omega)]

theorem to_uint_of_le {n : Nat} (h : n ≤ 2147483647) : to_uint n = n := by
  unfold to_uint
  exact Nat.mod_eq_of_lt (by omega)

theorem to_int_toNat_le (n : Nat) : (to_int n).toNat ≤ n := by
  unfold to_int
  have := Nat.mod_le n 4294967296
  split_ifs with h
  · omega
  · omega

theorem to_int_le (n : Nat) : to_int n ≤ 2147483647 := by
  unfold to_int
  split_ifs with h
  · omega
  · omega

theorem item_of_le {p : List Nat} (h : p.length ≤ 2147483647) : item p = (p, p.length) := by
  unfold item
  rw [to_int_of_le h, to_uint_of_le h, Int.toNat_ofNat, List.take_length]

theorem own_append (items : List (List Nat × Nat)) (q w : List Nat) (b : Nat) :
    own (items ++ [(q, b)]) w = (if q = w then [b] else []) ++ own items w := by
  unfold own
  rw [List.filter_append, List.map_append, List.reverse_append]
  by_cases h : q = w
  · simp [List.filter_cons, h]
  · simp [List.filter_cons, h]

theorem mem_own (items : List (List Nat × Nat)) (w : List Nat) (l : Nat) :
    l ∈ own items w ↔ ∃ it : List Nat × Nat, it ∈ items ∧ it.1 = w ∧ it.2 = l := by
  unfold own
  rw [List.mem_reverse, List.mem_map]
  constructor
  · rintro ⟨it, hit, hl⟩
    rw [List.mem_filter] at hit
    exact ⟨it, hit.1, by simpa using hit.2, hl⟩
  · rintro ⟨it, hit, hw, hl⟩
    exact ⟨it, List.mem_filter.2 ⟨hit, by simpa using hw⟩, hl⟩

theorem own_eq_nil (items : List (List Nat × Nat)) (w : List Nat)
    (h : ∀ it : List Nat × Nat, it ∈ items → it.1 ≠ w) : own items w = [] := by
  rw [List.eq_nil_iff_forall_not_mem]
  intro l hl
  obtain ⟨it, hit, hw, _⟩ := (mem_own items w l).1 hl
  exact h it hit hw

theorem own_exact (pats : List (List Nat)) (w : List Nat)
    (hb : ∀ p : List Nat, p ∈ pats → p.length ≤ 2147483647) :
    own (pats.map item) w = List.replicate (pats.count w) w.length := by
  have h : (((pats.map item).filter (fun it => decide (it.1 = w))).map (fun it => it.2)) =
      List.replicate (pats.count w) w.length := by
    induction pats with
    | nil => simp
    | cons p ps ih =>
      have ih1 := ih (fun q hq => hb q (List.mem_cons_of_mem p hq))
      have hp := item_of_le (hb p (List.mem_cons_self p ps))
      rw [List.map_cons, hp]
      by_cases h : p = w
      · subst h
        simp [List.filter_cons, List.replicate_succ, ih1]
      · have h1 : ¬ (p == w) = true := by simpa using h
        simp [List.filter_cons, h, ih1, List.count_cons, h1]
  unfold own
  rw [h, List.reverse_replicate]

theorem trie_init : ItemTrie (grow_state (init_string_matcher 128)).1 [] (fun _ => []) := by
  have hedge : ∀ s c : Nat, edge (grow_state (init_string_matcher 128)).1 s c = none := by
    intro s c
    unfold edge grow_state init_string_matcher
    by_cases hs : s = 0
    · subst hs; simp [upd]
    · simp [upd, hs]
  have hn : (grow_state (init_string_matcher 128)).1.n = 1 := rfl
  refine ⟨⟨by rw [hn]; omega, rfl, ?_, ?_, ?_, ?_, ?_, ?_⟩, ?_, ?_, ?_, ?_⟩
  · intro s t hs ht _; rw [hn] at hs ht; omega
  · intro s hs; simp
  · intro s c t hs
    rw [hedge]
    simp
  · intro t ht ht0; rw [hn] at ht; omega
  · exact List.nodup_nil
  · intro c
    have ha : (grow_state (init_string_matcher 128)).1.alphabet = [] := rfl
    simp [hedge, ha]
  · intro w
    unfold Wd
    rw [hn]
    constructor
    · rintro ⟨s, _, hs⟩; exact Or.inl hs.symm
    · rintro (hw | ⟨p, hp, _⟩)
      · exact ⟨0, by omega, hw.symm⟩
      · simp at hp
  · intro s hs
    rw [hn] at hs
    have : s = 0 := by omega
    subst this
    rfl
  · intro s hs
    unfold grow_state init_string_matcher
    simp [upd]
  · intro s
    unfold grow_state init_string_matcher
    simp [upd]

theorem insert_spec (sm : string_matcher) (items : List (List Nat × Nat))
    (path : Nat → List Nat) (q : List Nat) (b : Nat) (h : ItemTrie sm items path) :
    ∃ path1 : Nat → List Nat,
      ItemTrie (add_output_state (extend_trie sm (trie_walk sm 0 q).1 (trie_walk sm 0 q).2).1
        (extend_trie sm (trie_walk sm 0 q).1 (trie_walk sm 0 q).2).2 b)
        (items ++ [(q, b)]) path1 := by
  obtain ⟨hw1, pre, hpre, hpath, hfresh⟩ := trie_walk_spec q sm path 0 h.shape h.shape.n_pos
  rw [h.shape.root, List.nil_append] at hpath
  obtain ⟨path1, hsh, hag, hle, hlt, hlast, hwd⟩ :=
    extend_trie_spec (trie_walk sm 0 q).2 sm path (trie_walk sm 0 q).1 h.shape hw1 hfresh
  rw [hpath, ← hpre] at hlast
  have hout := extend_trie_output (trie_walk sm 0 q).2 sm (trie_walk sm 0 q).1 h.out_fresh
  have hfail := extend_trie_failure (trie_walk sm 0 q).2 sm (trie_walk sm 0 q).1 h.fail0
  generalize extend_trie sm (trie_walk sm 0 q).1 (trie_walk sm 0 q).2 = e at *
  generalize trie_walk sm 0 q = wk at *
  have hnew : ∀ s : Nat, sm.n ≤ s → s < e.1.n → own items (path1 s) = [] := by
    intro s hs1 hs2
    apply own_eq_nil
    intro it hit hp
    obtain ⟨s0, hs0, hp0⟩ := (h.words (path1 s)).2 (Or.inr ⟨it, hit, by rw [hp]⟩)
    have := hsh.inj s0 s (by omega) hs2 (by rw [hag s0 hs0]; exact hp0)
    omega
  have hold : ∀ s : Nat, s < e.1.n → sm.output s = own items (path1 s) := by
    intro s hs
    by_cases hs1 : s < sm.n
    · rw [h.out s hs1, hag s hs1]
    · rw [h.out_fresh s (by omega), hnew s (by omega) hs]
  refine ⟨path1, shape_congr hsh rfl rfl rfl, ?_, ?_, ?_, ?_⟩
  · intro w
    have hw0 : Wd (add_output_state e.1 e.2 b) path1 w ↔ Wd e.1 path1 w := Iff.rfl
    rw [hw0, hwd w]
    constructor
    · rintro (hw | ⟨u, _, hu, hw⟩)
      · rcases (h.words w).1 hw with h1 | ⟨it, hit, hq1⟩
        · exact Or.inl h1
        · exact Or.inr ⟨it, by simp [hit], hq1⟩
      · refine Or.inr ⟨(q, b), by simp, ?_⟩
        rw [hw, hpath]
        show pre ++ u <+: q
        rw [hpre]
        exact (List.prefix_append_right_inj pre).2 hu
    · rintro (hw | ⟨it, hit, hq1⟩)
      · rw [hw]; exact Or.inl h.shape.wd_nil
      · rcases List.mem_append.1 hit with hq2 | hq2
        · exact Or.inl ((h.words w).2 (Or.inr ⟨it, hq2, hq1⟩))
        · have hqp : it = (q, b) := by simpa using hq2
          subst hqp
          have hq1b : w <+: q := hq1
          have hprew : Wd sm path pre := ⟨_, hw1, hpath⟩
          have hpp : pre <+: q := by rw [hpre]; exact List.prefix_append _ _
          rcases List.prefix_or_prefix_of_prefix hq1b hpp with h1 | h1
          · exact Or.inl (h.shape.wd_of_le h1 hprew)
          · obtain ⟨u, rfl⟩ := h1
            by_cases hu : u = []
            · subst hu; rw [List.append_nil]; exact Or.inl hprew
            · refine Or.inr ⟨u, hu, ?_, by rw [hpath]⟩
              rw [hpre] at hq1b
              exact (List.prefix_append_right_inj pre).1 hq1b
  · intro s hs
    have hs1 : s < e.1.n := hs
    have hos : (add_output_state e.1 e.2 b).output s =
        upd e.1.output e.2 (b :: e.1.output e.2) s := rfl
    rw [hos, own_append]
    by_cases hse : s = e.2
    · rw [hse, upd_same, hout, hold _ hlt, hlast]
      simp
    · rw [upd_other _ _ _ _ hse, hout, hold s hs1]
      have hne : q ≠ path1 s := by
        intro hp
        exact hse (hsh.inj s e.2 hs1 hlt (by rw [← hp, hlast]))
      rw [if_neg hne, List.nil_append]
  · intro s hs
    have hs1 : e.1.n ≤ s := hs
    have hos : (add_output_state e.1 e.2 b).output s =
        upd e.1.output e.2 (b :: e.1.output e.2) s := rfl
    have hlt1 : (e.2 : Nat) < e.1.n := hlt
    have hne : s ≠ e.2 := by omega
    rw [hos, upd_other _ _ _ _ hne, hout]
    exact h.out_fresh s (by omega)
  · intro s
    exact hfail s

theorem insert_pattern_spec (sm : string_matcher) (items : List (List Nat × Nat))
    (path : Nat → List Nat) (p : List Nat) (h : ItemTrie sm items path) :
    ∃ path1 : Nat → List Nat, ItemTrie (insert_pattern sm p) (items ++ [item p]) path1 :=
  insert_spec sm items path (item p).1 (item p).2 h

theorem foldl_insert_pattern_spec : ∀ (rest : List (List Nat)) (sm : string_matcher)
    (items : List (List Nat × Nat)) (path : Nat → List Nat), ItemTrie sm items path →
    ∃ path1 : Nat → List Nat,
      ItemTrie (rest.foldl insert_pattern sm) (items ++ rest.map item) path1 := by
  intro rest
  induction rest with
  | nil => intro sm items path h; exact ⟨path, by simpa using h⟩
  | cons p ps ih =>
    intro sm items path h
    obtain ⟨path1, h1⟩ := insert_pattern_spec sm items path p h
    obtain ⟨path2, h2⟩ := ih _ _ path1 h1
    exact ⟨path2, by simpa using h2⟩

theorem goto_trie_items (pats : List (List Nat)) :
    ∃ path : Nat → List Nat, ItemTrie (goto_trie pats) (pats.map item) path := by
  obtain ⟨path, h⟩ := foldl_insert_pattern_spec pats _ [] _ trie_init
  exact ⟨path, by simpa [goto_trie] using h⟩

theorem mem_items_of_le {pats : List (List Nat)}
    (hb : ∀ p : List Nat, p ∈ pats → p.length ≤ 2147483647) (it : List Nat × Nat) :
    it ∈ pats.map item ↔ ∃ p : List Nat, p ∈ pats ∧ it = (p, p.length) := by
  rw [List.mem_map]
  constructor
  · rintro ⟨p, hp, rfl⟩
    exact ⟨p, hp, item_of_le (hb p hp)⟩
  · rintro ⟨p, hp, rfl⟩
    exact ⟨p, hp, item_of_le (hb p hp)⟩

theorem goto_trie_spec (pats : List (List Nat))
    (hb : ∀ p : List Nat, p ∈ pats → p.length ≤ 2147483647) :
    ∃ path : Nat → List Nat, Trie (goto_trie pats) pats path := by
  obtain ⟨path, h⟩ := goto_trie_items pats
  refine ⟨path, h.shape, ?_, ?_, h.out_fresh, h.fail0⟩
  · intro w
    rw [h.words w]
    constructor
    · rintro (hw | ⟨it, hit, hpre⟩)
      · exact Or.inl hw
      · obtain ⟨p, hp, rfl⟩ := (mem_items_of_le hb it).1 hit
        exact Or.inr ⟨p, hp, hpre⟩
    · rintro (hw | ⟨p, hp, hpre⟩)
      · exact Or.inl hw
      · exact Or.inr ⟨(p, p.length), (mem_items_of_le hb _).2 ⟨p, hp, rfl⟩, hpre⟩
  · intro s hs
    rw [h.out s hs, own_exact pats (path s) hb]

theorem lsuf_self {W : List Nat → Prop} {x : List Nat} (h : W x) : IsLSuf W x x :=
  ⟨List.suffix_refl x, h, fun _ hu _ => hu.length_le⟩

theorem lsuf_unique {W : List Nat → Prop} {x v w : List Nat} (h1 : IsLSuf W x v)
    (h2 : IsLSuf W x w) : v = w := by
  have hl : v.length = w.length :=
    le_antisymm (h2.2.2 v h1.1 h1.2.1) (h1.2.2 w h2.1 h2.2.1)
  have hvw : v <:+ w := List.suffix_of_suffix_length_le h1.1 h2.1 (le_of_eq hl)
  exact hvw.eq_of_length hl

theorem lsuf_cons_of_not {W : List Nat → Prop} {a : Nat} {x z : List Nat} (hn : ¬ W (a :: x))
    (h : IsLSuf W x z) : IsLSuf W (a :: x) z := by
  refine ⟨h.1.trans (List.suffix_cons a x), h.2.1, ?_⟩
  intro u hu hw
  rcases List.suffix_cons_iff.1 hu with h1 | h1
  · rw [h1] at hw; exact absurd hw hn
  · exact h.2.2 u h1 hw

theorem suffix_snoc_cases {u x : List Nat} {c : Nat} (h : u <:+ x ++ [c]) :
    u = [] ∨ ∃ v : List Nat, v <:+ x ∧ u = v ++ [c] := by
  rcases List.eq_nil_or_concat u with h0 | ⟨v, d, hv⟩
  · exact Or.inl h0
  · right
    subst hv
    rw [List.concat_eq_append] at h
    obtain ⟨t, ht⟩ := h
    rw [← List.append_assoc] at ht
    obtain ⟨h1, h2⟩ := snoc_inj ht
    subst h2
    exact ⟨v, ⟨t, h1⟩, by rw [List.concat_eq_append]⟩

theorem lsuf_snoc {W : List Nat → Prop} (pc : ∀ (w : List Nat) (c : Nat), W (w ++ [c]) → W w)
    {a b z : List Nat} {c : Nat} (h1 : IsLSuf W a b) (h2 : IsLSuf W (b ++ [c]) z) :
    IsLSuf W (a ++ [c]) z := by
  refine ⟨h2.1.trans ?_, h2.2.1, ?_⟩
  · obtain ⟨t, ht⟩ := h1.1
    exact ⟨t, by rw [← ht]; simp⟩
  · intro u hu hw
    rcases suffix_snoc_cases hu with h0 | ⟨v, hv, hv1⟩
    · rw [h0]; simp
    · subst hv1
      have hvl := h1.2.2 v hv (pc v c hw)
      have hvb : v <:+ b := List.suffix_of_suffix_length_le hv h1.1 hvl
      apply h2.2.2 _ _ hw
      obtain ⟨t, ht⟩ := hvb
      exact ⟨t, by rw [← ht]; simp⟩

theorem failure_follow_eq_scan_fail (sm : string_matcher) (c : Nat) (hn : 0 < sm.n) :
    ∀ (fuel x : Nat), failure_follow sm c fuel x = scan_fail sm c fuel x := by
  intro fuel
  induction fuel with
  | zero => intro x; rfl
  | succ f ih =>
    intro x
    unfold failure_follow scan_fail
    cases hg : goto_state sm x c with
    | some t => rfl
    | none =>
      have hx : x ≠ 0 := by
        intro h0; subst h0
        unfold goto_state at hg
        rw [if_neg (by omega)] at hg
        cases hf : (sm.trans_matrix 0).find? (fun t => t.sym == c) with
        | none => simp [hf] at hg
        | some e => simp [hf] at hg
      simp only [hx, ne_eq, not_false_eq_true, if_true]
      exact ih _

theorem scan_fail_spec (sm : string_matcher) (path : Nat → List Nat) (h : Shape sm path)
    (c d : Nat) (hf : FailUpTo sm path d) :
    ∀ (fuel x : Nat), x < sm.n → (path x).length ≤ d → (path x).length < fuel →
    ∃ y z : Nat, scan_fail sm c fuel x = some y ∧ y < sm.n ∧ goto_state sm y c = some z ∧
      z < sm.n ∧ IsLSuf (Wd sm path) (path x ++ [c]) (path z) := by
  intro fuel
  induction fuel with
  | zero => intro x _ _ hlt; omega
  | succ f ih =>
    intro x hx hd hlt
    cases he : edge sm x c with
    | some z =>
      obtain ⟨hz, hpz⟩ := (h.edge_iff x c z hx).1 he
      have hg := goto_state_of_edge sm x z c hx he
      refine ⟨x, z, by simp [scan_fail, hg], hx, hg, hz, ?_⟩
      rw [← hpz]
      exact lsuf_self ⟨z, hz, rfl⟩
    | none =>
      have hnw : ¬ Wd sm path (path x ++ [c]) := by
        rintro ⟨t, ht, hpt⟩
        have := (h.edge_iff x c t hx).2 ⟨ht, hpt⟩
        rw [he] at this; cases this
      by_cases h0 : x = 0
      · subst h0
        have hg := goto_state_root_none sm c hx he
        refine ⟨0, 0, by simp [scan_fail, hg], hx, hg, hx, ?_⟩
        rw [h.root] at hnw ⊢
        exact lsuf_cons_of_not hnw (lsuf_self (by simpa [h.root] using h.wd_nil))
      · have hg := goto_state_none sm x c h0 he
        have hfs : fail_state sm x = sm.failure x := by simp [fail_state, hx]
        obtain ⟨hfx, hls⟩ := hf x hx hd
        have hpx : path x ≠ [] := (h.ne_zero hx).1 h0
        obtain ⟨a, tl, hcons⟩ := List.exists_cons_of_ne_nil hpx
        rw [hcons, List.tail_cons] at hls
        have hlen : (path (sm.failure x)).length ≤ tl.length := hls.1.length_le
        have hxl : (path x).length = tl.length + 1 := by rw [hcons]; simp
        obtain ⟨y, z, h1, h2, h3, h4, h5⟩ := ih (sm.failure x) hfx (by omega) (by omega)
        refine ⟨y, z, by simp [scan_fail, hg, hfs, h1], h2, h3, h4, ?_⟩
        have h6 := lsuf_snoc (fun w e => h.wd_snoc) hls h5
        rw [hcons] at hnw ⊢
        exact lsuf_cons_of_not hnw h6

theorem wd_congr {sm sm0 : string_matcher} (path : Nat → List Nat) (hn : sm.n = sm0.n) :
    Wd sm path = Wd sm0 path := by
  funext w; unfold Wd; rw [hn]

theorem foldl_add_output : ∀ (l : List Nat) (sm : string_matcher) (s : Nat),
    (l.foldl (fun acc blen => add_output_state acc s blen) sm).n = sm.n ∧
    (l.foldl (fun acc blen => add_output_state acc s blen) sm).trans_matrix = sm.trans_matrix ∧
    (l.foldl (fun acc blen => add_output_state acc s blen) sm).alphabet = sm.alphabet ∧
    (l.foldl (fun acc blen => add_output_state acc s blen) sm).failure = sm.failure ∧
    ∀ t : Nat, (l.foldl (fun acc blen => add_output_state acc s blen) sm).output t =
      if t = s then l.reverse ++ sm.output s else sm.output t := by
  intro l
  induction l with
  | nil =>
    intro sm s
    refine ⟨rfl, rfl, rfl, rfl, ?_⟩
    intro t
    by_cases ht : t = s
    · subst ht; simp
    · simp [ht]
  | cons b l ih =>
    intro sm s
    obtain ⟨h1, h2, h3, h4, h5⟩ := ih (add_output_state sm s b) s
    rw [List.foldl_cons]
    refine ⟨h1, h2, h3, h4, ?_⟩
    intro t
    rw [h5 t]
    by_cases ht : t = s
    · subst ht; simp [add_output_state]
    · simp [add_output_state, ht]

theorem failure_letter_none (sm : string_matcher) (r c : Nat) (q : List Nat) (hr : r ≠ 0)
    (he : edge sm r c = none) : failure_letter sm r q c = some (sm, q) := by
  simp [failure_letter, goto_state_none sm r c hr he]

theorem failure_letter_edge (sm : string_matcher) (path : Nat → List Nat) (h : Shape sm path)
    (r c s : Nat) (q : List Nat) (hr : r < sm.n) (he : edge sm r c = some s)
    (hf : FailUpTo sm path (path r).length) :
    ∃ (z : Nat) (sm2 : string_matcher), failure_letter sm r q c = some (sm2, q ++ [s]) ∧
      z < sm.n ∧ IsLSuf (Wd sm path) (path (sm.failure r) ++ [c]) (path z) ∧
      sm2.n = sm.n ∧ sm2.trans_matrix = sm.trans_matrix ∧ sm2.alphabet = sm.alphabet ∧
      (∀ t : Nat, sm2.failure t = if t = s then z else sm.failure t) ∧
      (∀ t : Nat, sm2.output t =
        if t = s then (sm.output z).reverse ++ sm.output s else sm.output t) := by
  obtain ⟨hs, hps⟩ := (h.edge_iff r c s hr).1 he
  obtain ⟨hx, hlx⟩ := hf r hr (le_refl _)
  have hxd : (path (sm.failure r)).length ≤ (path r).length :=
    le_trans hlx.1.length_le (by simp)
  have hxn : (path (sm.failure r)).length < sm.n :=
    lt_of_le_of_lt (h.depth_le _ hx) hx
  obtain ⟨y, z, h1, h2, h3, h4, h5⟩ :=
    scan_fail_spec sm path h c (path r).length hf sm.n (sm.failure r) hx hxd hxn
  have hfr : fail_state sm r = sm.failure r := by simp [fail_state, hr]
  have hg := goto_state_of_edge sm r s c hr he
  have htgt : failure_target sm y c = z := by simp [failure_target, h3]
  have hfs : fail_state { sm with failure := upd sm.failure s z } s = z := by
    simp [fail_state, hs]
  obtain ⟨g1, g2, g3, g4, g5⟩ := foldl_add_output (sm.output z)
    { sm with failure := upd sm.failure s z } s
  refine ⟨z, _, ?_, h4, h5, g1, g2, g3, ?_, ?_⟩
  · simp only [failure_letter, hg, hfr, failure_follow_eq_scan_fail sm c h.n_pos, h1, htgt,
      hfs, output_state]
  · intro t
    rw [g4]
    by_cases ht : t = s
    · subst ht; simp
    · simp [ht]
  · intro t
    rw [g5 t]

theorem Linked.depth_le {sm0 sm : string_matcher} {path : Nat → List Nat} {t : Nat}
    (h : Linked sm0 path sm t) : (path (sm.failure t)).length ≤ (path t).length - 1 := by
  have := h.2.1.1.length_le
  rw [List.length_tail] at this
  exact this

theorem linked_frame (sm0 : string_matcher) (path : Nat → List Nat) (sm sm2 : string_matcher)
    (s t z : Nat) (x : List Nat) (hl : Linked sm0 path sm t) (hts : t ≠ s)
    (hd : (path t).length ≤ (path s).length) (hs1 : 1 ≤ (path s).length)
    (hf : ∀ u : Nat, sm2.failure u = if u = s then z else sm.failure u)
    (ho : ∀ u : Nat, sm2.output u = if u = s then x else sm.output u) :
    Linked sm0 path sm2 t := by
  have hfl := hl.depth_le
  have hne : sm.failure t ≠ s := by
    intro he; rw [he] at hfl; omega
  obtain ⟨h1, h2, h3⟩ := hl
  unfold Linked
  rw [hf t, if_neg hts, ho t, if_neg hts, ho (sm.failure t), if_neg hne]
  exact ⟨h1, h2, h3⟩

theorem inner_step (sm0 : string_matcher) (path : Nat → List Nat) (h0 : Shape sm0 path)
    (sm : string_matcher) (done q ls : List Nat) (r c : Nat)
    (inv : BfsInv sm0 path (fun r1 c1 => r1 = r → c1 ∈ ls) sm done q)
    (hr : r ∈ done) (hlast : ∀ r1 : Nat, r1 ∈ done → (path r1).length ≤ (path r).length)
    (hlev : ∀ t : Nat, t < sm0.n → (path t).length ≤ (path r).length → Linked sm0 path sm t)
    (hc : c ∉ ls) :
    ∃ (sm1 : string_matcher) (q1 : List Nat), failure_letter sm r q c = some (sm1, q1) ∧
      BfsInv sm0 path (fun r1 c1 => r1 = r → c1 ∈ ls ++ [c]) sm1 done q1 ∧
      ∀ t : Nat, t < sm0.n → (path t).length ≤ (path r).length → Linked sm0 path sm1 t := by
  have hsh : Shape sm path := shape_congr h0 inv.frame_n inv.frame_t inv.frame_a
  have hn := inv.frame_n
  obtain ⟨hrn, hr0, _⟩ := (inv.mem_iff r).1 (List.mem_append_left _ hr)
  have hrp : path r ≠ [] := (h0.ne_zero hrn).1 hr0
  have hrd : 1 ≤ (path r).length := List.length_pos.2 hrp
  cases he : edge sm r c with
  | none =>
    refine ⟨sm, q, failure_letter_none sm r c q hr0 he, ?_, hlev⟩
    refine ⟨inv.frame_n, inv.frame_t, inv.frame_a, inv.nodup, ?_, inv.sorted, inv.linked,
      inv.untouched⟩
    intro s
    rw [inv.mem_iff s]
    constructor
    · rintro ⟨h1, h2, h3 | ⟨r1, c1, h4, h5, h6⟩⟩
      · exact ⟨h1, h2, Or.inl h3⟩
      · exact ⟨h1, h2, Or.inr ⟨r1, c1, h4, fun e => List.mem_append_left _ (h5 e), h6⟩⟩
    · rintro ⟨h1, h2, h3 | ⟨r1, c1, h4, h5, h6⟩⟩
      · exact ⟨h1, h2, Or.inl h3⟩
      · refine ⟨h1, h2, Or.inr ⟨r1, c1, h4, ?_, h6⟩⟩
        intro e
        rcases List.mem_append.1 (h5 e) with h7 | h7
        · exact h7
        · exfalso
          have hc1 : c1 = c := by simpa using h7
          subst hc1; subst e
          have := (hsh.edge_iff r1 c1 s (by omega)).2 ⟨by omega, h6⟩
          rw [he] at this; cases this
  | some s =>
    obtain ⟨hs, hps⟩ := (hsh.edge_iff r c s (by omega)).1 he
    have hfu : FailUpTo sm path (path r).length := by
      intro t ht hd
      obtain ⟨l1, l2, _⟩ := hlev t (by omega) hd
      exact ⟨by omega, by rw [wd_congr path hn]; exact l2⟩
    obtain ⟨z, sm2, e1, hz, hlz, f1, f2, f3, f4, f5⟩ :=
      failure_letter_edge sm path hsh r c s q (by omega) he hfu
    rw [wd_congr path hn] at hlz
    have hsd : (path s).length = (path r).length + 1 := by rw [hps]; simp
    have hs0 : s ≠ 0 := by
      intro h; rw [h, h0.root] at hsd; simp at hsd
    have hEd : ∀ a : Nat, a ∈ done ++ q → (path a).length ≤ (path s).length := by
      intro a ha
      obtain ⟨_, _, h3 | ⟨r1, c1, h4, _, h6⟩⟩ := (inv.mem_iff a).1 ha
      · omega
      · have := hlast r1 h4
        rw [h6]; simp; omega
    have hsE : s ∉ done ++ q := by
      intro hmem
      obtain ⟨_, _, h3 | ⟨r1, c1, h4, h5, h6⟩⟩ := (inv.mem_iff s).1 hmem
      · omega
      · rw [hps] at h6
        obtain ⟨h7, h8⟩ := snoc_inj h6
        obtain ⟨hr1, _, _⟩ := (inv.mem_iff r1).1 (List.mem_append_left _ h4)
        have h9 := h0.inj r r1 hrn hr1 h7
        exact hc (h8 ▸ h5 h9.symm)
    have hun := inv.untouched s (by omega) hs0 hsE
    have hlr := hlev r hrn (le_refl _)
    have hzd : (path z).length ≤ (path r).length := by
      have h1 := hlz.1.length_le
      have h2 := hlr.depth_le
      simp at h1; omega
    have hzs : z ≠ s := by
      intro h; rw [h] at hzd; omega
    have hLs : Linked sm0 path sm2 s := by
      refine ⟨?_, ?_, ?_⟩
      · rw [f4 s, if_pos rfl]; omega
      · rw [f4 s, if_pos rfl, hps, List.tail_append_of_ne_nil hrp]
        exact lsuf_snoc (fun w e => h0.wd_snoc) hlr.2.1 hlz
      · rw [f5 s, if_pos rfl, f4 s, if_pos rfl, f5 z, if_neg hzs, if_neg (by omega), hun.2]
    have hkeep : ∀ t : Nat, t ≠ s → (path t).length ≤ (path s).length →
        Linked sm0 path sm t → Linked sm0 path sm2 t := by
      intro t hts hd hl
      exact linked_frame sm0 path sm sm2 s t z _ hl hts hd (by omega) f4 f5
    refine ⟨sm2, q ++ [s], e1, ?_, ?_⟩
    · refine ⟨by omega, by rw [f2, inv.frame_t], by rw [f3, inv.frame_a], ?_, ?_, ?_, ?_, ?_⟩
      · rw [← List.append_assoc]
        exact List.Nodup.append inv.nodup (List.nodup_singleton s) (by simpa using hsE)
      · intro t
        rw [← List.append_assoc, List.mem_append, inv.mem_iff t]
        constructor
        · rintro (⟨h1, h2, h3 | ⟨r1, c1, h4, h5, h6⟩⟩ | h1)
          · exact ⟨h1, h2, Or.inl h3⟩
          · exact ⟨h1, h2, Or.inr ⟨r1, c1, h4, fun e => List.mem_append_left _ (h5 e), h6⟩⟩
          · have hts : t = s := by simpa using h1
            subst hts
            exact ⟨by omega, hs0, Or.inr ⟨r, c, hr, fun _ => by simp, hps⟩⟩
        · rintro ⟨h1, h2, h3 | ⟨r1, c1, h4, h5, h6⟩⟩
          · exact Or.inl ⟨h1, h2, Or.inl h3⟩
          · by_cases hts : t = s
            · exact Or.inr (by simp [hts])
            · refine Or.inl ⟨h1, h2, Or.inr ⟨r1, c1, h4, ?_, h6⟩⟩
              intro e
              rcases List.mem_append.1 (h5 e) with h7 | h7
              · exact h7
              · exfalso
                have hc1 : c1 = c := by simpa using h7
                subst hc1; subst e
                exact hts (h0.inj t s h1 (by omega) (by rw [h6, hps]))
      · rw [← List.append_assoc, List.pairwise_append]
        refine ⟨inv.sorted, List.pairwise_singleton _ _, ?_⟩
        intro a ha b hb
        have hbs : b = s := by simpa using hb
        rw [hbs]; exact hEd a ha
      · intro t ht hmem
        by_cases hts : t = s
        · rw [hts]; exact hLs
        · have hmem1 : t = 0 ∨ t ∈ done ++ q := by
            rcases hmem with h1 | h1
            · exact Or.inl h1
            · rw [← List.append_assoc, List.mem_append] at h1
              rcases h1 with h1 | h1
              · exact Or.inr h1
              · exact absurd (by simpa using h1) hts
          refine hkeep t hts ?_ (inv.linked t ht hmem1)
          rcases hmem1 with h1 | h1
          · rw [h1, h0.root]; simp
          · exact hEd t h1
      · intro t ht ht0 hmem
        rw [← List.append_assoc, List.mem_append, not_or] at hmem
        have hts : t ≠ s := by
          intro h; exact hmem.2 (by simp [h])
        obtain ⟨u1, u2⟩ := inv.untouched t ht ht0 hmem.1
        exact ⟨by rw [f4 t, if_neg hts]; exact u1, by rw [f5 t, if_neg hts]; exact u2⟩
    · intro t ht hd
      exact hkeep t (by intro h; rw [h] at hd; omega) (by omega) (hlev t ht hd)

theorem inner_loop (sm0 : string_matcher) (path : Nat → List Nat) (h0 : Shape sm0 path)
    (done : List Nat) (r : Nat) (hr : r ∈ done)
    (hlast : ∀ r1 : Nat, r1 ∈ done → (path r1).length ≤ (path r).length) :
    ∀ (rest ls : List Nat) (sm : string_matcher) (q : List Nat), (ls ++ rest).Nodup →
    BfsInv sm0 path (fun r1 c1 => r1 = r → c1 ∈ ls) sm done q →
    (∀ t : Nat, t < sm0.n → (path t).length ≤ (path r).length → Linked sm0 path sm t) →
    ∃ (sm1 : string_matcher) (q1 : List Nat), failure_letters r sm q rest = some (sm1, q1) ∧
      BfsInv sm0 path (fun r1 c1 => r1 = r → c1 ∈ ls ++ rest) sm1 done q1 := by
  intro rest
  induction rest with
  | nil =>
    intro ls sm q _ inv _
    exact ⟨sm, q, rfl, by simpa using inv⟩
  | cons c rest ih =>
    intro ls sm q hnd inv hlev
    have hc : c ∉ ls := by
      intro hmem
      have := (List.nodup_append.1 hnd).2.2
      exact this hmem (List.mem_cons_self c rest) 
    obtain ⟨sm1, q1, e1, inv1, hlev1⟩ := inner_step sm0 path h0 sm done q ls r c inv hr hlast hlev hc
    obtain ⟨sm2, q2, e2, inv2⟩ := ih (ls ++ [c]) sm1 q1 (by simpa using hnd) inv1 hlev1
    refine ⟨sm2, q2, ?_, by simpa using inv2⟩
    simp only [failure_letters, e1, e2]

theorem bfs_level (sm0 : string_matcher) (path : Nat → List Nat) (h0 : Shape sm0 path)
    (sm : string_matcher) (done queue : List Nat)
    (inv : BfsInv sm0 path (fun _ _ => True) sm done queue) :
    ∀ (d t : Nat), (path t).length = d → t < sm0.n →
    (∀ b : Nat, b ∈ queue → d ≤ (path b).length) → t = 0 ∨ t ∈ done ++ queue := by
  intro d
  induction d with
  | zero =>
    intro t ht htn _
    left
    by_contra h
    exact (h0.ne_zero htn).1 h (List.length_eq_zero.1 ht)
  | succ d ih =>
    intro t ht htn hq
    have ht0 : t ≠ 0 := by
      intro h; rw [h, h0.root] at ht; simp at ht
    obtain ⟨p, c, hp, hpc⟩ := h0.parent t htn ht0
    have hpd : (path p).length = d := by
      rw [hpc] at ht; simp at ht; exact ht
    right
    rcases ih p hpd hp (fun b hb => by have := hq b hb; omega) with h1 | h1
    · refine (inv.mem_iff t).2 ⟨htn, ht0, Or.inl ?_⟩
      rw [hpc, h1, h0.root]; simp
    · rcases List.mem_append.1 h1 with h2 | h2
      · exact (inv.mem_iff t).2 ⟨htn, ht0, Or.inr ⟨p, c, h2, trivial, hpc⟩⟩
      · have := hq p h2
        omega

theorem inner_start (sm0 : string_matcher) (path : Nat → List Nat)
    (sm : string_matcher) (done q : List Nat) (r : Nat)
    (inv : BfsInv sm0 path (fun _ _ => True) sm done (r :: q)) :
    BfsInv sm0 path (fun r1 c1 => r1 = r → c1 ∈ ([] : List Nat)) sm (done ++ [r]) q := by
  have hE : (done ++ [r]) ++ q = done ++ r :: q := by simp
  refine ⟨inv.frame_n, inv.frame_t, inv.frame_a, by rw [hE]; exact inv.nodup, ?_,
    by rw [hE]; exact inv.sorted, by rw [hE]; exact inv.linked, by rw [hE]; exact inv.untouched⟩
  intro s
  rw [hE, inv.mem_iff s]
  have hrd : r ∉ done := by
    intro hmem
    exact (List.nodup_append.1 inv.nodup).2.2 hmem (List.mem_cons_self r q)
  constructor
  · rintro ⟨h1, h2, h3 | ⟨r1, c1, h4, _, h6⟩⟩
    · exact ⟨h1, h2, Or.inl h3⟩
    · refine ⟨h1, h2, Or.inr ⟨r1, c1, List.mem_append_left _ h4, ?_, h6⟩⟩
      intro e; rw [e] at h4; exact absurd h4 hrd
  · rintro ⟨h1, h2, h3 | ⟨r1, c1, h4, h5, h6⟩⟩
    · exact ⟨h1, h2, Or.inl h3⟩
    · refine ⟨h1, h2, Or.inr ⟨r1, c1, ?_, trivial, h6⟩⟩
      rcases List.mem_append.1 h4 with h7 | h7
      · exact h7
      · have : r1 = r := by simpa using h7
        exact absurd (h5 this) (List.not_mem_nil _)

theorem inner_end (sm0 : string_matcher) (path : Nat → List Nat) (h0 : Shape sm0 path)
    (sm : string_matcher) (done q : List Nat) (r : Nat)
    (inv : BfsInv sm0 path (fun r1 c1 => r1 = r → c1 ∈ sm0.alphabet) sm done q) :
    BfsInv sm0 path (fun _ _ => True) sm done q := by
  refine ⟨inv.frame_n, inv.frame_t, inv.frame_a, inv.nodup, ?_, inv.sorted, inv.linked,
    inv.untouched⟩
  intro s
  rw [inv.mem_iff s]
  constructor
  · rintro ⟨h1, h2, h3 | ⟨r1, c1, h4, _, h6⟩⟩
    · exact ⟨h1, h2, Or.inl h3⟩
    · exact ⟨h1, h2, Or.inr ⟨r1, c1, h4, trivial, h6⟩⟩
  · rintro ⟨h1, h2, h3 | ⟨r1, c1, h4, _, h6⟩⟩
    · exact ⟨h1, h2, Or.inl h3⟩
    · refine ⟨h1, h2, Or.inr ⟨r1, c1, h4, ?_, h6⟩⟩
      intro _
      obtain ⟨hr1, _, _⟩ := (inv.mem_iff r1).1 (List.mem_append_left _ h4)
      exact (h0.alpha_iff c1).2 ⟨r1, s, hr1, (h0.edge_iff r1 c1 s hr1).2 ⟨h1, h6⟩⟩

theorem nodup_length_lt (l : List Nat) (n : Nat) (hnd : l.Nodup)
    (hb : ∀ x : Nat, x ∈ l → x < n ∧ x ≠ 0) : l.length ≤ n - 1 := by
  have hsub : l ⊆ List.range' 1 (n - 1) := by
    intro x hx
    obtain ⟨h1, h2⟩ := hb x hx
    rw [List.mem_range'_1]
    omega
  have := (List.subperm_of_subset hnd hsub).length_le
  simpa using this

theorem bfs_loop (sm0 : string_matcher) (path : Nat → List Nat) (h0 : Shape sm0 path) :
    ∀ (fuel : Nat) (sm : string_matcher) (done queue : List Nat),
    BfsInv sm0 path (fun _ _ => True) sm done queue → sm0.n ≤ fuel + done.length →
    ∃ (sm1 : string_matcher) (done1 : List Nat), failure_bfs fuel sm queue = some sm1 ∧
      BfsInv sm0 path (fun _ _ => True) sm1 done1 [] := by
  intro fuel
  induction fuel with
  | zero =>
    intro sm done queue inv hfuel
    cases queue with
    | nil => exact ⟨sm, done, rfl, inv⟩
    | cons r q =>
      have hlen := nodup_length_lt (done ++ r :: q) sm0.n inv.nodup
        (fun x hx => by obtain ⟨h1, h2, _⟩ := (inv.mem_iff x).1 hx; exact ⟨h1, h2⟩)
      have hn := h0.n_pos
      simp at hlen
      omega
  | succ f ih =>
    intro sm done queue inv hfuel
    cases queue with
    | nil => exact ⟨sm, done, rfl, inv⟩
    | cons r q =>
      have hsort := List.pairwise_append.1 inv.sorted
      have hrq := List.pairwise_cons.1 hsort.2.1
      have hr : r ∈ done ++ [r] := by simp
      have hlast : ∀ r1 : Nat, r1 ∈ done ++ [r] → (path r1).length ≤ (path r).length := by
        intro r1 h1
        rcases List.mem_append.1 h1 with h2 | h2
        · exact hsort.2.2 r1 h2 r (List.mem_cons_self r q)
        · have : r1 = r := by simpa using h2
          rw [this]
      have hlev : ∀ t : Nat, t < sm0.n → (path t).length ≤ (path r).length →
          Linked sm0 path sm t := by
        intro t ht hd
        apply inv.linked t ht
        apply bfs_level sm0 path h0 sm done (r :: q) inv (path t).length t rfl ht
        intro b hb
        rcases List.mem_cons.1 hb with h1 | h1
        · rw [h1]; exact hd
        · exact le_trans hd (hrq.1 b h1)
      have inv1 := inner_start sm0 path sm done q r inv
      obtain ⟨sm1, q1, e1, inv2⟩ := inner_loop sm0 path h0 (done ++ [r]) r hr hlast
        sm0.alphabet [] sm q (by simpa using h0.alpha_nodup) inv1 hlev
      rw [List.nil_append] at inv2
      have inv3 := inner_end sm0 path h0 sm1 (done ++ [r]) q1 r inv2
      obtain ⟨sm2, done2, e2, inv4⟩ := ih sm1 (done ++ [r]) q1 inv3 (by simp; omega)
      refine ⟨sm2, done2, ?_, inv4⟩
      simp only [failure_bfs, inv.frame_a, e1, e2]

theorem bfs_final (sm0 : string_matcher) (path : Nat → List Nat) (h0 : Shape sm0 path)
    (sm : string_matcher) (done : List Nat)
    (inv : BfsInv sm0 path (fun _ _ => True) sm done []) :
    ∀ s : Nat, s < sm0.n → Linked sm0 path sm s := by
  intro s hs
  apply inv.linked s hs
  exact bfs_level sm0 path h0 sm done [] inv (path s).length s rfl hs
    (fun b hb => absurd hb (List.not_mem_nil b))

theorem failure_init_spec (sm0 : string_matcher) (path : Nat → List Nat) (h0 : Shape sm0 path) :
    ∀ (ls : List Nat) (sm : string_matcher) (queue : List Nat), sm.n = sm0.n →
    sm.trans_matrix = sm0.trans_matrix → sm.alphabet = sm0.alphabet → sm.output = sm0.output →
    (∀ t : Nat, sm.failure t = 0) →
    (failure_init sm ls queue).1.n = sm0.n ∧
    (failure_init sm ls queue).1.trans_matrix = sm0.trans_matrix ∧
    (failure_init sm ls queue).1.alphabet = sm0.alphabet ∧
    (failure_init sm ls queue).1.output = sm0.output ∧
    (∀ t : Nat, (failure_init sm ls queue).1.failure t = 0) ∧
    (failure_init sm ls queue).2 = queue ++ ls.filterMap (fun c => edge sm0 0 c) := by
  intro ls
  induction ls with
  | nil =>
    intro sm queue h1 h2 h3 h4 h5
    exact ⟨h1, h2, h3, h4, h5, by simp [failure_init]⟩
  | cons c ls ih =>
    intro sm queue h1 h2 h3 h4 h5
    have hee : edge sm 0 c = edge sm0 0 c := by unfold edge; rw [h2]
    have hpos : 0 < sm.n := by rw [h1]; exact h0.n_pos
    cases he : edge sm0 0 c with
    | none =>
      rw [he] at hee
      have hg := goto_state_root_none sm c hpos hee
      have hres : failure_init sm (c :: ls) queue = failure_init sm ls queue := by
        simp [failure_init, hg]
      rw [hres, List.filterMap_cons_none he]
      exact ih sm queue h1 h2 h3 h4 h5
    | some s =>
      rw [he] at hee
      have hg := goto_state_of_edge sm 0 s c hpos hee
      obtain ⟨hs, hps⟩ := (h0.edge_iff 0 c s h0.n_pos).1 he
      have hs0 : s ≠ 0 := by rw [h0.ne_zero hs, hps]; simp
      have hres : failure_init sm (c :: ls) queue =
          failure_init { sm with failure := upd sm.failure s 0 } ls (queue ++ [s]) := by
        simp [failure_init, hg, hs0]
      rw [hres, List.filterMap_cons_some he]
      have := ih { sm with failure := upd sm.failure s 0 } (queue ++ [s]) h1 h2 h3 h4
        (by
          intro t
          by_cases ht : t = s
          · subst ht; simp
          · simp [ht, h5 t])
      simpa using this

theorem bfs_init (sm0 : string_matcher) (path : Nat → List Nat) (h0 : Shape sm0 path)
    (hf0 : ∀ t : Nat, sm0.failure t = 0) :
    BfsInv sm0 path (fun _ _ => True) (failure_init sm0 sm0.alphabet []).1 []
      (failure_init sm0 sm0.alphabet []).2 := by
  obtain ⟨h1, h2, h3, h4, h5, h6⟩ :=
    failure_init_spec sm0 path h0 sm0.alphabet sm0 [] rfl rfl rfl rfl hf0
  rw [h6, List.nil_append]
  have hmem : ∀ s : Nat, s ∈ sm0.alphabet.filterMap (fun c => edge sm0 0 c) ↔
      (s < sm0.n ∧ s ≠ 0 ∧ (path s).length = 1) := by
    intro s
    rw [List.mem_filterMap]
    constructor
    · rintro ⟨c, _, hc⟩
      obtain ⟨hs, hps⟩ := (h0.edge_iff 0 c s h0.n_pos).1 hc
      rw [h0.root] at hps
      exact ⟨hs, by rw [h0.ne_zero hs, hps]; simp, by rw [hps]; simp⟩
    · rintro ⟨hs, _, hd⟩
      obtain ⟨c, hc⟩ := List.length_eq_one.1 hd
      have he : edge sm0 0 c = some s :=
        (h0.edge_iff 0 c s h0.n_pos).2 ⟨hs, by rw [hc, h0.root]; simp⟩
      exact ⟨c, (h0.alpha_iff c).2 ⟨0, s, h0.n_pos, he⟩, he⟩
  have hroot : Linked sm0 path (failure_init sm0 sm0.alphabet []).1 0 := by
    refine ⟨by rw [h5]; exact h0.n_pos, ?_, ?_⟩
    · rw [h5, h0.root]; exact lsuf_self h0.wd_nil
    · rw [h4, h0.root]; simp
  refine ⟨h1, h2, h3, ?_, ?_, ?_, ?_, ?_⟩
  · rw [List.nil_append]
    apply List.Nodup.filterMap _ h0.alpha_nodup
    intro a b s ha hb
    rw [Option.mem_def] at ha hb
    have h7 := ((h0.edge_iff 0 a s h0.n_pos).1 ha).2
    have h8 := ((h0.edge_iff 0 b s h0.n_pos).1 hb).2
    rw [h7] at h8
    exact (snoc_inj h8).2
  · intro s
    rw [List.nil_append, hmem s]
    constructor
    · rintro ⟨a, b, c⟩; exact ⟨a, b, Or.inl c⟩
    · rintro ⟨a, b, c | ⟨r, _, hr, _⟩⟩
      · exact ⟨a, b, c⟩
      · exact absurd hr (List.not_mem_nil r)
  · rw [List.nil_append]
    apply List.pairwise_of_forall_mem_list
    intro a ha b hb
    rw [((hmem a).1 ha).2.2, ((hmem b).1 hb).2.2]
  · intro s hs hm
    rw [List.nil_append] at hm
    rcases hm with hm | hm
    · rw [hm]; exact hroot
    · obtain ⟨_, _, hd⟩ := (hmem s).1 hm
      obtain ⟨c, hc⟩ := List.length_eq_one.1 hd
      refine ⟨by rw [h5]; exact h0.n_pos, ?_, ?_⟩
      · rw [h5, h0.root, hc]; exact lsuf_self h0.wd_nil
      · rw [h4, hd]; simp
  · intro s _ _ _
    exact ⟨h5 s, by rw [h4]⟩

theorem create_failure_function_spec (sm0 : string_matcher) (path : Nat → List Nat)
    (h0 : Shape sm0 path) (hf0 : ∀ t : Nat, sm0.failure t = 0) :
    ∃ sm : string_matcher, create_failure_function sm0 = some sm ∧ Final sm0 path sm := by
  have inv := bfs_init sm0 path h0 hf0
  obtain ⟨sm, done, e, inv1⟩ := bfs_loop sm0 path h0 sm0.n _ [] _ inv (by simp)
  exact ⟨sm, e, inv1.frame_n, inv1.frame_t, inv1.frame_a, bfs_final sm0 path h0 sm done inv1⟩

theorem filter_eq_lengths (pats : List (List Nat)) (x : List Nat) :
    (pats.filter (fun p => decide (p = x))).map List.length =
      List.replicate (pats.count x) x.length := by
  induction pats with
  | nil => simp
  | cons p ps ih =>
    by_cases h : p = x
    · subst h
      simp [List.filter_cons, List.replicate_succ, ih]
    · have h1 : ¬ (p == x) = true := by simpa using h
      simp [List.filter_cons, h, ih, List.count_cons, h1]

theorem suffix_tail_iff {p x : List Nat} (hx : x ≠ []) :
    p <:+ x ↔ (p = x ∨ p <:+ x.tail) := by
  obtain ⟨a, t, rfl⟩ := List.exists_cons_of_ne_nil hx
  rw [List.tail_cons]
  exact List.suffix_cons_iff

theorem suffix_lengths_tail (pats : List (List Nat)) (x : List Nat) (hx : x ≠ []) :
    (suffix_lengths pats x).Perm
      (suffix_lengths pats x.tail ++ List.replicate (pats.count x) x.length) := by
  rw [← filter_eq_lengths]
  unfold suffix_lengths
  rw [← List.map_append]
  apply List.Perm.map
  induction pats with
  | nil => simp
  | cons p ps ih =>
    by_cases h1 : p = x
    · subst h1
      have h2 : ¬ p <:+ p.tail := by
        intro h
        have := h.length_le
        rw [List.length_tail] at this
        have := List.length_pos.2 hx
        omega
      simp only [List.filter_cons, List.suffix_refl, decide_True, if_true, h2, decide_False]
      exact (List.Perm.cons p ih).trans List.perm_middle.symm
    · by_cases h3 : p <:+ x
      · have h4 : p <:+ x.tail := by
          rcases (suffix_tail_iff hx).1 h3 with h | h
          · exact absurd h h1
          · exact h
        simp only [List.filter_cons, h3, h4, h1, decide_True, decide_False, if_true]
        exact List.Perm.cons p ih
      · have h4 : ¬ p <:+ x.tail := fun h => h3 ((suffix_tail_iff hx).2 (Or.inr h))
        simp only [List.filter_cons, h3, h4, h1, decide_False]
        exact ih

theorem suffix_lengths_lsuf (pats : List (List Nat)) (W : List Nat → Prop)
    (hW : ∀ p : List Nat, p ∈ pats → W p) {x y : List Nat} (h : IsLSuf W x y) :
    suffix_lengths pats x = suffix_lengths pats y := by
  unfold suffix_lengths
  congr 1
  apply List.filter_congr
  intro p hp
  have : p <:+ x ↔ p <:+ y := by
    constructor
    · intro hpx
      exact List.suffix_of_suffix_length_le hpx h.1 (h.2.2 p hpx (hW p hp))
    · intro hpy
      exact hpy.trans h.1
  simp [this]

theorem suffix_lengths_nil (pats : List (List Nat)) (hne : ∀ p : List Nat, p ∈ pats → p ≠ []) :
    suffix_lengths pats [] = [] := by
  unfold suffix_lengths
  rw [List.map_eq_nil_iff, List.filter_eq_nil_iff]
  intro p hp
  simpa using hne p hp

theorem walk_iff {sm : string_matcher} {path : Nat → List Nat} (h : Shape sm path) :
    ∀ (w : List Nat) (s0 s : Nat), s0 < sm.n →
      (walk sm s0 w = some s ↔ s < sm.n ∧ path s = path s0 ++ w) := by
  intro w
  induction w with
  | nil =>
    intro s0 s hs0
    simp only [walk, List.append_nil, Option.some.injEq]
    constructor
    · intro e; subst e; exact ⟨hs0, rfl⟩
    · rintro ⟨hs, e⟩; exact h.inj s0 s hs0 hs e.symm
  | cons c cs ih =>
    intro s0 s hs0
    cases he : edge sm s0 c with
    | none =>
      simp only [walk, he]
      constructor
      · intro e; cases e
      · rintro ⟨hs, e⟩
        exfalso
        have hw : Wd sm path (path s0 ++ [c]) :=
          h.wd_of_le ⟨cs, by simp⟩ ⟨s, hs, e⟩
        obtain ⟨t, ht, hpt⟩ := hw
        have := (h.edge_iff s0 c t hs0).2 ⟨ht, hpt⟩
        rw [he] at this; cases this
    | some t =>
      obtain ⟨ht, hpt⟩ := (h.edge_iff s0 c t hs0).1 he
      simp only [walk, he]
      rw [ih t s ht, hpt]
      simp

theorem Core.fail_up_to {path : Nat → List Nat} {sm : string_matcher} (K : Core path sm)
    (d : Nat) : FailUpTo sm path d :=
  fun t ht _ => ⟨K.fail_lt t ht, K.fail_lsuf t ht⟩

theorem Core.walk_path {path : Nat → List Nat} {sm : string_matcher} (K : Core path sm)
    (w : List Nat) (s : Nat) : walk sm 0 w = some s ↔ s < sm.n ∧ path s = w := by
  rw [walk_iff K.shape w 0 s K.shape.n_pos, K.shape.root, List.nil_append]

theorem Core.fail_state_eq {path : Nat → List Nat} {sm : string_matcher} (_K : Core path sm)
    {s : Nat} (hs : s < sm.n) : fail_state sm s = sm.failure s := by
  simp [fail_state, hs]

theorem Core.fail_root {path : Nat → List Nat} {sm : string_matcher} (K : Core path sm) :
    fail_state sm 0 = 0 := by
  rw [K.fail_state_eq K.shape.n_pos]
  have h := (K.fail_lsuf 0 K.shape.n_pos).1
  rw [K.shape.root, List.tail_nil] at h
  have hp : path (sm.failure 0) = [] := List.suffix_nil.1 h
  exact K.shape.inj _ _ (K.fail_lt 0 K.shape.n_pos) K.shape.n_pos (by rw [hp, K.shape.root])

theorem Core.fail_iterate {path : Nat → List Nat} {sm : string_matcher} (K : Core path sm)
    (s : Nat) (hs : s < sm.n) :
    ∀ k : Nat, (fail_state sm)^[k] s < sm.n ∧ path ((fail_state sm)^[k] s) <:+ path s := by
  intro k
  induction k with
  | zero => exact ⟨hs, List.suffix_refl _⟩
  | succ k ih =>
    rw [Function.iterate_succ_apply', K.fail_state_eq ih.1]
    exact ⟨K.fail_lt _ ih.1, ((K.fail_lsuf _ ih.1).1.trans (List.tail_suffix _)).trans ih.2⟩

theorem Core.lsuf_root {path : Nat → List Nat} {sm : string_matcher} (K : Core path sm) :
    IsLSuf (Wd sm path) [] (path 0) := by
  rw [K.shape.root]; exact lsuf_self K.shape.wd_nil

theorem automaton_items (pats : List (List Nat)) :
    ∃ (sm : string_matcher) (path : Nat → List Nat),
      automaton pats = some sm ∧ ItemAutomaton (pats.map item) path sm := by
  obtain ⟨path, ht⟩ := goto_trie_items pats
  obtain ⟨sm, e, hf⟩ := create_failure_function_spec _ path ht.shape ht.fail0
  refine ⟨sm, path, e, ⟨shape_congr ht.shape hf.frame_n hf.frame_t hf.frame_a, ?_, ?_⟩, ?_, ?_⟩
  · intro s hs
    rw [hf.frame_n] at hs ⊢
    exact (hf.linked s hs).1
  · intro s hs
    rw [hf.frame_n] at hs
    rw [wd_congr path hf.frame_n]
    exact (hf.linked s hs).2.1
  · intro w; rw [wd_congr path hf.frame_n]; exact ht.words w
  · intro s hs
    rw [hf.frame_n] at hs
    rw [(hf.linked s hs).2.2, ht.out s hs]

theorem automaton_core (pats : List (List Nat)) :
    ∃ (sm : string_matcher) (path : Nat → List Nat),
      automaton pats = some sm ∧ Core path sm := by
  obtain ⟨sm, path, e, A⟩ := automaton_items pats
  exact ⟨sm, path, e, A.core⟩

theorem ItemAutomaton.mem_output {items : List (List Nat × Nat)} {path : Nat → List Nat}
    {sm : string_matcher} (A : ItemAutomaton items path sm) :
    ∀ (d s : Nat), s < sm.n → (path s).length ≤ d → ∀ l : Nat,
      (l ∈ sm.output s ↔ ∃ it : List Nat × Nat, it ∈ items ∧ it.2 = l ∧ it.1 <:+ path s ∧
        (it.1 = [] → ∀ c : Nat, [c] <:+ path s → ¬ Wd sm path [c])) := by
  intro d
  induction d with
  | zero =>
    intro s hs hd l
    have hp : path s = [] := List.length_eq_zero.1 (by omega)
    rw [A.out_eq s hs, hp]
    simp only [List.length_nil, Nat.zero_le, if_true, List.nil_append, mem_own]
    constructor
    · rintro ⟨it, hit, h1, h2⟩
      refine ⟨it, hit, h2, by rw [h1], ?_⟩
      intro _ c hc
      have := hc.length_le
      simp at this
    · rintro ⟨it, hit, h2, h1, _⟩
      exact ⟨it, hit, List.suffix_nil.1 h1, h2⟩
  | succ d ih =>
    intro s hs hd l
    by_cases hle : (path s).length ≤ d
    · exact ih s hs hle l
    · have hlen : (path s).length = d + 1 := by omega
      have hp : path s ≠ [] := by
        intro h; rw [h] at hlen; simp at hlen
      have hl := A.core.fail_lsuf s hs
      have hfl : (path (sm.failure s)).length ≤ d := by
        have := hl.1.length_le
        rw [List.length_tail] at this
        omega
      rw [A.out_eq s hs]
      by_cases h1 : (path s).length ≤ 1
      · rw [if_pos h1]
        simp only [List.nil_append, mem_own]
        obtain ⟨c, hc⟩ := List.length_eq_one.1 (by omega : (path s).length = 1)
        constructor
        · rintro ⟨it, hit, h3, h2⟩
          refine ⟨it, hit, h2, by rw [h3], ?_⟩
          intro h0
          rw [h3] at h0
          exact absurd h0 hp
        · rintro ⟨it, hit, h2, h3, h4⟩
          refine ⟨it, hit, ?_, h2⟩
          by_cases h0 : it.1 = []
          · exact absurd ⟨s, hs, hc⟩ (h4 h0 c (by rw [hc]))
          · rcases (suffix_tail_iff hp).1 h3 with h5 | h5
            · exact h5
            · rw [hc] at h5
              exact absurd (List.suffix_nil.1 h5) h0
      · rw [if_neg h1]
        simp only [List.mem_append, List.mem_reverse, mem_own]
        rw [ih (sm.failure s) (A.core.fail_lt s hs) hfl l]
        constructor
        · rintro (⟨it, hit, h2, h3, h4⟩ | ⟨it, hit, h3, h2⟩)
          · refine ⟨it, hit, h2, h3.trans (hl.1.trans (List.tail_suffix _)), ?_⟩
            intro h0 c hc hw
            have hc1 : [c] <:+ (path s).tail := by
              rcases (suffix_tail_iff hp).1 hc with h5 | h5
              · rw [← h5] at h1; simp at h1
              · exact h5
            have hc2 : [c] <:+ path (sm.failure s) :=
              List.suffix_of_suffix_length_le hc1 hl.1 (hl.2.2 [c] hc1 hw)
            exact h4 h0 c hc2 hw
          · refine ⟨it, hit, h2, by rw [h3], ?_⟩
            intro h0
            rw [h3] at h0
            exact absurd h0 hp
        · rintro ⟨it, hit, h2, h3, h4⟩
          rcases (suffix_tail_iff hp).1 h3 with h5 | h5
          · exact Or.inr ⟨it, hit, h5, h2⟩
          · left
            have hw : Wd sm path it.1 := (A.words it.1).2 (Or.inr ⟨it, hit, List.prefix_refl _⟩)
            refine ⟨it, hit, h2, List.suffix_of_suffix_length_le h5 hl.1 (hl.2.2 _ h5 hw), ?_⟩
            intro h0 c hc
            exact h4 h0 c (hc.trans (hl.1.trans (List.tail_suffix _)))

theorem countP_add_le {α : Type} (l : List α) (p q r : α → Bool)
    (hp : ∀ x : α, x ∈ l → p x = true → r x = true)
    (hq : ∀ x : α, x ∈ l → q x = true → r x = true)
    (hpq : ∀ x : α, x ∈ l → p x = true → q x = true → False) :
    l.countP p + l.countP q ≤ l.countP r := by
  induction l with
  | nil => simp
  | cons a l ih =>
    have h1 := ih (fun x hx => hp x (List.mem_cons_of_mem a hx))
      (fun x hx => hq x (List.mem_cons_of_mem a hx))
      (fun x hx => hpq x (List.mem_cons_of_mem a hx))
    have ha := List.mem_cons_self a l
    rw [List.countP_cons, List.countP_cons, List.countP_cons]
    have e1 := hp a ha
    have e2 := hq a ha
    have e3 := hpq a ha
    cases hpa : p a <;> cases hqa : q a <;> cases hra : r a <;>
      simp [hpa, hqa, hra] at e1 e2 e3 ⊢ <;> omega

theorem own_length (items : List (List Nat × Nat)) (w : List Nat) :
    (own items w).length = items.countP (fun it => decide (it.1 = w)) := by
  unfold own
  rw [List.length_reverse, List.length_map, List.countP_eq_length_filter]

theorem ItemAutomaton.out_count_le {items : List (List Nat × Nat)} {path : Nat → List Nat}
    {sm : string_matcher} (A : ItemAutomaton items path sm) :
    ∀ (d s : Nat), s < sm.n → (path s).length ≤ d →
      (sm.output s).length ≤ items.countP (fun it => decide (it.1 <:+ path s)) := by
  intro d
  induction d with
  | zero =>
    intro s hs hd
    rw [A.out_eq s hs, if_pos (by omega), List.nil_append, own_length]
    have h := countP_add_le items (fun _ => false) (fun it => decide (it.1 = path s))
      (fun it => decide (it.1 <:+ path s)) (fun _ _ h => by simp at h)
      (fun it _ h => by
        have h1 : it.1 = path s := by simpa using h
        simp [h1])
      (fun _ _ h _ => by simp at h)
    simpa using h
  | succ d ih =>
    intro s hs hd
    by_cases h1 : (path s).length ≤ 1
    · rw [A.out_eq s hs, if_pos h1, List.nil_append, own_length]
      have h := countP_add_le items (fun _ => false) (fun it => decide (it.1 = path s))
        (fun it => decide (it.1 <:+ path s)) (fun _ _ h => by simp at h)
        (fun it _ h => by
          have h1 : it.1 = path s := by simpa using h
          simp [h1])
        (fun _ _ h _ => by simp at h)
      simpa using h
    · have hl := A.core.fail_lsuf s hs
      have hfl : (path (sm.failure s)).length < (path s).length := by
        have := hl.1.length_le
        rw [List.length_tail] at this
        omega
      have h2 := ih (sm.failure s) (A.core.fail_lt s hs) (by omega)
      rw [A.out_eq s hs, if_neg h1, List.length_append, List.length_reverse, own_length]
      refine le_trans (Nat.add_le_add_right h2 _) ?_
      apply countP_add_le
      · intro it _ h
        have h3 : it.1 <:+ path (sm.failure s) := by simpa using h
        have h4 : it.1 <:+ path s := h3.trans (hl.1.trans (List.tail_suffix _))
        simpa using h4
      · intro it _ h
        have h3 : it.1 = path s := by simpa using h
        simp [h3]
      · intro it _ h h5
        have h3 : it.1 <:+ path (sm.failure s) := by simpa using h
        have h4 : it.1 = path s := by simpa using h5
        have := h3.length_le
        rw [h4] at this
        omega

theorem ItemAutomaton.out_length_le {items : List (List Nat × Nat)} {path : Nat → List Nat}
    {sm : string_matcher} (A : ItemAutomaton items path sm) (s : Nat) (hs : s < sm.n) :
    (sm.output s).length ≤ items.length :=
  le_trans (A.out_count_le _ s hs (le_refl _)) (List.countP_le_length _)

theorem Automaton.shape {pats : List (List Nat)} {path : Nat → List Nat} {sm : string_matcher}
    (A : Automaton pats path sm) : Shape sm path := A.core.shape

theorem Automaton.fail_lt {pats : List (List Nat)} {path : Nat → List Nat}
    {sm : string_matcher} (A : Automaton pats path sm) :
    ∀ s : Nat, s < sm.n → sm.failure s < sm.n := A.core.fail_lt

theorem Automaton.fail_lsuf {pats : List (List Nat)} {path : Nat → List Nat}
    {sm : string_matcher} (A : Automaton pats path sm) :
    ∀ s : Nat, s < sm.n → IsLSuf (Wd sm path) (path s).tail (path (sm.failure s)) :=
  A.core.fail_lsuf

theorem automaton_spec (pats : List (List Nat))
    (hb : ∀ p : List Nat, p ∈ pats → p.length ≤ 2147483647) :
    ∃ (sm : string_matcher) (path : Nat → List Nat),
      automaton pats = some sm ∧ Automaton pats path sm := by
  obtain ⟨path, ht⟩ := goto_trie_spec pats hb
  obtain ⟨sm, e, hf⟩ := create_failure_function_spec _ path ht.shape ht.fail0
  refine ⟨sm, path, e, ⟨shape_congr ht.shape hf.frame_n hf.frame_t hf.frame_a, ?_, ?_⟩, ?_, ?_⟩
  · intro s hs
    rw [hf.frame_n] at hs ⊢
    exact (hf.linked s hs).1
  · intro s hs
    rw [hf.frame_n] at hs
    rw [wd_congr path hf.frame_n]
    exact (hf.linked s hs).2.1
  · intro w; rw [wd_congr path hf.frame_n]; exact ht.words w
  · intro s hs
    rw [hf.frame_n] at hs
    rw [(hf.linked s hs).2.2, ht.out s hs]

theorem Automaton.wd_pat {pats : List (List Nat)} {path : Nat → List Nat} {sm : string_matcher}
    (A : Automaton pats path sm) (p : List Nat) (hp : p ∈ pats) : Wd sm path p :=
  (A.words p).2 (Or.inr ⟨p, hp, List.prefix_refl p⟩)

theorem Automaton.out_perm {pats : List (List Nat)} {path : Nat → List Nat}
    {sm : string_matcher} (A : Automaton pats path sm)
    (hne : ∀ p : List Nat, p ∈ pats → p ≠ []) :
    ∀ (d s : Nat), s < sm.n → (path s).length ≤ d →
      (sm.output s).Perm (suffix_lengths pats (path s)) := by
  intro d
  induction d with
  | zero =>
    intro s hs hd
    have hp : path s = [] := List.length_eq_zero.1 (by omega)
    have hc : pats.count ([] : List Nat) = 0 := by
      rw [List.count_eq_zero]; intro h; exact hne [] h rfl
    rw [A.out_eq s hs, hp, suffix_lengths_nil pats hne, hc]
    simp
  | succ d ih =>
    intro s hs hd
    by_cases hp : path s = []
    · exact ih s hs (by rw [hp]; simp)
    · have h1 := suffix_lengths_tail pats (path s) hp
      have h2 := suffix_lengths_lsuf pats (Wd sm path) A.wd_pat (A.fail_lsuf s hs)
      rw [h2] at h1
      refine List.Perm.trans ?_ h1.symm
      rw [A.out_eq s hs]
      apply List.Perm.append_right
      have hfl : (path (sm.failure s)).length ≤ (path s).length - 1 := by
        have := (A.fail_lsuf s hs).1.length_le
        rw [List.length_tail] at this
        exact this
      by_cases h3 : (path s).length ≤ 1
      · rw [if_pos h3]
        have : path (sm.failure s) = [] := List.length_eq_zero.1 (by omega)
        rw [this, suffix_lengths_nil pats hne]
      · rw [if_neg h3]
        exact (List.reverse_perm _).trans (ih _ (A.fail_lt s hs) (by omega))

theorem emit_perm {pats : List (List Nat)} {path : Nat → List Nat} {sm : string_matcher}
    (A : Automaton pats path sm) (hne : ∀ p : List Nat, p ∈ pats → p ≠ [])
    (t : List Nat) (c z : Nat) (hz : z < sm.n) (hl : IsLSuf (Wd sm path) (t ++ [c]) (path z)) :
    (emit sm t.length z).Perm (hits_at pats (t ++ [c])) := by
  have h1 := A.out_perm hne _ z hz (le_refl _)
  rw [← suffix_lengths_lsuf pats (Wd sm path) A.wd_pat hl] at h1
  have h2 := h1.map (fun (blen : Nat) => (⟨(t.length : Int) - (blen : Int) + 1, blen⟩ : match_entry))
  unfold emit output_state
  refine h2.trans (List.Perm.of_eq ?_)
  unfold suffix_lengths hits_at
  rw [List.map_map]
  apply List.map_congr_left
  intro p _
  simp only [Function.comp, List.length_append, List.length_singleton, Nat.cast_add, Nat.cast_one]
  congr 1
  ring

theorem run_stop (sm : string_matcher) (len : Int) (cs : List Nat) (i st : Nat)
    (res : List match_entry) (h : len ≤ (i : Int)) :
    scan_run sm len cs i st res = some (st, res) := by
  cases cs with
  | nil => rfl
  | cons c cs =>
    have h1 : ¬ (i : Int) < len := by omega
    simp only [scan_run, if_neg h1]

theorem run_cons (sm : string_matcher) (len : Int) (c : Nat) (cs : List Nat) (i st : Nat)
    (res : List match_entry) (h : (i : Int) < len) :
    scan_run sm len (c :: cs) i st res =
      (scan_fail sm c sm.n st).bind (fun y =>
        scan_run sm len cs (i + 1) ((goto_state sm y c).getD FAIL_STATE)
          (res ++ emit sm i ((goto_state sm y c).getD FAIL_STATE))) := by
  simp only [scan_run, if_pos h]
  cases scan_fail sm c sm.n st with
  | none => rfl
  | some y => rfl

theorem run_take (sm : string_matcher) (len : Int) :
    ∀ (cs : List Nat) (i st : Nat) (res : List match_entry),
      scan_run sm len cs i st res =
        scan_run sm len (cs.take (len - (i : Int)).toNat) i st res := by
  intro cs
  induction cs with
  | nil => intro i st res; simp
  | cons c cs ih =>
    intro i st res
    by_cases h : (i : Int) < len
    · have e : (len - (i : Int)).toNat = (len - ((i + 1 : Nat) : Int)).toNat + 1 := by
        push_cast; omega
      rw [e, List.take_succ_cons, run_cons sm len c _ i st res h, run_cons sm len c _ i st res h]
      cases scan_fail sm c sm.n st with
      | none => rfl
      | some y => exact ih _ _ _
    · rw [run_stop sm len _ i st res (by omega), run_stop sm len _ i st res (by omega)]

theorem run_append (sm : string_matcher) (len : Int) :
    ∀ (cs ds : List Nat) (i st : Nat) (res : List match_entry),
      scan_run sm len (cs ++ ds) i st res =
        (scan_run sm len cs i st res).bind
          (fun p => scan_run sm len ds (i + cs.length) p.1 p.2) := by
  intro cs
  induction cs with
  | nil => intro ds i st res; simp [scan_run]
  | cons c cs ih =>
    intro ds i st res
    by_cases h : (i : Int) < len
    · rw [List.cons_append, run_cons sm len c _ i st res h, run_cons sm len c _ i st res h]
      cases scan_fail sm c sm.n st with
      | none => rfl
      | some y =>
        have e : i + 1 + cs.length = i + (c :: cs).length := by simp; omega
        have h1 := ih ds (i + 1) ((goto_state sm y c).getD FAIL_STATE)
          (res ++ emit sm i ((goto_state sm y c).getD FAIL_STATE))
        rw [e] at h1
        exact h1
    · rw [run_stop sm len _ i st res (by omega), run_stop sm len _ i st res (by omega)]
      simp only [Option.some_bind]
      rw [run_stop sm len _ _ st res (by push_cast; omega)]

theorem scanned_of_le {text : List Nat} (h : text.length ≤ 2147483647) : scanned text = text := by
  unfold scanned
  rw [to_int_of_le h, Int.toNat_ofNat, List.take_length]

theorem scanned_pre (text : List Nat) : scanned text <+: text := List.take_prefix _ _

theorem scanned_length_le (text : List Nat) : (scanned text).length ≤ 2147483647 := by
  unfold scanned
  rw [List.length_take]
  have := to_int_le text.length
  omega

theorem scanned_guard (text : List Nat) :
    scanned text = [] ∨ (((scanned text).length : Nat) : Int) ≤ to_int text.length := by
  unfold scanned
  by_cases h : 0 ≤ to_int text.length
  · right
    rw [List.length_take]
    omega
  · left
    have e : (to_int text.length).toNat = 0 := by omega
    rw [e, List.take_zero]

theorem string_eq_scanned (sm : string_matcher) (text : List Nat) :
    scan_string sm text =
      (scan_run sm (to_int text.length) (scanned text) 0 0 []).map Prod.snd := by
  unfold scan_string scanned
  rw [run_take]
  simp

theorem run_spec {path : Nat → List Nat} {sm : string_matcher} (K : Core path sm) (len : Int) :
    ∀ (cs t : List Nat) (st : Nat) (res : List match_entry), st < sm.n →
    IsLSuf (Wd sm path) t (path st) →
    (cs = [] ∨ ((t.length + cs.length : Nat) : Int) ≤ len) →
    ∃ (st1 : Nat) (hits : List match_entry),
      scan_run sm len cs t.length st res = some (st1, hits) ∧ st1 < sm.n ∧
      IsLSuf (Wd sm path) (t ++ cs) (path st1) ∧
      (∀ m : match_entry, m ∈ hits ↔
        (m ∈ res ∨ ∃ k s : Nat, k < cs.length ∧ s < sm.n ∧
          IsLSuf (Wd sm path) (t ++ cs.take (k + 1)) (path s) ∧
          m ∈ emit sm (t.length + k) s)) ∧
      ∀ B : Nat, (∀ s : Nat, s < sm.n → (sm.output s).length ≤ B) →
        hits.length ≤ res.length + cs.length * B := by
  intro cs
  induction cs with
  | nil =>
    intro t st res hs hl _
    refine ⟨st, res, rfl, hs, by simpa using hl, ?_, ?_⟩
    · intro m
      simp
    · intro B _
      simp
  | cons c cs ih =>
    intro t st res hs hl hlen
    have hlen1 : ((t.length + (cs.length + 1) : Nat) : Int) ≤ len := by
      rcases hlen with h | h
      · cases h
      · simpa using h
    have hg : ((t.length : Nat) : Int) < len := by push_cast at hlen1 ⊢; omega
    have hd : (path st).length < sm.n := lt_of_le_of_lt (K.shape.depth_le st hs) hs
    obtain ⟨y, z, h1, _, h3, h4, h5⟩ := scan_fail_spec sm path K.shape c _
      (K.fail_up_to (path st).length) sm.n st hs (le_refl _) hd
    have h6 := lsuf_snoc (fun w e => K.shape.wd_snoc) hl h5
    obtain ⟨st1, hits, e, hs1, hl1, hm, hlb⟩ := ih (t ++ [c]) z (res ++ emit sm t.length z) h4 h6
      (Or.inr (by rw [List.length_append, List.length_singleton]; push_cast at hlen1 ⊢; omega))
    refine ⟨st1, hits, ?_, hs1, by simpa using hl1, ?_, ?_⟩
    · rw [run_cons sm len c cs _ st res hg, h1]
      simp only [Option.some_bind, h3, Option.getD_some]
      simpa using e
    rotate_left
    · intro B hB
      have h7 := hlb B hB
      have h8 : (emit sm t.length z).length ≤ B := by
        unfold emit output_state
        rw [List.length_map]
        exact hB z h4
      rw [List.length_append] at h7
      rw [List.length_cons, Nat.succ_mul]
      omega
    · intro m
      rw [hm m, List.mem_append]
      constructor
      · rintro ((h | h) | ⟨k, s, hk, hs2, hl2, hmem⟩)
        · exact Or.inl h
        · exact Or.inr ⟨0, z, by simp, h4, by simpa using h6, by simpa using h⟩
        · refine Or.inr ⟨k + 1, s, by simp; omega, hs2, by simpa using hl2, ?_⟩
          have e2 : t.length + (k + 1) = (t ++ [c]).length + k := by simp; omega
          rw [e2]; exact hmem
      · rintro (h | ⟨k, s, hk, hs2, hl2, hmem⟩)
        · exact Or.inl (Or.inl h)
        · cases k with
          | zero =>
            have hl3 : IsLSuf (Wd sm path) (t ++ [c]) (path s) := by simpa using hl2
            have hsz : s = z := K.shape.inj s z hs2 h4 (lsuf_unique hl3 h6)
            rw [hsz] at hmem
            exact Or.inl (Or.inr (by simpa using hmem))
          | succ k =>
            refine Or.inr ⟨k, s, by simp at hk; omega, hs2, by simpa using hl2, ?_⟩
            have e2 : t.length + (k + 1) = (t ++ [c]).length + k := by simp; omega
            rw [← e2]; exact hmem

theorem mem_emit (sm : string_matcher) (k s : Nat) (m : match_entry) :
    m ∈ emit sm k s ↔ ∃ l : Nat, l ∈ sm.output s ∧ m = ⟨(k : Int) - (l : Int) + 1, l⟩ := by
  unfold emit output_state
  rw [List.mem_map]
  constructor
  · rintro ⟨l, hl, rfl⟩; exact ⟨l, hl, rfl⟩
  · rintro ⟨l, hl, rfl⟩; exact ⟨l, hl, rfl⟩

theorem take_succ_eq {t : List Nat} {k c : Nat} (h : t[k]? = some c) :
    t.take (k + 1) = t.take k ++ [c] := by
  rw [List.take_succ, h]; rfl

theorem single_suffix_snoc {d c : Nat} {x : List Nat} (h : [d] <:+ x ++ [c]) : d = c := by
  rcases suffix_snoc_cases h with h0 | ⟨v, _, hv⟩
  · simp at h0
  · cases v with
    | nil => simpa using hv
    | cons a v =>
      have hl := congrArg List.length hv
      simp at hl

/-- The hits of a scan in terms of the insertions: the entry of an insertion
with characters `it.1` and stored length `it.2` is stored at text index `k`
exactly when `it.1` is a suffix of the text read so far and, should `it.1` be
empty, no insertion starts with the character at `k`. -/
theorem ItemAutomaton.run_hits {items : List (List Nat × Nat)} {path : Nat → List Nat}
    {sm : string_matcher} (A : ItemAutomaton items path sm) (len : Int) (t : List Nat)
    (hlen : t = [] ∨ ((t.length : Nat) : Int) ≤ len) :
    ∃ (st : Nat) (hits : List match_entry),
      scan_run sm len t 0 0 [] = some (st, hits) ∧
      (∀ m : match_entry, m ∈ hits ↔
        ∃ (k : Nat) (it : List Nat × Nat), k < t.length ∧ it ∈ items ∧
          it.1 <:+ t.take (k + 1) ∧
          (it.1 = [] → ∀ c : Nat, t[k]? = some c →
            ∀ jt : List Nat × Nat, jt ∈ items → ¬ [c] <+: jt.1) ∧
          m = ⟨(k : Int) - (it.2 : Int) + 1, it.2⟩) ∧
      hits.length ≤ t.length * items.length := by
  have K := A.core
  obtain ⟨st, hits, h1, _, _, hm, hlb⟩ := run_spec K len t [] 0 [] K.shape.n_pos K.lsuf_root
    (by rcases hlen with h | h
        · exact Or.inl h
        · exact Or.inr (by simpa using h))
  refine ⟨st, hits, h1, ?_, by simpa using hlb items.length A.out_length_le⟩
  have hwd1 : ∀ c : Nat, Wd sm path [c] ↔
      ∃ jt : List Nat × Nat, jt ∈ items ∧ [c] <+: jt.1 := by
    intro c
    rw [A.words [c]]
    constructor
    · rintro (h | h)
      · simp at h
      · exact h
    · intro h; exact Or.inr h
  intro m
  rw [hm m]
  simp only [List.not_mem_nil, false_or, List.nil_append, List.length_nil, Nat.zero_add]
  constructor
  · rintro ⟨k, s, hk, hs, hl, hmem⟩
    obtain ⟨l, hlo, rfl⟩ := (mem_emit sm k s _).1 hmem
    obtain ⟨it, hit, h2, h3, h4⟩ := (A.mem_output _ s hs (le_refl _) l).1 hlo
    subst h2
    refine ⟨k, it, hk, hit, h3.trans hl.1, ?_, rfl⟩
    intro h0 c hc jt hjt hpre
    have hw : Wd sm path [c] := (hwd1 c).2 ⟨jt, hjt, hpre⟩
    have hcs : [c] <:+ t.take (k + 1) := by
      rw [take_succ_eq hc]; exact List.suffix_append _ _
    exact h4 h0 c (List.suffix_of_suffix_length_le hcs hl.1 (hl.2.2 [c] hcs hw)) hw
  · rintro ⟨k, it, hk, hit, h3, h4, rfl⟩
    obtain ⟨s, _, _, hs, hl, _, _⟩ := run_spec K len (t.take (k + 1)) [] 0 [] K.shape.n_pos
      K.lsuf_root (Or.inr (by
        rcases hlen with h | h
        · rw [h] at hk; simp at hk
        · rw [List.length_nil, Nat.zero_add, List.length_take]
          have : min (k + 1) t.length ≤ t.length := Nat.min_le_right _ _
          omega))
    rw [List.nil_append] at hl
    refine ⟨k, s, hk, hs, hl, (mem_emit sm k s _).2 ⟨it.2, ?_, rfl⟩⟩
    rw [A.mem_output _ s hs (le_refl _) it.2]
    have hw : Wd sm path it.1 := (A.words it.1).2 (Or.inr ⟨it, hit, List.prefix_refl _⟩)
    refine ⟨it, hit, rfl, List.suffix_of_suffix_length_le h3 hl.1 (hl.2.2 _ h3 hw), ?_⟩
    intro h0 d hd hwd
    obtain ⟨c, hc⟩ : ∃ c : Nat, t[k]? = some c :=
      ⟨t[k], List.getElem?_eq_getElem hk⟩
    have hd2 : [d] <:+ t.take k ++ [c] := by
      rw [← take_succ_eq hc]; exact hd.trans hl.1
    have hdc : d = c := single_suffix_snoc hd2
    subst hdc
    obtain ⟨jt, hjt, hpre⟩ := (hwd1 d).1 hwd
    exact h4 h0 d hc jt hjt hpre

theorem ItemAutomaton.hits {items : List (List Nat × Nat)} {path : Nat → List Nat}
    {sm : string_matcher} (A : ItemAutomaton items path sm) (text : List Nat) :
    ∃ hits : List match_entry, scan_string sm text = some hits ∧
      (∀ m : match_entry, m ∈ hits ↔
        ∃ (k : Nat) (it : List Nat × Nat), k < (scanned text).length ∧ it ∈ items ∧
          it.1 <:+ (scanned text).take (k + 1) ∧
          (it.1 = [] → ∀ c : Nat, (scanned text)[k]? = some c →
            ∀ jt : List Nat × Nat, jt ∈ items → ¬ [c] <+: jt.1) ∧
          m = ⟨(k : Int) - (it.2 : Int) + 1, it.2⟩) ∧
      hits.length ≤ (scanned text).length * items.length := by
  obtain ⟨st, hits, h1, hm, hl⟩ :=
    A.run_hits (to_int text.length) (scanned text) (scanned_guard text)
  exact ⟨hits, by rw [string_eq_scanned, h1]; rfl, hm, hl⟩

theorem scan_loop_spec {pats : List (List Nat)} {path : Nat → List Nat} {sm : string_matcher}
    (A : Automaton pats path sm) (hne : ∀ p : List Nat, p ∈ pats → p ≠ []) (len : Int) :
    ∀ (cs t : List Nat) (state : Nat) (results : List match_entry), state < sm.n →
    IsLSuf (Wd sm path) t (path state) →
    (cs = [] ∨ ((t.length + cs.length : Nat) : Int) ≤ len) →
    ∃ (st1 : Nat) (hits : List match_entry),
      scan_run sm len cs t.length state results = some (st1, hits) ∧
      hits.Perm (results ++ ideal pats t cs) := by
  intro cs
  induction cs with
  | nil =>
    intro t state results _ _ _
    exact ⟨state, results, rfl, by simp [ideal]⟩
  | cons c cs ih =>
    intro t state results hs hl hlen
    have hlen1 : ((t.length + (cs.length + 1) : Nat) : Int) ≤ len := by
      rcases hlen with h | h
      · cases h
      · simpa using h
    have hg : ((t.length : Nat) : Int) < len := by push_cast at hlen1 ⊢; omega
    have hd : (path state).length < sm.n := lt_of_le_of_lt (A.shape.depth_le state hs) hs
    obtain ⟨y, z, h1, h2, h3, h4, h5⟩ := scan_fail_spec sm path A.shape c _
      (A.core.fail_up_to (path state).length) sm.n state hs (le_refl _) hd
    have h6 := lsuf_snoc (fun w e => A.shape.wd_snoc) hl h5
    obtain ⟨st1, hits, e, hp⟩ := ih (t ++ [c]) z (results ++ emit sm t.length z) h4 h6
      (Or.inr (by rw [List.length_append, List.length_singleton]; push_cast at hlen1 ⊢; omega))
    refine ⟨st1, hits, ?_, ?_⟩
    · rw [run_cons sm len c cs _ state results hg, h1]
      simp only [Option.some_bind, h3, Option.getD_some]
      simpa using e
    · refine hp.trans ?_
      rw [List.append_assoc]
      apply List.Perm.append_left
      simp only [ideal]
      exact List.Perm.append_right _ (emit_perm A hne t c z h4 h6)

theorem mem_ideal (pats : List (List Nat)) (m : match_entry) :
    ∀ (cs t : List Nat), m ∈ ideal pats t cs ↔
      ∃ (k : Nat) (p : List Nat), k < cs.length ∧ p ∈ pats ∧ p <:+ t ++ cs.take (k + 1) ∧
        m = ⟨((t.length + k + 1 : Nat) : Int) - (p.length : Int), p.length⟩ := by
  intro cs
  induction cs with
  | nil => intro t; simp [ideal]
  | cons c cs ih =>
    intro t
    simp only [ideal, List.mem_append, ih (t ++ [c])]
    constructor
    · rintro (h | ⟨k, p, hk, hp, hs, hm⟩)
      · unfold hits_at at h
        rw [List.mem_map] at h
        obtain ⟨p, hp, hm⟩ := h
        rw [List.mem_filter] at hp
        refine ⟨0, p, by simp, hp.1, by simpa using hp.2, ?_⟩
        rw [← hm]; simp
      · refine ⟨k + 1, p, by simp; omega, hp, by simpa using hs, ?_⟩
        rw [hm]; simp; omega
    · rintro ⟨k, p, hk, hp, hs, hm⟩
      cases k with
      | zero =>
        left
        unfold hits_at
        rw [List.mem_map]
        refine ⟨p, List.mem_filter.2 ⟨hp, by simpa using hs⟩, ?_⟩
        rw [hm]; simp
      | succ k =>
        right
        refine ⟨k, p, by simp at hk; omega, hp, by simpa using hs, ?_⟩
        rw [hm]; simp; omega

theorem scan_string_spec {pats : List (List Nat)} {path : Nat → List Nat}
    {sm : string_matcher} (A : Automaton pats path sm)
    (hne : ∀ p : List Nat, p ∈ pats → p ≠ []) (text : List Nat) :
    ∃ hits : List match_entry, scan_string sm text = some hits ∧
      hits.Perm (ideal pats [] (scanned text)) := by
  obtain ⟨st1, hits, e, hp⟩ := scan_loop_spec A hne (to_int text.length) (scanned text) [] 0 []
    A.shape.n_pos A.core.lsuf_root
    (by rcases scanned_guard text with h | h
        · exact Or.inl h
        · exact Or.inr (by simpa using h))
  have e1 : scan_run sm (to_int text.length) (scanned text) 0 0 [] = some (st1, hits) := e
  exact ⟨hits, by rw [string_eq_scanned, e1]; rfl, by simpa using hp⟩

theorem scan_nothing (sm : string_matcher) (text : List Nat) (h : to_int text.length ≤ 0) :
    find_matched_string sm text = some [] := by
  unfold find_matched_string
  cases text with
  | nil => rfl
  | cons c cs =>
    have h1 : ¬ ((0 : Nat) : Int) < to_int (c :: cs).length := by omega
    simp only [find_matched_run, if_neg h1, Option.map_some']

theorem cap_init : Cap 64 [] := ⟨by simp, ⟨1, rfl⟩, by decide⟩

theorem store_some : ∀ (ms : List match_entry) (sz : Nat) (res : List match_entry)
    (p : Nat × List match_entry), store_hits ms sz res = some p → p.2 = res ++ ms := by
  intro ms
  induction ms with
  | nil =>
    intro sz res p h
    simp only [store_hits, Option.some.injEq] at h
    rw [← h]; simp
  | cons m ms ih =>
    intro sz res p h
    simp only [store_hits] at h
    split_ifs at h with h1 h2
    · rw [ih _ _ p h]; simp
    · rw [ih _ _ p h]; simp

theorem store_ok : ∀ (ms : List match_entry) (sz : Nat) (res : List match_entry),
    Cap sz res → res.length + ms.length ≤ 2147483584 →
    ∃ sz1 : Nat, store_hits ms sz res = some (sz1, res ++ ms) ∧ Cap sz1 (res ++ ms) := by
  intro ms
  induction ms with
  | nil =>
    intro sz res hc _
    exact ⟨sz, by simp [store_hits], by simpa using hc⟩
  | cons m ms ih =>
    intro sz res hc hl
    obtain ⟨h1, h2, h3⟩ := hc
    rw [List.length_cons] at hl
    have e : res ++ m :: ms = res ++ [m] ++ ms := by simp
    simp only [store_hits]
    by_cases h4 : sz ≤ res.length
    · have h5 : sz + 64 ≤ 2147483647 := by omega
      rw [if_pos h4, if_pos h5, e]
      apply ih
      · refine ⟨?_, ?_, ?_⟩
        · rw [List.length_append, List.length_singleton]; omega
        · omega
        · omega
      · rw [List.length_append, List.length_singleton]; omega
    · rw [if_neg h4, e]
      apply ih
      · refine ⟨?_, h2, h3⟩
        rw [List.length_append, List.length_singleton]; omega
      · rw [List.length_append, List.length_singleton]; omega

theorem store_fail : ∀ (ms : List match_entry) (sz : Nat) (res : List match_entry),
    Cap sz res → 2147483584 < res.length + ms.length → store_hits ms sz res = none := by
  intro ms
  induction ms with
  | nil =>
    intro sz res hc hl
    obtain ⟨h1, _, h3⟩ := hc
    rw [List.length_nil] at hl
    omega
  | cons m ms ih =>
    intro sz res hc hl
    obtain ⟨h1, h2, h3⟩ := hc
    rw [List.length_cons] at hl
    simp only [store_hits]
    by_cases h4 : sz ≤ res.length
    · rw [if_pos h4]
      by_cases h5 : sz + 64 ≤ 2147483647
      · rw [if_pos h5]
        apply ih
        · refine ⟨?_, ?_, ?_⟩
          · rw [List.length_append, List.length_singleton]; omega
          · omega
          · omega
        · rw [List.length_append, List.length_singleton]; omega
      · rw [if_neg h5]
    · rw [if_neg h4]
      apply ih
      · refine ⟨?_, h2, h3⟩
        rw [List.length_append, List.length_singleton]; omega
      · rw [List.length_append, List.length_singleton]; omega

theorem find_stop (sm : string_matcher) (len : Int) (cs : List Nat) (i st sz : Nat)
    (res : List match_entry) (h : len ≤ (i : Int)) :
    find_matched_run sm len cs i st sz res = some (st, sz, res) := by
  cases cs with
  | nil => rfl
  | cons c cs =>
    have h1 : ¬ (i : Int) < len := by omega
    simp only [find_matched_run, if_neg h1]

theorem find_cons (sm : string_matcher) (len : Int) (c : Nat) (cs : List Nat) (i st sz : Nat)
    (res : List match_entry) (h : (i : Int) < len) :
    find_matched_run sm len (c :: cs) i st sz res =
      (scan_fail sm c sm.n st).bind (fun y =>
        (store_hits (emit sm i ((goto_state sm y c).getD FAIL_STATE)) sz res).bind (fun p =>
          find_matched_run sm len cs (i + 1) ((goto_state sm y c).getD FAIL_STATE) p.1 p.2)) := by
  simp only [find_matched_run, if_pos h]
  cases scan_fail sm c sm.n st with
  | none => rfl
  | some y =>
    simp only [Option.some_bind]
    cases store_hits (emit sm i ((goto_state sm y c).getD FAIL_STATE)) sz res with
    | none => rfl
    | some p => rfl

theorem scan_run_mono (sm : string_matcher) (len : Int) :
    ∀ (cs : List Nat) (i st : Nat) (res : List match_entry) (p : Nat × List match_entry),
      scan_run sm len cs i st res = some p → res.length ≤ p.2.length := by
  intro cs
  induction cs with
  | nil =>
    intro i st res p h
    simp only [scan_run, Option.some.injEq] at h
    rw [← h]
  | cons c cs ih =>
    intro i st res p h
    by_cases hg : (i : Int) < len
    · rw [run_cons sm len c cs i st res hg] at h
      cases hsf : scan_fail sm c sm.n st with
      | none => rw [hsf] at h; simp at h
      | some y =>
        rw [hsf] at h
        simp only [Option.some_bind] at h
        have := ih _ _ _ p h
        rw [List.length_append] at this
        omega
    · rw [run_stop sm len _ i st res (by omega), Option.some.injEq] at h
      rw [← h]

theorem run_some (sm : string_matcher) (len : Int) :
    ∀ (cs : List Nat) (i st sz : Nat) (res : List match_entry)
      (r : Nat × Nat × List match_entry),
      find_matched_run sm len cs i st sz res = some r →
      scan_run sm len cs i st res = some (r.1, r.2.2) := by
  intro cs
  induction cs with
  | nil =>
    intro i st sz res r h
    simp only [find_matched_run, Option.some.injEq] at h
    rw [← h]; rfl
  | cons c cs ih =>
    intro i st sz res r h
    by_cases hg : (i : Int) < len
    · rw [find_cons sm len c cs i st sz res hg] at h
      rw [run_cons sm len c cs i st res hg]
      cases hsf : scan_fail sm c sm.n st with
      | none => rw [hsf] at h; simp at h
      | some y =>
        rw [hsf] at h
        simp only [Option.some_bind] at h ⊢
        cases hst : store_hits (emit sm i ((goto_state sm y c).getD FAIL_STATE)) sz res with
        | none => rw [hst] at h; simp at h
        | some p =>
          rw [hst] at h
          simp only [Option.some_bind] at h
          have h1 := ih _ _ _ _ r h
          rw [store_some _ _ _ p hst] at h1
          exact h1
    · rw [find_stop sm len _ i st sz res (by omega), Option.some.injEq] at h
      rw [run_stop sm len _ i st res (by omega), ← h]

theorem run_ok (sm : string_matcher) (len : Int) :
    ∀ (cs : List Nat) (i st sz : Nat) (res : List match_entry) (p : Nat × List match_entry),
      Cap sz res → scan_run sm len cs i st res = some p → p.2.length ≤ 2147483584 →
      ∃ sz1 : Nat, find_matched_run sm len cs i st sz res = some (p.1, sz1, p.2) ∧
        Cap sz1 p.2 := by
  intro cs
  induction cs with
  | nil =>
    intro i st sz res p hc h _
    simp only [scan_run, Option.some.injEq] at h
    rw [← h]
    exact ⟨sz, rfl, hc⟩
  | cons c cs ih =>
    intro i st sz res p hc h hl
    by_cases hg : (i : Int) < len
    · rw [run_cons sm len c cs i st res hg] at h
      rw [find_cons sm len c cs i st sz res hg]
      cases hsf : scan_fail sm c sm.n st with
      | none => rw [hsf] at h; simp at h
      | some y =>
        rw [hsf] at h
        simp only [Option.some_bind] at h ⊢
        have hm := scan_run_mono sm len _ _ _ _ p h
        rw [List.length_append] at hm
        obtain ⟨sz1, h1, hc1⟩ := store_ok (emit sm i ((goto_state sm y c).getD FAIL_STATE))
          sz res hc (by omega)
        rw [h1]
        simp only [Option.some_bind]
        exact ih _ _ _ _ p hc1 h hl
    · rw [run_stop sm len _ i st res (by omega), Option.some.injEq] at h
      rw [find_stop sm len _ i st sz res (by omega), ← h]
      exact ⟨sz, rfl, hc⟩

theorem run_fail (sm : string_matcher) (len : Int) :
    ∀ (cs : List Nat) (i st sz : Nat) (res : List match_entry) (p : Nat × List match_entry),
      Cap sz res → scan_run sm len cs i st res = some p → 2147483584 < p.2.length →
      find_matched_run sm len cs i st sz res = none := by
  intro cs
  induction cs with
  | nil =>
    intro i st sz res p hc h hl
    simp only [scan_run, Option.some.injEq] at h
    rw [← h] at hl
    obtain ⟨h1, _, h3⟩ := hc
    simp only at hl
    omega
  | cons c cs ih =>
    intro i st sz res p hc h hl
    by_cases hg : (i : Int) < len
    · rw [run_cons sm len c cs i st res hg] at h
      rw [find_cons sm len c cs i st sz res hg]
      cases hsf : scan_fail sm c sm.n st with
      | none => rfl
      | some y =>
        rw [hsf] at h
        simp only [Option.some_bind] at h ⊢
        by_cases hb : res.length +
            (emit sm i ((goto_state sm y c).getD FAIL_STATE)).length ≤ 2147483584
        · obtain ⟨sz1, h1, hc1⟩ := store_ok (emit sm i ((goto_state sm y c).getD FAIL_STATE))
            sz res hc hb
          rw [h1]
          simp only [Option.some_bind]
          exact ih _ _ _ _ p hc1 h hl
        · rw [store_fail _ sz res hc (by omega)]
          rfl
    · rw [run_stop sm len _ i st res (by omega), Option.some.injEq] at h
      rw [← h] at hl
      obtain ⟨h1, _, h3⟩ := hc
      simp only at hl
      omega

theorem find_append (sm : string_matcher) (len : Int) :
    ∀ (cs ds : List Nat) (i st sz : Nat) (res : List match_entry),
      find_matched_run sm len (cs ++ ds) i st sz res =
        (find_matched_run sm len cs i st sz res).bind
          (fun r => find_matched_run sm len ds (i + cs.length) r.1 r.2.1 r.2.2) := by
  intro cs
  induction cs with
  | nil => intro ds i st sz res; simp [find_matched_run]
  | cons c cs ih =>
    intro ds i st sz res
    by_cases h : (i : Int) < len
    · rw [List.cons_append, find_cons sm len c _ i st sz res h,
        find_cons sm len c _ i st sz res h]
      cases scan_fail sm c sm.n st with
      | none => rfl
      | some y =>
        simp only [Option.some_bind]
        cases store_hits (emit sm i ((goto_state sm y c).getD FAIL_STATE)) sz res with
        | none => rfl
        | some p =>
          simp only [Option.some_bind]
          have e : i + 1 + cs.length = i + (c :: cs).length := by simp; omega
          have h1 := ih ds (i + 1) ((goto_state sm y c).getD FAIL_STATE) p.1 p.2
          rw [e] at h1
          exact h1
    · rw [find_stop sm len _ i st sz res (by omega), find_stop sm len _ i st sz res (by omega)]
      simp only [Option.some_bind]
      rw [find_stop sm len _ _ st sz res (by push_cast; omega)]

theorem find_of_scan (sm : string_matcher) (text : List Nat) (hits : List match_entry)
    (h : scan_string sm text = some hits) (hl : hits.length ≤ 2147483584) :
    find_matched_string sm text = some hits := by
  unfold scan_string at h
  obtain ⟨p, hp, rfl⟩ := Option.map_eq_some'.1 h
  obtain ⟨sz1, h1, _⟩ := run_ok sm (to_int text.length) text 0 0 64 [] p cap_init hp hl
  unfold find_matched_string
  rw [h1]
  rfl

theorem scan_of_find (sm : string_matcher) (text : List Nat) (hits : List match_entry)
    (h : find_matched_string sm text = some hits) : scan_string sm text = some hits := by
  unfold find_matched_string at h
  obtain ⟨r, hr, rfl⟩ := Option.map_eq_some'.1 h
  unfold scan_string
  rw [run_some sm (to_int text.length) text 0 0 64 [] r hr]
  rfl

theorem find_none_of_scan (sm : string_matcher) (text : List Nat) (hits : List match_entry)
    (h : scan_string sm text = some hits) (hl : 2147483584 < hits.length) :
    find_matched_string sm text = none := by
  unfold scan_string at h
  obtain ⟨p, hp, rfl⟩ := Option.map_eq_some'.1 h
  unfold find_matched_string
  rw [run_fail sm (to_int text.length) text 0 0 64 [] p cap_init hp hl]
  rfl

theorem scanned_mul_le (text : List Nat) (k : Nat) :
    (scanned text).length * k ≤ text.length * k :=
  Nat.mul_le_mul_right k (scanned_pre text).length_le

theorem insert_pattern_nonpos (sm : string_matcher) (p : List Nat) (h : to_int p.length ≤ 0) :
    insert_pattern sm p = add_output_state sm 0 (to_uint p.length) := by
  have e : (to_int p.length).toNat = 0 := by omega
  simp only [insert_pattern, e, List.take_zero, trie_walk, extend_trie]

theorem prefix_drop_take {s t : List Nat} (h : s <+: t) (a b : Nat) (hab : a + b ≤ s.length) :
    (t.drop a).take b = (s.drop a).take b := by
  obtain ⟨r, rfl⟩ := h
  rw [List.drop_append_of_le_length (by omega), List.take_append_of_le_length]
  rw [List.length_drop]
  omega

theorem sized_init : Sized (init_string_matcher 128) := by
  refine ⟨?_, ?_, ?_⟩ <;> simp [init_string_matcher]

theorem new_state_eq (sm : string_matcher) (h : Sized sm) (hn : sm.n < 4294966400) :
    new_state sm = some (grow_state sm) ∧ Sized (grow_state sm).1 ∧
      (grow_state sm).1.n = sm.n + 1 := by
  obtain ⟨h1, h2, h3⟩ := h
  have hsz : sm.n < (if sm.sz ≤ sm.n then (sm.sz + 1024) % 4294967296 else sm.sz) := by
    by_cases hf : sm.sz ≤ sm.n
    · rw [if_pos hf, Nat.mod_eq_of_lt (by omega)]; omega
    · rw [if_neg hf]; omega
  refine ⟨?_, ?_, rfl⟩
  · unfold new_state
    dsimp only
    rw [if_pos hsz]
    rfl
  · have e : (grow_state sm).1.sz =
        (if sm.sz ≤ sm.n then (sm.sz + 1024) % 4294967296 else sm.sz) := rfl
    have en : (grow_state sm).1.n = sm.n + 1 := rfl
    unfold Sized
    rw [e, en]
    by_cases hf : sm.sz ≤ sm.n
    · rw [if_pos hf, Nat.mod_eq_of_lt (by omega)]
      exact ⟨by omega, by omega, by omega⟩
    · rw [if_neg hf]
      exact ⟨by omega, h2, h3⟩

theorem new_state_none (sm : string_matcher) (h : Sized sm) (hn : 4294966400 ≤ sm.n) :
    new_state sm = none := by
  obtain ⟨h1, h2, h3⟩ := h
  have e1 : sm.sz = 4294966400 := by omega
  have hc : ¬ sm.n < (if sm.sz ≤ sm.n then (sm.sz + 1024) % 4294967296 else sm.sz) := by
    rw [if_pos (by omega : sm.sz ≤ sm.n), e1]
    have : (4294966400 + 1024) % 4294967296 = 128 := by decide
    omega
  unfold new_state
  dsimp only
  rw [if_neg hc]

theorem new_state_sound (sm : string_matcher) (r : string_matcher × Nat)
    (h : new_state sm = some r) : r = grow_state sm := by
  unfold new_state at h
  dsimp only at h
  by_cases hc : sm.n < (if sm.sz ≤ sm.n then (sm.sz + 1024) % 4294967296 else sm.sz)
  · rw [if_pos hc, Option.some.injEq] at h
    rw [← h]
    rfl
  · rw [if_neg hc] at h
    cases h

theorem add_transition_size (sm : string_matcher) (a c e : Nat) :
    (add_transition sm a c e).n = sm.n ∧ (add_transition sm a c e).sz = sm.sz := by
  unfold add_transition add_symbol
  simp only
  split_ifs <;> exact ⟨rfl, rfl⟩

theorem sized_add_transition (sm : string_matcher) (a c e : Nat) (h : Sized sm) :
    Sized (add_transition sm a c e) := by
  unfold Sized
  rw [(add_transition_size sm a c e).1, (add_transition_size sm a c e).2]
  exact h

theorem trie_extend_eq : ∀ (cs : List Nat) (sm : string_matcher) (state : Nat), Sized sm →
    sm.n + cs.length ≤ 4294966400 →
    trie_extend sm state cs = some (extend_trie sm state cs) ∧
      Sized (extend_trie sm state cs).1 ∧
      (extend_trie sm state cs).1.n = sm.n + cs.length := by
  intro cs
  induction cs with
  | nil => intro sm state h _; exact ⟨rfl, h, rfl⟩
  | cons c cs ih =>
    intro sm state h hl
    rw [List.length_cons] at hl
    obtain ⟨e1, h1, hn1⟩ := new_state_eq sm h (by omega)
    have hs := sized_add_transition (grow_state sm).1 state c (grow_state sm).2 h1
    have hn2 : (add_transition (grow_state sm).1 state c (grow_state sm).2).n = sm.n + 1 := by
      rw [(add_transition_size _ _ _ _).1, hn1]
    obtain ⟨e2, h2, hn3⟩ := ih (add_transition (grow_state sm).1 state c (grow_state sm).2)
      (grow_state sm).2 hs (by rw [hn2]; omega)
    have e3 : extend_trie sm state (c :: cs) =
        extend_trie (add_transition (grow_state sm).1 state c (grow_state sm).2)
          (grow_state sm).2 cs := rfl
    refine ⟨?_, by rw [e3]; exact h2, by rw [e3, hn3, hn2, List.length_cons]; omega⟩
    rw [e3, ← e2]
    simp only [trie_extend, e1]

theorem trie_extend_none : ∀ (cs : List Nat) (sm : string_matcher) (state : Nat), Sized sm →
    4294966400 < sm.n + cs.length → trie_extend sm state cs = none := by
  intro cs
  induction cs with
  | nil =>
    intro sm state h hl
    obtain ⟨h1, _, h3⟩ := h
    rw [List.length_nil] at hl
    omega
  | cons c cs ih =>
    intro sm state h hl
    rw [List.length_cons] at hl
    by_cases hn : sm.n < 4294966400
    · obtain ⟨e1, h1, hn1⟩ := new_state_eq sm h hn
      have hs := sized_add_transition (grow_state sm).1 state c (grow_state sm).2 h1
      have hn2 : (add_transition (grow_state sm).1 state c (grow_state sm).2).n = sm.n + 1 := by
        rw [(add_transition_size _ _ _ _).1, hn1]
      have e2 := ih (add_transition (grow_state sm).1 state c (grow_state sm).2)
        (grow_state sm).2 hs (by rw [hn2]; omega)
      simp only [trie_extend, e1]
      exact e2
    · simp only [trie_extend, new_state_none sm h (by omega)]

theorem trie_extend_sound : ∀ (cs : List Nat) (sm : string_matcher) (state : Nat)
    (r : string_matcher × Nat), trie_extend sm state cs = some r →
    r = extend_trie sm state cs := by
  intro cs
  induction cs with
  | nil =>
    intro sm state r h
    simp only [trie_extend, Option.some.injEq] at h
    rw [← h]; rfl
  | cons c cs ih =>
    intro sm state r h
    simp only [trie_extend] at h
    cases hq : new_state sm with
    | none => rw [hq] at h; cases h
    | some p =>
      rw [hq] at h
      simp only at h
      have hp := new_state_sound sm p hq
      subst hp
      exact ih _ _ r h

theorem trie_walk_rest_le (sm : string_matcher) :
    ∀ (cs : List Nat) (state : Nat), (trie_walk sm state cs).2.length ≤ cs.length := by
  intro cs
  induction cs with
  | nil => intro state; simp [trie_walk]
  | cons c cs ih =>
    intro state
    simp only [trie_walk]
    cases goto_state sm state c with
    | none => simp
    | some s =>
      simp only
      split_ifs
      · simp
      · exact le_trans (ih s) (by simp)

theorem add_pattern_eq (sm : string_matcher) (p : List Nat) (h : Sized sm)
    (hl : sm.n + p.length ≤ 4294966400) :
    add_pattern sm p = some (insert_pattern sm p) ∧ Sized (insert_pattern sm p) ∧
      (insert_pattern sm p).n ≤ sm.n + p.length := by
  have h1 := trie_walk_rest_le sm (p.take (to_int p.length).toNat) 0
  have h2 : (p.take (to_int p.length).toNat).length ≤ p.length :=
    (List.take_sublist _ _).length_le
  obtain ⟨e, hs, hn⟩ := trie_extend_eq (trie_walk sm 0 (p.take (to_int p.length).toNat)).2 sm
    (trie_walk sm 0 (p.take (to_int p.length).toNat)).1 h (by omega)
  refine ⟨?_, hs, ?_⟩
  · simp only [add_pattern, e]
    rfl
  · have : (insert_pattern sm p).n =
        (extend_trie sm (trie_walk sm 0 (p.take (to_int p.length).toNat)).1
          (trie_walk sm 0 (p.take (to_int p.length).toNat)).2).1.n := rfl
    rw [this, hn]
    omega

theorem add_pattern_sound (sm : string_matcher) (p : List Nat) (r : string_matcher)
    (h : add_pattern sm p = some r) : r = insert_pattern sm p := by
  simp only [add_pattern] at h
  cases hq : trie_extend sm (trie_walk sm 0 (p.take (to_int p.length).toNat)).1
      (trie_walk sm 0 (p.take (to_int p.length).toNat)).2 with
  | none => rw [hq] at h; cases h
  | some e =>
    rw [hq] at h
    simp only [Option.some.injEq] at h
    rw [← h, trie_extend_sound _ _ _ e hq]
    rfl

theorem add_patterns_eq : ∀ (ps : List (List Nat)) (sm : string_matcher), Sized sm →
    sm.n + (ps.map List.length).sum ≤ 4294966400 →
    add_patterns sm ps = some (ps.foldl insert_pattern sm) := by
  intro ps
  induction ps with
  | nil => intro sm _ _; rfl
  | cons p ps ih =>
    intro sm h hl
    rw [List.map_cons, List.sum_cons] at hl
    obtain ⟨e, hs, hn⟩ := add_pattern_eq sm p h (by omega)
    simp only [add_patterns, e, List.foldl_cons]
    exact ih _ hs (by omega)

theorem add_patterns_sound : ∀ (ps : List (List Nat)) (sm r : string_matcher),
    add_patterns sm ps = some r → r = ps.foldl insert_pattern sm := by
  intro ps
  induction ps with
  | nil =>
    intro sm r h
    simp only [add_patterns, Option.some.injEq] at h
    rw [← h]; rfl
  | cons p ps ih =>
    intro sm r h
    simp only [add_patterns] at h
    cases hq : add_pattern sm p with
    | none => rw [hq] at h; cases h
    | some sm1 =>
      rw [hq] at h
      simp only at h
      rw [List.foldl_cons, ← add_pattern_sound sm p sm1 hq]
      exact ih _ r h

theorem root_state : new_state (init_string_matcher 128) =
    some (grow_state (init_string_matcher 128)) := rfl

theorem sized_root : Sized (grow_state (init_string_matcher 128)).1 := by
  refine ⟨?_, ?_, ?_⟩ <;> simp [grow_state, init_string_matcher]

theorem create_goto_function_eq (pats : List (List Nat))
    (h : (pats.map List.length).sum < 4294966400) :
    create_goto_function pats = some (goto_trie pats) := by
  have hn : (grow_state (init_string_matcher 128)).1.n = 1 := rfl
  simp only [create_goto_function, root_state]
  exact add_patterns_eq pats _ sized_root (by rw [hn]; omega)

theorem create_goto_function_sound (pats : List (List Nat)) (sm : string_matcher)
    (h : create_goto_function pats = some sm) : sm = goto_trie pats := by
  simp only [create_goto_function, root_state] at h
  exact add_patterns_sound pats _ sm h

theorem new_string_matcher_eq (pats : List (List Nat))
    (h : (pats.map List.length).sum < 4294966400) :
    new_string_matcher pats = automaton pats := by
  simp only [new_string_matcher, create_goto_function_eq pats h]
  rfl

theorem new_string_matcher_sound (pats : List (List Nat)) (sm : string_matcher)
    (h : new_string_matcher pats = some sm) : automaton pats = some sm := by
  simp only [new_string_matcher] at h
  cases hq : create_goto_function pats with
  | none => rw [hq] at h; cases h
  | some t =>
    rw [hq] at h
    simp only at h
    rw [create_goto_function_sound pats t hq] at h
    exact h

theorem extend_trie_n : ∀ (cs : List Nat) (sm : string_matcher) (state : Nat),
    (extend_trie sm state cs).1.n = sm.n + cs.length := by
  intro cs
  induction cs with
  | nil => intro sm state; rfl
  | cons c cs ih =>
    intro sm state
    have e3 : extend_trie sm state (c :: cs) =
        extend_trie (add_transition (grow_state sm).1 state c (grow_state sm).2)
          (grow_state sm).2 cs := rfl
    have e4 : (grow_state sm).1.n = sm.n + 1 := rfl
    rw [e3, ih, (add_transition_size _ _ _ _).1, List.length_cons, e4]
    omega

theorem walk_fresh {sm : string_matcher} {items : List (List Nat × Nat)}
    {path : Nat → List Nat} (h : ItemTrie sm items path) (p : List Nat) (c : Nat)
    (hc : ∀ x : Nat, x ∈ p → x = c)
    (hfresh : ∀ it : List Nat × Nat, it ∈ items → ∀ x : Nat, x ∈ it.1 → x ≠ c) :
    (trie_walk sm 0 p).2 = p := by
  obtain ⟨hlt, pre, hp1, hp2, _⟩ := trie_walk_spec p sm path 0 h.shape h.shape.n_pos
  rw [h.shape.root, List.nil_append] at hp2
  have hw : Wd sm path pre := ⟨_, hlt, hp2⟩
  cases pre with
  | nil =>
    rw [List.nil_append] at hp1
    exact hp1.symm
  | cons x xs =>
    exfalso
    have hx : x ∈ p := by
      rw [hp1]
      exact List.mem_append_left _ (List.mem_cons_self _ _)
    rcases (h.words _).1 hw with h0 | ⟨it, hit, hpre⟩
    · cases h0
    · exact hfresh it hit x (hpre.subset (List.mem_cons_self _ _)) (hc x hx)

theorem insert_pattern_n (sm : string_matcher) (p : List Nat) :
    (insert_pattern sm p).n =
      sm.n + (trie_walk sm 0 (p.take (to_int p.length).toNat)).2.length := by
  have e : (insert_pattern sm p).n =
      (extend_trie sm (trie_walk sm 0 (p.take (to_int p.length).toNat)).1
        (trie_walk sm 0 (p.take (to_int p.length).toNat)).2).1.n := rfl
  rw [e, extend_trie_n]

theorem add_pattern_none (sm : string_matcher) (p : List Nat) (h : Sized sm)
    (hl : 4294966400 < sm.n + (trie_walk sm 0 (p.take (to_int p.length).toNat)).2.length) :
    add_pattern sm p = none := by
  have e := trie_extend_none (trie_walk sm 0 (p.take (to_int p.length).toNat)).2 sm
    (trie_walk sm 0 (p.take (to_int p.length).toNat)).1 h hl
  simp only [add_pattern, e]

theorem create_goto_function_two (p q : List Nat) (rest : List (List Nat)) :
    create_goto_function (p :: q :: rest) =
      (add_pattern (grow_state (init_string_matcher 128)).1 p).bind
        (fun sm1 => (add_pattern sm1 q).bind (fun sm2 => add_patterns sm2 rest)) := by
  simp only [create_goto_function, root_state, add_patterns]
  cases add_pattern (grow_state (init_string_matcher 128)).1 p with
  | none => rfl
  | some sm1 =>
    simp only [Option.some_bind]
    cases add_pattern sm1 q with
    | none => rfl
    | some sm2 => rfl

theorem take_all {p : List Nat} (h : p.length ≤ 2147483647) :
    p.take (to_int p.length).toNat = p := by
  rw [to_int_of_le h, Int.toNat_ofNat, List.take_length]

/-- With the two patterns of 2147483647 letters "a" and of 2147483647 letters
"b" the trie needs 4294967295 states: `new_state` is called for the state
4294966400 with `sz = 4294966400`, the sum `sz + 1024` wraps to 128, and the
state is written outside the arrays. -/
theorem build_overflow (rest : List (List Nat)) :
    create_goto_function
      (List.replicate 2147483647 97 :: List.replicate 2147483647 98 :: rest) = none := by
  have hA : (List.replicate 2147483647 97).length = 2147483647 := List.length_replicate _ _
  have hB : (List.replicate 2147483647 98).length = 2147483647 := List.length_replicate _ _
  have hn0 : (grow_state (init_string_matcher 128)).1.n = 1 := rfl
  obtain ⟨e1, hs1, _⟩ := add_pattern_eq (grow_state (init_string_matcher 128)).1
    (List.replicate 2147483647 97) sized_root (by rw [hn0, hA]; decide)
  obtain ⟨path1, h1⟩ := insert_pattern_spec _ [] _ (List.replicate 2147483647 97) trie_init
  have wA : (trie_walk (grow_state (init_string_matcher 128)).1 0
      (List.replicate 2147483647 97)).2 = List.replicate 2147483647 97 :=
    walk_fresh trie_init _ 97 (fun x hx => List.eq_of_mem_replicate hx)
      (fun it hit => absurd hit (List.not_mem_nil it))
  have n1 : (insert_pattern (grow_state (init_string_matcher 128)).1
      (List.replicate 2147483647 97)).n = 2147483648 := by
    rw [insert_pattern_n, take_all (le_of_eq hA), wA, hA, hn0]
  have wB : (trie_walk (insert_pattern (grow_state (init_string_matcher 128)).1
      (List.replicate 2147483647 97)) 0 (List.replicate 2147483647 98)).2 =
      List.replicate 2147483647 98 := by
    apply walk_fresh h1 _ 98 (fun x hx => List.eq_of_mem_replicate hx)
    intro it hit x hx
    rw [List.nil_append, List.mem_singleton] at hit
    rw [hit, item_of_le (le_of_eq hA)] at hx
    rw [List.eq_of_mem_replicate hx]
    decide
  have e2 : add_pattern (insert_pattern (grow_state (init_string_matcher 128)).1
      (List.replicate 2147483647 97)) (List.replicate 2147483647 98) = none := by
    apply add_pattern_none _ _ hs1
    rw [take_all (le_of_eq hB), wB, n1, hB]
    decide
  rw [create_goto_function_two, e1, Option.some_bind, e2]
  rfl

theorem automaton_overflow (rest : List (List Nat)) :
    new_string_matcher
      (List.replicate 2147483647 97 :: List.replicate 2147483647 98 :: rest) = none := by
  have e : ∀ ps : List (List Nat), create_goto_function ps = none →
      new_string_matcher ps = none := by
    intro ps h
    simp only [new_string_matcher, h]
  exact e _ (build_overflow rest)

theorem new_string_matcher_items (pats : List (List Nat))
    (hst : (pats.map List.length).sum < 4294966400) :
    ∃ (sm : string_matcher) (path : Nat → List Nat),
      new_string_matcher pats = some sm ∧ ItemAutomaton (pats.map item) path sm := by
  obtain ⟨sm, path, e, A⟩ := automaton_items pats
  exact ⟨sm, path, by rw [new_string_matcher_eq pats hst]; exact e, A⟩

theorem new_string_matcher_core (pats : List (List Nat))
    (hst : (pats.map List.length).sum < 4294966400) :
    ∃ (sm : string_matcher) (path : Nat → List Nat),
      new_string_matcher pats = some sm ∧ Core path sm := by
  obtain ⟨sm, path, e, A⟩ := new_string_matcher_items pats hst
  exact ⟨sm, path, e, A.core⟩

theorem new_string_matcher_spec (pats : List (List Nat))
    (hb : ∀ p : List Nat, p ∈ pats → p.length ≤ 2147483647)
    (hst : (pats.map List.length).sum < 4294966400) :
    ∃ (sm : string_matcher) (path : Nat → List Nat),
      new_string_matcher pats = some sm ∧ Automaton pats path sm := by
  obtain ⟨sm, path, e, A⟩ := automaton_spec pats hb
  exact ⟨sm, path, by rw [new_string_matcher_eq pats hst]; exact e, A⟩

theorem built_items (pats : List (List Nat)) (sm : string_matcher)
    (e : new_string_matcher pats = some sm) :
    ∃ path : Nat → List Nat, ItemAutomaton (pats.map item) path sm := by
  obtain ⟨sm1, path, e1, A⟩ := automaton_items pats
  rw [new_string_matcher_sound pats sm e, Option.some.injEq] at e1
  subst e1
  exact ⟨path, A⟩

theorem add_pattern_nonpos (sm : string_matcher) (p : List Nat) (h : to_int p.length ≤ 0) :
    add_pattern sm p = some (add_output_state sm 0 (to_uint p.length)) := by
  have e : (to_int p.length).toNat = 0 := by omega
  simp only [add_pattern, e, List.take_zero, trie_walk, trie_extend]

theorem create_goto_function_cons (p : List Nat) (ps : List (List Nat)) :
    create_goto_function (p :: ps) =
      (add_pattern (grow_state (init_string_matcher 128)).1 p).bind
        (fun sm1 => add_patterns sm1 ps) := by
  simp only [create_goto_function, root_state, add_patterns]
  cases add_pattern (grow_state (init_string_matcher 128)).1 p with
  | none => rfl
  | some sm1 => rfl

theorem new_string_matcher_bind (ps : List (List Nat)) :
    new_string_matcher ps = (create_goto_function ps).bind create_failure_function := by
  simp only [new_string_matcher]
  cases create_goto_function ps with
  | none => rfl
  | some sm => rfl

theorem hits_at_length_le (pats : List (List Nat)) (t : List Nat) :
    (hits_at pats t).length ≤ pats.length := by
  unfold hits_at
  rw [List.length_map]
  exact List.length_filter_le _ _

theorem ideal_length_le (pats : List (List Nat)) :
    ∀ (cs t : List Nat), (ideal pats t cs).length ≤ cs.length * pats.length := by
  intro cs
  induction cs with
  | nil => intro t; simp [ideal]
  | cons c cs ih =>
    intro t
    simp only [ideal, List.length_append, List.length_cons]
    have h1 := hits_at_length_le pats (t ++ [c])
    have h2 := ih (t ++ [c])
    rw [Nat.add_mul, Nat.one_mul]
    omega

theorem ItemAutomaton.found {pats : List (List Nat)} {path : Nat → List Nat}
    {sm : string_matcher} (A : ItemAutomaton (pats.map item) path sm) (text : List Nat)
    (hcap : text.length * pats.length ≤ 2147483584) :
    ∃ hits : List match_entry, find_matched_string sm text = some hits ∧
      scan_string sm text = some hits ∧
      ∀ m : match_entry, m ∈ hits ↔
        ∃ (k : Nat) (it : List Nat × Nat), k < (scanned text).length ∧ it ∈ pats.map item ∧
          it.1 <:+ (scanned text).take (k + 1) ∧
          (it.1 = [] → ∀ c : Nat, (scanned text)[k]? = some c →
            ∀ jt : List Nat × Nat, jt ∈ pats.map item → ¬ [c] <+: jt.1) ∧
          m = ⟨(k : Int) - (it.2 : Int) + 1, it.2⟩ := by
  obtain ⟨hits, e1, hm, hl⟩ := A.hits text
  rw [List.length_map] at hl
  exact ⟨hits, find_of_scan sm text hits e1 (le_trans hl (le_trans (scanned_mul_le text _) hcap)),
    e1, hm⟩

theorem ItemAutomaton.found_iff {items : List (List Nat × Nat)} {path : Nat → List Nat}
    {sm : string_matcher} (A : ItemAutomaton items path sm) (text : List Nat)
    (hits : List match_entry) (e1 : find_matched_string sm text = some hits) :
    ∀ m : match_entry, m ∈ hits ↔
      ∃ (k : Nat) (it : List Nat × Nat), k < (scanned text).length ∧ it ∈ items ∧
        it.1 <:+ (scanned text).take (k + 1) ∧
        (it.1 = [] → ∀ c : Nat, (scanned text)[k]? = some c →
          ∀ jt : List Nat × Nat, jt ∈ items → ¬ [c] <+: jt.1) ∧
        m = ⟨(k : Int) - (it.2 : Int) + 1, it.2⟩ := by
  obtain ⟨hits1, e2, hm, _⟩ := A.hits text
  rw [scan_of_find sm text hits e1, Option.some.injEq] at e2
  subst e2
  exact hm

theorem Automaton.found_perm {pats : List (List Nat)} {path : Nat → List Nat}
    {sm : string_matcher} (A : Automaton pats path sm)
    (hne : ∀ p : List Nat, p ∈ pats → p ≠ []) (text : List Nat)
    (hits : List match_entry) (e1 : find_matched_string sm text = some hits) :
    hits.Perm (ideal pats [] (scanned text)) := by
  obtain ⟨hits1, e2, hp⟩ := scan_string_spec A hne text
  rw [scan_of_find sm text hits e1, Option.some.injEq] at e2
  subst e2
  exact hp

theorem automaton_hits {pats : List (List Nat)} {path : Nat → List Nat} {sm : string_matcher}
    (A : Automaton pats path sm) (hne : ∀ p : List Nat, p ∈ pats → p ≠ [])
    (text : List Nat) (hits : List match_entry)
    (e1 : find_matched_string sm text = some hits) :
    ∀ m : match_entry, m ∈ hits ↔
      ∃ (k : Nat) (p : List Nat), k < (scanned text).length ∧ p ∈ pats ∧
        p <:+ (scanned text).take (k + 1) ∧
        m = ⟨((k + 1 : Nat) : Int) - (p.length : Int), p.length⟩ := by
  intro m
  rw [(A.found_perm hne text hits e1).mem_iff, mem_ideal]
  simp

theorem built_spec (pats : List (List Nat))
    (hb : ∀ p : List Nat, p ∈ pats → p.length ≤ 2147483647) (sm : string_matcher)
    (e : new_string_matcher pats = some sm) :
    ∃ path : Nat → List Nat, Automaton pats path sm := by
  obtain ⟨sm1, path, e1, A⟩ := automaton_spec pats hb
  rw [new_string_matcher_sound pats sm e, Option.some.injEq] at e1
  subst e1
  exact ⟨path, A⟩

theorem build_ok (pats : List (List Nat)) (hst : (pats.map List.length).sum < 4294966400) :
    ∃ sm : string_matcher, new_string_matcher pats = some sm := by
  obtain ⟨sm, path, e, _⟩ := new_string_matcher_items pats hst
  exact ⟨sm, e⟩

theorem find_ok (pats : List (List Nat)) (sm : string_matcher)
    (e : new_string_matcher pats = some sm) (text : List Nat)
    (hcap : text.length * pats.length ≤ 2147483584) :
    ∃ hits : List match_entry, find_matched_string sm text = some hits := by
  obtain ⟨path, A⟩ := built_items pats sm e
  obtain ⟨hits, e1, _⟩ := A.found text hcap
  exact ⟨hits, e1⟩

theorem scan_ok (pats : List (List Nat)) (text : List Nat)
    (hst : (pats.map List.length).sum < 4294966400)
    (hcap : text.length * pats.length ≤ 2147483584) :
    ∃ (sm : string_matcher) (hits : List match_entry),
      new_string_matcher pats = some sm ∧ find_matched_string sm text = some hits := by
  obtain ⟨sm, e⟩ := build_ok pats hst
  obtain ⟨hits, e1⟩ := find_ok pats sm e text hcap
  exact ⟨sm, hits, e, e1⟩

theorem occurrence_suffix (text p : List Nat) (o : Nat)
    (hocc : (text.drop o).take p.length = p) : p <:+ text.take (o + p.length) := by
  rw [List.take_add, hocc]
  exact List.suffix_append _ _

theorem suffix_occurrence (text p : List Nat) (k : Nat) (hk : k < text.length)
    (hs : p <:+ text.take (k + 1)) :
    p.length ≤ k + 1 ∧ (text.drop (k + 1 - p.length)).take p.length = p := by
  obtain ⟨u, hu⟩ := hs
  have hl : u.length + p.length = k + 1 := by
    have := congrArg List.length hu
    rw [List.length_append, List.length_take] at this
    omega
  have ht : text = u ++ (p ++ text.drop (k + 1)) := by
    rw [← List.append_assoc, hu, List.take_append_drop]
  refine ⟨by omega, ?_⟩
  have hkl : k + 1 - p.length = u.length := by omega
  rw [hkl]
  conv_lhs => rw [ht]
  rw [List.drop_left, List.take_left]

theorem item_mem_of_le {pats : List (List Nat)} {p : List Nat} (hp : p ∈ pats)
    (hl : p.length ≤ 2147483647) : (p, p.length) ∈ pats.map item :=
  List.mem_map.2 ⟨p, hp, item_of_le hl⟩

theorem ideal_replicate (n : Nat) :
    ∀ t : List Nat, (ideal [[97]] t (List.replicate n 97)).length = n := by
  induction n with
  | zero => intro t; rfl
  | succ n ih =>
    intro t
    rw [List.replicate_succ]
    simp only [ideal, List.length_append, ih]
    have h : hits_at [[97]] (t ++ [97]) = [⟨((t ++ [97]).length : Int) - 1, 1⟩] := by
      unfold hits_at
      have hs : ([97] : List Nat) <:+ t ++ [97] := List.suffix_append _ _
      simp [List.filter, hs]
    rw [h]
    simp
    omega

/-- With the one pattern "a", the scan of 2147483585 letters "a" is to store
2147483585 hits and stops at the overflow of `sz`. -/
theorem overflow_scan (sm : string_matcher) (e : new_string_matcher [[97]] = some sm) :
    find_matched_string sm (List.replicate 2147483585 97) = none := by
  obtain ⟨sm0, path, e0, A⟩ := new_string_matcher_spec [[97]] (by decide) (by decide)
  rw [e, Option.some.injEq] at e0
  subst e0
  obtain ⟨hits, e1, hp⟩ := scan_string_spec A (by decide) (List.replicate 2147483585 97)
  apply find_none_of_scan sm _ hits e1
  have hl : (List.replicate 2147483585 97).length ≤ 2147483647 := by
    rw [List.length_replicate]; decide
  rw [hp.length_eq, scanned_of_le hl, ideal_replicate]
  decide

/-- When "a" is one of the patterns, the scan of `N` letters "a" is to store a
hit at each of its `N` positions: it stops at the overflow of `sz` when
`N > 2147483584`. -/
theorem many_hits {pats : List (List Nat)} {path : Nat → List Nat} {sm : string_matcher}
    (A : ItemAutomaton (pats.map item) path sm) (hmem : [97] ∈ pats) (N : Nat)
    (h1 : 2147483584 < N) (h2 : N ≤ 2147483647) :
    find_matched_string sm (List.replicate N 97) = none := by
  have hl : (List.replicate N 97).length ≤ 2147483647 := by
    rw [List.length_replicate]; exact h2
  obtain ⟨hits, e1, hm, _⟩ := A.hits (List.replicate N 97)
  rw [scanned_of_le hl] at hm
  apply find_none_of_scan sm _ hits e1
  have hsub : (List.range N).map (fun (k : Nat) => (⟨(k : Int), 1⟩ : match_entry)) ⊆ hits := by
    intro m hmm
    rw [List.mem_map] at hmm
    obtain ⟨k, hk, rfl⟩ := hmm
    rw [List.mem_range] at hk
    rw [hm]
    refine ⟨k, ([97], 1), by rw [List.length_replicate]; exact hk,
      item_mem_of_le hmem (by decide), ?_, ?_, ?_⟩
    · rw [List.take_replicate, min_eq_left (by omega), List.replicate_succ']
      exact List.suffix_append _ _
    · intro h; cases h
    · congr 1
      simp
  have hnd : ((List.range N).map (fun (k : Nat) => (⟨(k : Int), 1⟩ : match_entry))).Nodup := by
    apply (List.nodup_range N).map
    intro a b h
    injection h with h3 _
    exact_mod_cast h3
  have := (hnd.subperm hsub).length_le
  rw [List.length_map, List.length_range] at this
  omega

/-- With the patterns "" and "a" the automaton is built, and the scan of
2147483585 letters "a" returns no hit list. -/
theorem overflow_empty :
    ∃ sm : string_matcher, new_string_matcher [[], [97]] = some sm ∧
      find_matched_string sm (List.replicate 2147483585 97) = none := by
  obtain ⟨sm, path, e, A⟩ := new_string_matcher_items [[], [97]] (by decide)
  exact ⟨sm, e, many_hits A (by decide) _ (by decide) (by decide)⟩

/-- With the pattern of 2147483647 letters "a" and the pattern "a" the automaton
is built, and the scan of the first pattern returns no hit list. -/
theorem overflow_self :
    ∃ sm : string_matcher,
      new_string_matcher [List.replicate 2147483647 97, [97]] = some sm ∧
      find_matched_string sm (List.replicate 2147483647 97) = none := by
  obtain ⟨sm, path, e, A⟩ := new_string_matcher_items [List.replicate 2147483647 97, [97]]
    (by rw [List.map_cons, List.sum_cons, List.length_replicate]; decide)
  exact ⟨sm, e, many_hits A (List.mem_cons_of_mem _ (List.mem_singleton.2 rfl)) _
    (by decide) (by decide)⟩

/-- With the one pattern "a" the automaton is built, and the text loop over the
2147483585 letters "a" returns no state. -/
theorem overflow_run :
    ∃ sm : string_matcher, new_string_matcher [[97]] = some sm ∧
      find_matched_run sm (to_int (List.replicate 2147483585 97).length)
        ((List.replicate 2147483585 97).take (2147483584 + 1)) 0 0 64 [] = none := by
  obtain ⟨sm, path, e, A⟩ := new_string_matcher_items [[97]] (by decide)
  have h := many_hits A (by decide) 2147483585 (by decide) (by decide)
  unfold find_matched_string at h
  have e1 : (List.replicate 2147483585 97).take (2147483584 + 1) =
      List.replicate 2147483585 97 := by
    rw [List.take_replicate]
    rfl
  rw [e1]
  exact ⟨sm, e, Option.map_eq_none'.1 h⟩

/-- With the one pattern "a" the automaton is built, and the scan of 2147483585
letters "a" returns no hit list. -/
theorem overflow_example :
    ∃ sm : string_matcher, new_string_matcher [[97]] = some sm ∧
      find_matched_string sm (List.replicate 2147483585 97) = none := by
  obtain ⟨sm, path, e, _⟩ := new_string_matcher_core [[97]] (by decide)
  exact ⟨sm, e, overflow_scan sm e⟩

/-- C1 (no false negatives), for texts whose length fits `int`: for every list
of non-empty patterns, every text of at most 2147483647 characters, every
pattern `p` of the list and every offset `o` with `o + |p| <= |text|` and
`text[o .. o+|p|) = p`: (1) whenever `new_string_matcher` returns an automaton
and `find_matched_string` returns a hit list on it, the list contains the entry
with offset `o` and length `|p|`; (2) both return when the patterns have fewer
than 4294966400 characters in all (the states then fit the state arrays) and
`|text| * (number of patterns) <= 2147483584` (the hits then fit the result
array: a text position ends at most one hit per pattern).  Patterns and text
are the character lists of NUL-terminated strings, so NUL-free as strings. -/
theorem no_false_negatives (pats : List (List Nat)) (text p : List Nat) (o : Nat)
    (hne : ∀ q : List Nat, q ∈ pats → q ≠ []) (hp : p ∈ pats)
    (hlen : o + p.length ≤ text.length) (hocc : (text.drop o).take p.length = p)
    (hbt : text.length ≤ 2147483647) :
    (∀ (sm : string_matcher) (hits : List match_entry),
      new_string_matcher pats = some sm → find_matched_string sm text = some hits →
        (⟨(o : Int), p.length⟩ : match_entry) ∈ hits) ∧
    ((pats.map List.length).sum < 4294966400 → text.length * pats.length ≤ 2147483584 →
      ∃ (sm : string_matcher) (hits : List match_entry),
        new_string_matcher pats = some sm ∧ find_matched_string sm text = some hits) := by
  refine ⟨fun sm hits e e1 => ?_, scan_ok pats text⟩
  obtain ⟨path, A⟩ := built_items pats sm e
  have hm := A.found_iff text hits e1
  rw [scanned_of_le hbt] at hm
  refine (hm _).2 ?_
  have hpl : 0 < p.length := List.length_pos.2 (hne p hp)
  have e2 : o + p.length - 1 + 1 = o + p.length := by omega
  refine ⟨o + p.length - 1, (p, p.length), by omega, item_mem_of_le hp (by omega), ?_, ?_, ?_⟩
  · rw [e2]
    exact occurrence_suffix text p o hocc
  · intro h0
    exact absurd h0 (hne p hp)
  · congr 1
    simp only
    omega

/-- C1 fails as stated. (1) With the pattern "a" and the text of 2147483648
letters "a" the pattern occurs at offset 0, but `int len = strlen(text)` is
negative, the loop does not run and the hit list is empty. (2) Also with the
pattern "a", the hits of the pattern "a" in the text of 2147483585 letters "a"
do not fit the result array: `sz += 64` overflows `int` at `sz = 2147483584`
and no hit list is returned. (3) And the patterns of 2147483647 letters "a" and
of 2147483647 letters "b" need 4294967295 states: at `n = sz = 4294966400` the
sum `sz + 1024` wraps to 128, the new state is written outside the state arrays
and no automaton is returned. -/
theorem no_false_negatives_counterexample :
    ((∀ q : List Nat, q ∈ [[97]] → q ≠ []) ∧ [97] ∈ ([[97]] : List (List Nat)) ∧
    0 + ([97] : List Nat).length ≤ (List.replicate 2147483648 97).length ∧
    ((List.replicate 2147483648 97).drop 0).take ([97] : List Nat).length = [97] ∧
    ∃ sm : string_matcher, new_string_matcher [[97]] = some sm ∧
      find_matched_string sm (List.replicate 2147483648 97) = some []) ∧
    (∃ sm : string_matcher, new_string_matcher [[97]] = some sm ∧
      find_matched_string sm (List.replicate 2147483585 97) = none) ∧
    new_string_matcher [List.replicate 2147483647 97, List.replicate 2147483647 98] =
      none := by
  refine ⟨?_, overflow_example, automaton_overflow []⟩
  obtain ⟨sm, path, e, _⟩ := new_string_matcher_items [[97]] (by decide)
  refine ⟨by decide, by decide, ?_, rfl, sm, e, ?_⟩
  · rw [List.length_replicate]; decide
  · apply scan_nothing
    rw [List.length_replicate]; decide

/-- C2 (no false positives), for patterns whose lengths fit `int`: for every
list of non-empty patterns of at most 2147483647 characters and every text
(character lists of NUL-terminated strings): (1) whenever `new_string_matcher`
returns an automaton and `find_matched_string` returns a hit list on it, every
entry of the list has a non-negative offset, lies inside the text
(`boff + blen <= |text|`) and the substring `text[boff .. boff+blen)` is a
pattern of the list; (2) both return when the patterns have fewer than
4294966400 characters in all (the states then fit the state arrays) and
`|text| * (number of patterns) <= 2147483584` (the hits then fit the result
array). -/
theorem no_false_positives (pats : List (List Nat)) (text : List Nat)
    (hne : ∀ q : List Nat, q ∈ pats → q ≠ [])
    (hbp : ∀ q : List Nat, q ∈ pats → q.length ≤ 2147483647) :
    (∀ (sm : string_matcher) (hits : List match_entry),
      new_string_matcher pats = some sm → find_matched_string sm text = some hits →
        ∀ m : match_entry, m ∈ hits →
          0 ≤ m.boff ∧ m.boff + (m.blen : Int) ≤ (text.length : Int) ∧
          (text.drop m.boff.toNat).take m.blen ∈ pats) ∧
    ((pats.map List.length).sum < 4294966400 → text.length * pats.length ≤ 2147483584 →
      ∃ (sm : string_matcher) (hits : List match_entry),
        new_string_matcher pats = some sm ∧ find_matched_string sm text = some hits) := by
  refine ⟨fun sm hits e e1 => ?_, scan_ok pats text⟩
  obtain ⟨path, A⟩ := built_spec pats hbp sm e
  have hm := automaton_hits A hne text hits e1
  intro m hmem
  obtain ⟨k, p, hk, hp, hs, rfl⟩ := (hm m).1 hmem
  obtain ⟨h1, h2⟩ := suffix_occurrence (scanned text) p k hk hs
  have hle : (scanned text).length ≤ text.length := (scanned_pre text).length_le
  have hb : (((k + 1 : Nat) : Int) - (p.length : Int)).toNat = k + 1 - p.length := by omega
  refine ⟨by simp only; omega, by simp only; omega, ?_⟩
  simp only [hb]
  rw [prefix_drop_take (scanned_pre text) _ _ (by omega), h2]
  exact hp

theorem giant_length : (List.replicate 2147483648 97).length = 2147483648 :=
  List.length_replicate _ _

theorem giant_ne_nil : List.replicate 2147483648 97 ≠ [] := by
  intro h
  have := congrArg List.length h
  rw [giant_length] at this
  exact absurd this (by decide)

theorem giant_first (ps : List (List Nat)) :
    create_goto_function (List.replicate 2147483648 97 :: ps) =
      add_patterns (add_output_state (grow_state (init_string_matcher 128)).1 0 2147483648)
        ps := by
  have h1 : to_int (List.replicate 2147483648 97).length ≤ 0 := by
    rw [giant_length]; decide
  have h2 : to_uint (List.replicate 2147483648 97).length = 2147483648 := by
    rw [giant_length]; decide
  rw [create_goto_function_cons, add_pattern_nonpos _ _ h1, h2, Option.some_bind]

theorem giant_build (ps : List (List Nat)) :
    new_string_matcher (List.replicate 2147483648 97 :: ps) =
      (add_patterns (add_output_state (grow_state (init_string_matcher 128)).1 0 2147483648)
        ps).bind create_failure_function := by
  rw [new_string_matcher_bind, giant_first]

theorem giant_sum (ps : List (List Nat)) (h : (ps.map List.length).sum < 2147482752) :
    ((List.replicate 2147483648 97 :: ps).map List.length).sum < 4294966400 := by
  rw [List.map_cons, List.sum_cons, giant_length]
  omega

theorem giant_matcher :
    new_string_matcher [List.replicate 2147483648 97] =
      some (add_output_state (grow_state (init_string_matcher 128)).1 0 2147483648) := by
  rw [giant_build]
  rfl

/-- C2 fails as stated. (1) For the one pattern of 2147483648 letters "a", `int
lp = strlen(pattern)` is negative, no state is inserted and the length
2147483648 is stored on the root; the scan of the text "b" then stores one hit
of length 2147483648, whose offset `0 - 2147483648 + 1` is kept as the
`unsigned int` 2147483649: it does not lie inside the text and is no occurrence
of the pattern. (2) Moreover the hits of the pattern "a" in the text of
2147483585 letters "a" do not fit the result array: `sz += 64` overflows `int`
at `sz = 2147483584` and no hit list is returned. (3) And the patterns of
2147483647 letters "a" and of 2147483647 letters "b" need 4294967295 states: at
`n = sz = 4294966400` the sum `sz + 1024` wraps to 128, the new state is
written outside the state arrays and no automaton is returned. -/
theorem no_false_positives_counterexample :
    ((∀ q : List Nat, q ∈ [List.replicate 2147483648 97] → q ≠ []) ∧
    ∃ sm : string_matcher, new_string_matcher [List.replicate 2147483648 97] = some sm ∧
      ∃ hits : List match_entry, find_matched_string sm [98] = some hits ∧
        ∃ m : match_entry, m ∈ hits ∧ m.blen = 2147483648 ∧ u32 m.boff = 2147483649 ∧
          ¬ ((m.blen : Int) ≤ (([98] : List Nat).length : Int)) ∧
          (([98] : List Nat).drop m.boff.toNat).take m.blen ∉ [List.replicate 2147483648 97]) ∧
    (∃ sm : string_matcher, new_string_matcher [[97]] = some sm ∧
      find_matched_string sm (List.replicate 2147483585 97) = none) ∧
    new_string_matcher [List.replicate 2147483647 97, List.replicate 2147483647 98] =
      none := by
  refine ⟨?_, overflow_example, automaton_overflow []⟩
  refine ⟨?_, _, giant_matcher, [⟨-2147483647, 2147483648⟩], by decide, ⟨-2147483647, 2147483648⟩,
    by simp, rfl, by decide, by decide, ?_⟩
  · intro q hq
    rw [List.mem_singleton] at hq
    rw [hq]; exact giant_ne_nil
  · intro h
    rw [List.mem_singleton] at h
    have := congrArg List.length h
    rw [giant_length] at this
    exact absurd this (by decide)

/-- C5 (overlap completeness), for texts whose length fits `int`: for every
list of non-empty patterns containing `a` and `b` with `a` a suffix of `b`, and
every text of at most 2147483647 characters in which `b` occurs ending at
position `e`: (1) whenever `new_string_matcher` returns an automaton and
`find_matched_string` returns a hit list on it, the list contains both
`(e - |b| + 1, |b|)` and `(e - |a| + 1, |a|)`; (2) both return when the
patterns have fewer than 4294966400 characters in all (the states then fit the
state arrays) and `|text| * (number of patterns) <= 2147483584` (the hits then
fit the result array). -/
theorem overlap_completeness (pats : List (List Nat)) (text a b : List Nat) (e : Nat)
    (hne : ∀ q : List Nat, q ∈ pats → q ≠ []) (ha : a ∈ pats) (hb : b ∈ pats)
    (hab : a <:+ b) (he : e < text.length) (hbl : b.length ≤ e + 1)
    (hocc : (text.drop (e + 1 - b.length)).take b.length = b)
    (hbt : text.length ≤ 2147483647) :
    (∀ (sm : string_matcher) (hits : List match_entry),
      new_string_matcher pats = some sm → find_matched_string sm text = some hits →
        (⟨(e : Int) - (b.length : Int) + 1, b.length⟩ : match_entry) ∈ hits ∧
        (⟨(e : Int) - (a.length : Int) + 1, a.length⟩ : match_entry) ∈ hits) ∧
    ((pats.map List.length).sum < 4294966400 → text.length * pats.length ≤ 2147483584 →
      ∃ (sm : string_matcher) (hits : List match_entry),
        new_string_matcher pats = some sm ∧ find_matched_string sm text = some hits) := by
  refine ⟨fun sm hits e0 e1 => ?_, scan_ok pats text⟩
  obtain ⟨path, A⟩ := built_items pats sm e0
  have hm := A.found_iff text hits e1
  rw [scanned_of_le hbt] at hm
  have hsb : b <:+ text.take (e + 1) := by
    have := occurrence_suffix text b (e + 1 - b.length) hocc
    have h2 : e + 1 - b.length + b.length = e + 1 := by omega
    rw [h2] at this
    exact this
  have hal : a.length ≤ b.length := hab.length_le
  exact ⟨(hm _).2 ⟨e, (b, b.length), he, item_mem_of_le hb (by omega), hsb,
      fun h0 => absurd h0 (hne b hb), rfl⟩,
    (hm _).2 ⟨e, (a, a.length), he, item_mem_of_le ha (by omega), hab.trans hsb,
      fun h0 => absurd h0 (hne a ha), rfl⟩⟩

/-- C5 fails as stated. (1) With the patterns "he" and "she" and the text "she"
followed by 2147483645 letters "a" (2147483648 characters), "she" occurs ending
at position 2, but `int len = strlen(text)` is negative, the loop does not run
and the hit list is empty. (2) Moreover (with "a" for both patterns) the hits
of the pattern "a" in the text of 2147483585 letters "a" do not fit the result
array: `sz += 64` overflows `int` at `sz = 2147483584` and no hit list is
returned. (3) And the patterns of 2147483647 letters "a" and of 2147483647
letters "b" need 4294967295 states: at `n = sz = 4294966400` the sum `sz +
1024` wraps to 128, the new state is written outside the state arrays and no
automaton is returned. -/
theorem overlap_completeness_counterexample :
    ((∀ q : List Nat, q ∈ [[104, 101], [115, 104, 101]] → q ≠ []) ∧
    [104, 101] ∈ [[104, 101], [115, 104, 101]] ∧
    [115, 104, 101] ∈ [[104, 101], [115, 104, 101]] ∧
    ([104, 101] : List Nat) <:+ [115, 104, 101] ∧
    2 < ([115, 104, 101] ++ List.replicate 2147483645 97).length ∧
    ([115, 104, 101] : List Nat).length ≤ 2 + 1 ∧
    (([115, 104, 101] ++ List.replicate 2147483645 97).drop
      (2 + 1 - ([115, 104, 101] : List Nat).length)).take ([115, 104, 101] : List Nat).length =
      [115, 104, 101] ∧
    ∃ sm : string_matcher, new_string_matcher [[104, 101], [115, 104, 101]] = some sm ∧
      find_matched_string sm ([115, 104, 101] ++ List.replicate 2147483645 97) = some []) ∧
    (∃ sm : string_matcher, new_string_matcher [[97]] = some sm ∧
      find_matched_string sm (List.replicate 2147483585 97) = none) ∧
    new_string_matcher [List.replicate 2147483647 97, List.replicate 2147483647 98] =
      none := by
  refine ⟨?_, overflow_example, automaton_overflow []⟩
  obtain ⟨sm, path, e, _⟩ := new_string_matcher_items [[104, 101], [115, 104, 101]] (by decide)
  have hl : ([115, 104, 101] ++ List.replicate 2147483645 97).length = 2147483648 := by
    rw [List.length_append, List.length_replicate]; rfl
  refine ⟨by decide, by decide, by decide, by decide, ?_, by decide, rfl, sm, e, ?_⟩
  · rw [hl]; decide
  · apply scan_nothing
    rw [hl]; decide

/-- C6 (self-match), for a pattern whose length fits `int`: for every list of
non-empty patterns and every pattern `p` in it of at most 2147483647
characters: (1) whenever `new_string_matcher` returns an automaton and
`find_matched_string` returns a hit list for the text `p` itself, the list
contains the entry with offset 0 and length `|p|`; (2) both return when the
patterns have fewer than 4294966400 characters in all (the states then fit the
state arrays) and `|p| * (number of patterns) <= 2147483584` (the hits then fit
the result array). -/
theorem self_match (pats : List (List Nat)) (p : List Nat)
    (hne : ∀ q : List Nat, q ∈ pats → q ≠ []) (hp : p ∈ pats)
    (hbl : p.length ≤ 2147483647) :
    (∀ (sm : string_matcher) (hits : List match_entry),
      new_string_matcher pats = some sm → find_matched_string sm p = some hits →
        (⟨0, p.length⟩ : match_entry) ∈ hits) ∧
    ((pats.map List.length).sum < 4294966400 → p.length * pats.length ≤ 2147483584 →
      ∃ (sm : string_matcher) (hits : List match_entry),
        new_string_matcher pats = some sm ∧ find_matched_string sm p = some hits) := by
  refine ⟨fun sm hits e e1 => ?_, scan_ok pats p⟩
  obtain ⟨path, A⟩ := built_items pats sm e
  have hm := A.found_iff p hits e1
  rw [scanned_of_le hbl] at hm
  refine (hm _).2 ?_
  have hpl : 0 < p.length := List.length_pos.2 (hne p hp)
  have e2 : p.length - 1 + 1 = p.length := by omega
  refine ⟨p.length - 1, (p, p.length), by omega, item_mem_of_le hp hbl, ?_, ?_, ?_⟩
  · rw [e2, List.take_length]
  · intro h0
    exact absurd h0 (hne p hp)
  · congr 1
    simp only
    omega

/-- C6 fails as stated. (1) For the one pattern of 2147483648 letters "a" the
automaton is built, but scanning that pattern as the text returns no hit. (2)
With the pattern of 2147483647 letters "a" and the pattern "a", the hits of the
scan of the first pattern do not fit the result array: `sz += 64` overflows
`int` at `sz = 2147483584` and no hit list is returned. (3) And the patterns of
2147483647 letters "a" and of 2147483647 letters "b" need 4294967295 states: at
`n = sz = 4294966400` the sum `sz + 1024` wraps to 128, the new state is
written outside the state arrays and no automaton is returned. -/
theorem self_match_counterexample :
    ((∀ q : List Nat, q ∈ [List.replicate 2147483648 97] → q ≠ []) ∧
    List.replicate 2147483648 97 ∈ [List.replicate 2147483648 97] ∧
    ∃ sm : string_matcher, new_string_matcher [List.replicate 2147483648 97] = some sm ∧
      find_matched_string sm (List.replicate 2147483648 97) = some []) ∧
    (∃ sm : string_matcher,
      new_string_matcher [List.replicate 2147483647 97, [97]] = some sm ∧
      find_matched_string sm (List.replicate 2147483647 97) = none) ∧
    new_string_matcher [List.replicate 2147483647 97, List.replicate 2147483647 98] =
      none := by
  refine ⟨?_, overflow_self, automaton_overflow []⟩
  refine ⟨?_, List.mem_singleton.2 rfl, _, giant_matcher, ?_⟩
  · intro q hq
    rw [List.mem_singleton] at hq
    rw [hq]; exact giant_ne_nil
  · apply scan_nothing
    rw [giant_length]; decide

/-- C7 (insertion-order independence): for every list of non-empty patterns,
every permutation of it and every text: (1) whenever `new_string_matcher`
returns an automaton for the list and for the permutation and
`find_matched_string` returns a hit list on each, the two hit lists have the
same set of (offset, length) entries; (2) all four return when the patterns
have fewer than 4294966400 characters in all (the states then fit the state
arrays) and `|text| * (number of patterns) <= 2147483584` (the hits then fit
the result array). -/
theorem insertion_order_independent (pats pats2 : List (List Nat)) (text : List Nat)
    (hne : ∀ q : List Nat, q ∈ pats → q ≠ []) (hperm : pats.Perm pats2) :
    (∀ (sm sm2 : string_matcher) (hits hits2 : List match_entry),
      new_string_matcher pats = some sm → new_string_matcher pats2 = some sm2 →
      find_matched_string sm text = some hits → find_matched_string sm2 text = some hits2 →
      ∀ m : match_entry, m ∈ hits ↔ m ∈ hits2) ∧
    ((pats.map List.length).sum < 4294966400 → text.length * pats.length ≤ 2147483584 →
      ∃ (sm sm2 : string_matcher) (hits hits2 : List match_entry),
        new_string_matcher pats = some sm ∧ new_string_matcher pats2 = some sm2 ∧
        find_matched_string sm text = some hits ∧
        find_matched_string sm2 text = some hits2) := by
  have _ := hne
  refine ⟨fun sm sm2 hits hits2 e e2 e1 e3 => ?_, fun hst hcap => ?_⟩
  · obtain ⟨path, A⟩ := built_items pats sm e
    obtain ⟨path2, A2⟩ := built_items pats2 sm2 e2
    intro m
    rw [A.found_iff text hits e1 m, A2.found_iff text hits2 e3 m]
    simp only [(hperm.map item).mem_iff]
  · obtain ⟨sm, hits, e, e1⟩ := scan_ok pats text hst hcap
    obtain ⟨sm2, hits2, e2, e3⟩ := scan_ok pats2 text
      (by rw [← (hperm.map List.length).sum_eq]; exact hst)
      (by rw [← hperm.length_eq]; exact hcap)
    exact ⟨sm, sm2, hits, hits2, e, e2, e1, e3⟩

/-- C7 fails as stated. (1) With the one pattern "a" (and the same list as its
permutation) and the text of 2147483585 letters "a", every text position ends a
hit; when the hit with index 2147483584 is to be stored the result array is
full at `sz = 2147483584` and `sz += 64` overflows `int`, so the scan does not
return a hit list. (2) And the patterns of 2147483647 letters "a" and of
2147483647 letters "b" need 4294967295 states: at `n = sz = 4294966400` the sum
`sz + 1024` wraps to 128, the new state is written outside the state arrays and
no automaton is returned. -/
theorem insertion_order_independent_counterexample :
    ((∀ q : List Nat, q ∈ [[97]] → q ≠ []) ∧ ([[97]] : List (List Nat)).Perm [[97]] ∧
    ¬ ∃ (sm sm2 : string_matcher) (hits hits2 : List match_entry),
      new_string_matcher [[97]] = some sm ∧ new_string_matcher [[97]] = some sm2 ∧
      find_matched_string sm (List.replicate 2147483585 97) = some hits ∧
      find_matched_string sm2 (List.replicate 2147483585 97) = some hits2 ∧
      ∀ m : match_entry, m ∈ hits ↔ m ∈ hits2) ∧
    new_string_matcher [List.replicate 2147483647 97, List.replicate 2147483647 98] =
      none := by
  refine ⟨?_, automaton_overflow []⟩
  refine ⟨by decide, List.Perm.refl _, ?_⟩
  rintro ⟨sm, sm2, hits, hits2, e, _, e1, _, _⟩
  rw [overflow_scan sm e] at e1
  cases e1

/-- C8 (empty dictionary): `new_string_matcher` on no pattern yields an
automaton with exactly one state, the root 0, whose output list is empty, and
on every text `find_matched_string` returns no hit. -/
theorem empty_dictionary :
    ∃ sm : string_matcher, new_string_matcher [] = some sm ∧ sm.n = 1 ∧
      output_state sm 0 = [] ∧
      ∀ text : List Nat, find_matched_string sm text = some [] := by
  refine ⟨(grow_state (init_string_matcher 128)).1, rfl, rfl, rfl, ?_⟩
  have hg : ∀ c : Nat, goto_state (grow_state (init_string_matcher 128)).1 0 c = some 0 := by
    intro c
    simp [goto_state, grow_state, init_string_matcher, upd]
  have hloop : ∀ (len : Int) (text : List Nat) (i : Nat),
      find_matched_run (grow_state (init_string_matcher 128)).1 len text i 0 64 [] =
        some (0, 64, []) := by
    intro len text
    induction text with
    | nil => intro i; rfl
    | cons c cs ih =>
      intro i
      have hs : scan_fail (grow_state (init_string_matcher 128)).1 c
          (grow_state (init_string_matcher 128)).1.n 0 = some 0 := by
        have hn : (grow_state (init_string_matcher 128)).1.n = 1 := rfl
        rw [hn]
        simp [scan_fail, hg]
      have he : emit (grow_state (init_string_matcher 128)).1 i 0 = [] := by
        simp [emit, output_state, grow_state, init_string_matcher, upd]
      simp only [find_matched_run, hs, hg, Option.getD_some, he, store_hits]
      split_ifs
      · exact ih (i + 1)
      · rfl
  intro text
  unfold find_matched_string
  rw [hloop _ text 0]
  rfl

/-- C9 (offsets never underflow), for patterns whose lengths fit `int`: for
every list of non-empty patterns of at most 2147483647 characters: (1)
whenever `new_string_matcher` returns an automaton, every state is reached from
the root by a word, and every length `l` in its output list satisfies
`1 <= l <= depth` for the length of any word reaching it; (2) whenever
`find_matched_string` returns a hit list on it for a text, every hit was stored
at a text index `i < 2147483648` with `blen <= i + 1`, has `blen >= 1` and the
exact offset `i - blen + 1 >= 0`; the two `unsigned int` operations `i - blen`
and `+ 1` yield that exact offset, the difference `i - blen` being exact when
`blen <= i` and wrapping to 4294967295 when `blen = i + 1`; (3) the automaton
is returned when the patterns have fewer than 4294966400 characters in all (the
states then fit the state arrays), and the hit list for every text with
`|text| * (number of patterns) <= 2147483584` (the hits then fit the result
array). -/
theorem offsets_never_underflow (pats : List (List Nat))
    (hne : ∀ q : List Nat, q ∈ pats → q ≠ [])
    (hbp : ∀ q : List Nat, q ∈ pats → q.length ≤ 2147483647) :
    (∀ sm : string_matcher, new_string_matcher pats = some sm →
      (∀ s : Nat, s < sm.n →
        (∃ w : List Nat, walk sm 0 w = some s) ∧
        ∀ w : List Nat, walk sm 0 w = some s →
          ∀ l : Nat, l ∈ output_state sm s → 1 ≤ l ∧ l ≤ w.length) ∧
      ∀ (text : List Nat) (hits : List match_entry),
        find_matched_string sm text = some hits →
        ∀ m : match_entry, m ∈ hits →
          1 ≤ m.blen ∧ 0 ≤ m.boff ∧
          ∃ i : Nat, i < text.length ∧ i < 2147483648 ∧ m.blen ≤ i + 1 ∧
            m.boff = (i : Int) - (m.blen : Int) + 1 ∧
            u32 (u32 ((i : Int) - (m.blen : Int)) + 1) = m.boff ∧
            (m.blen ≤ i → u32 ((i : Int) - (m.blen : Int)) = (i : Int) - (m.blen : Int)) ∧
            (m.blen = i + 1 → u32 ((i : Int) - (m.blen : Int)) = 4294967295)) ∧
    ((pats.map List.length).sum < 4294966400 →
      ∃ sm : string_matcher, new_string_matcher pats = some sm ∧
        ∀ text : List Nat, text.length * pats.length ≤ 2147483584 →
          ∃ hits : List match_entry, find_matched_string sm text = some hits) := by
  refine ⟨fun sm e => ?_, fun hst => ?_⟩
  · obtain ⟨path, A⟩ := built_spec pats hbp sm e
    refine ⟨?_, ?_⟩
    · intro s hs
      have hw := walk_iff A.shape
      refine ⟨⟨path s, (hw (path s) 0 s A.shape.n_pos).2 ⟨hs, by rw [A.shape.root]; rfl⟩⟩, ?_⟩
      intro w hwalk l hl
      obtain ⟨_, hps⟩ := (hw w 0 s A.shape.n_pos).1 hwalk
      rw [A.shape.root, List.nil_append] at hps
      have hl2 := (A.out_perm hne _ s hs (le_refl _)).mem_iff.1 hl
      unfold suffix_lengths at hl2
      rw [List.mem_map] at hl2
      obtain ⟨p, hp, rfl⟩ := hl2
      rw [List.mem_filter] at hp
      have hsuf : p <:+ path s := by simpa using hp.2
      have := hsuf.length_le
      have := List.length_pos.2 (hne p hp.1)
      rw [← hps]
      omega
    · intro text hits e1 m hmem
      have hm := automaton_hits A hne text hits e1
      obtain ⟨k, p, hk, hp, hs, rfl⟩ := (hm m).1 hmem
      obtain ⟨h1, _⟩ := suffix_occurrence (scanned text) p k hk hs
      have hpl : 0 < p.length := List.length_pos.2 (hne p hp)
      have hle : (scanned text).length ≤ text.length := (scanned_pre text).length_le
      have hle2 := scanned_length_le text
      refine ⟨hpl, by simp only; omega, k, by omega, by omega, h1,
        by simp only; push_cast; ring, ?_, ?_, ?_⟩
      · simp only [u32]
        omega
      · intro h
        simp only [u32] at h ⊢
        omega
      · intro h
        simp only [u32] at h ⊢
        omega
  · obtain ⟨sm, e⟩ := build_ok pats hst
    exact ⟨sm, e, fun text hcap => find_ok pats sm e text hcap⟩

/-- C9 fails as stated. (1) For the one pattern of 2147483648 letters "a", `int
lp = strlen(pattern)` is negative, so the length 2147483648 is stored on the
root, whose depth is 0; the scan of the text "b" then stores at index 0 a hit
of length 2147483648, and the `unsigned int` offset is the wrapped value
2147483649. (2) With the pattern "a" and the text "a" the hit stored at index 0
has length 1 and the `unsigned int` difference `i - blen` wraps to 4294967295
before the `+ 1`. (3) Moreover the hits of the pattern "a" in the text of
2147483585 letters "a" do not fit the result array: `sz += 64` overflows `int`
at `sz = 2147483584` and no hit list is returned. (4) And the patterns of
2147483647 letters "a" and of 2147483647 letters "b" need 4294967295 states: at
`n = sz = 4294966400` the sum `sz + 1024` wraps to 128, the new state is
written outside the state arrays and no automaton is returned. -/
theorem offsets_never_underflow_counterexample :
    ((∀ q : List Nat, q ∈ [List.replicate 2147483648 97] → q ≠ []) ∧
    (∃ sm : string_matcher, new_string_matcher [List.replicate 2147483648 97] = some sm ∧
      walk sm 0 [] = some 0 ∧ 2147483648 ∈ output_state sm 0 ∧
      ¬ (2147483648 ≤ ([] : List Nat).length) ∧
      find_matched_string sm [98] = some [⟨-2147483647, 2147483648⟩] ∧
      ¬ (2147483648 ≤ 0 + 1) ∧ u32 ((0 : Int) - 2147483648 + 1) = 2147483649) ∧
    (∀ q : List Nat, q ∈ [[97]] → q ≠ []) ∧
    ∃ sm : string_matcher, new_string_matcher [[97]] = some sm ∧
      find_matched_string sm [97] = some [⟨0, 1⟩] ∧ u32 ((0 : Int) - 1) = 4294967295) ∧
    (∃ sm : string_matcher, new_string_matcher [[97]] = some sm ∧
      find_matched_string sm (List.replicate 2147483585 97) = none) ∧
    new_string_matcher [List.replicate 2147483647 97, List.replicate 2147483647 98] =
      none := by
  refine ⟨?_, overflow_example, automaton_overflow []⟩
  refine ⟨?_, ⟨_, giant_matcher, by decide, by decide, by decide, by decide, by decide,
    by decide⟩, by decide, ?_⟩
  · intro q hq
    rw [List.mem_singleton] at hq
    rw [hq]; exact giant_ne_nil
  · have h : (new_string_matcher [[97]]).bind (fun sm => find_matched_string sm [97]) =
        some [⟨0, 1⟩] := by
      set_option maxRecDepth 100000 in decide
    obtain ⟨sm, h1, h2⟩ := Option.bind_eq_some.1 h
    exact ⟨sm, h1, h2, by decide⟩

/-- C3 (scenario 1): the automaton of "bb", "abc", "bcb", "aabc", "bca", "aa" is
built, the scan of "aabcbaa" succeeds and returns exactly 5 hits, which as a
set are (0,2), (1,3), (0,4), (2,3), (5,2). -/
theorem scenario_one :
    ∃ sm : string_matcher,
      new_string_matcher [[98, 98], [97, 98, 99], [98, 99, 98], [97, 97, 98, 99], [98, 99, 97],
        [97, 97]] = some sm ∧
      ∃ hits : List match_entry,
        find_matched_string sm [97, 97, 98, 99, 98, 97, 97] = some hits ∧ hits.length = 5 ∧
        ∀ m : match_entry, m ∈ hits ↔
          m ∈ ([⟨0, 2⟩, ⟨1, 3⟩, ⟨0, 4⟩, ⟨2, 3⟩, ⟨5, 2⟩] : List match_entry) := by
  have h : (new_string_matcher [[98, 98], [97, 98, 99], [98, 99, 98], [97, 97, 98, 99],
      [98, 99, 97], [97, 97]]).bind
      (fun sm => find_matched_string sm [97, 97, 98, 99, 98, 97, 97]) =
      some [⟨0, 2⟩, ⟨1, 3⟩, ⟨0, 4⟩, ⟨2, 3⟩, ⟨5, 2⟩] := by
    set_option maxRecDepth 100000 in decide
  obtain ⟨sm, h1, h2⟩ := Option.bind_eq_some.1 h
  exact ⟨sm, h1, _, h2, rfl, fun m => Iff.rfl⟩

/-- C4 (scenario 2): the automaton of "he", "she", "his", "hers" is built, the
scan of "ushers" succeeds and returns exactly 3 hits, which as a set are
(1,3), (2,2), (2,4). -/
theorem scenario_two :
    ∃ sm : string_matcher,
      new_string_matcher [[104, 101], [115, 104, 101], [104, 105, 115], [104, 101, 114, 115]] =
        some sm ∧
      ∃ hits : List match_entry,
        find_matched_string sm [117, 115, 104, 101, 114, 115] = some hits ∧ hits.length = 3 ∧
        ∀ m : match_entry, m ∈ hits ↔
          m ∈ ([⟨1, 3⟩, ⟨2, 2⟩, ⟨2, 4⟩] : List match_entry) := by
  have h : (new_string_matcher [[104, 101], [115, 104, 101], [104, 105, 115],
      [104, 101, 114, 115]]).bind
      (fun sm => find_matched_string sm [117, 115, 104, 101, 114, 115]) =
      some [⟨2, 2⟩, ⟨1, 3⟩, ⟨2, 4⟩] := by
    set_option maxRecDepth 100000 in decide
  obtain ⟨sm, h1, h2⟩ := Option.bind_eq_some.1 h
  exact ⟨sm, h1, _, h2, rfl, fun m => (List.Perm.swap _ _ _).mem_iff⟩

/-- Instance of C1: the pattern "b" of the dictionary "ab", "b" occurs at offset 2 of "cab". -/
theorem no_false_negatives_witness :
    (∀ q : List Nat, q ∈ [[97, 98], [98]] → q ≠ []) ∧ [98] ∈ [[97, 98], [98]] ∧
    2 + ([98] : List Nat).length ≤ ([99, 97, 98] : List Nat).length ∧
    (([99, 97, 98] : List Nat).drop 2).take ([98] : List Nat).length = [98] ∧
    ([99, 97, 98] : List Nat).length ≤ 2147483647 ∧
    (([[97, 98], [98]] : List (List Nat)).map List.length).sum < 4294966400 ∧
    ([99, 97, 98] : List Nat).length * ([[97, 98], [98]] : List (List Nat)).length ≤
      2147483584 ∧
    ∃ (sm : string_matcher) (hits : List match_entry),
      new_string_matcher [[97, 98], [98]] = some sm ∧
      find_matched_string sm [99, 97, 98] = some hits ∧
      (⟨((2 : Nat) : Int), ([98] : List Nat).length⟩ : match_entry) ∈ hits := by
  have t := no_false_negatives [[97, 98], [98]] [99, 97, 98] [98] 2 (by decide) (by decide)
    (by decide) (by decide) (by decide)
  obtain ⟨sm, hits, e, e1⟩ := t.2 (by decide) (by decide)
  exact ⟨by decide, by decide, by decide, by decide, by decide, by decide, by decide,
    sm, hits, e, e1, t.1 sm hits e e1⟩

/-- Instance of C2: the dictionary "ab", "b" and the text "cab". -/
theorem no_false_positives_witness :
    (∀ q : List Nat, q ∈ [[97, 98], [98]] → q ≠ []) ∧
    (∀ q : List Nat, q ∈ [[97, 98], [98]] → q.length ≤ 2147483647) ∧
    (([[97, 98], [98]] : List (List Nat)).map List.length).sum < 4294966400 ∧
    ([99, 97, 98] : List Nat).length * ([[97, 98], [98]] : List (List Nat)).length ≤
      2147483584 ∧
    ∃ (sm : string_matcher) (hits : List match_entry),
      new_string_matcher [[97, 98], [98]] = some sm ∧
      find_matched_string sm [99, 97, 98] = some hits ∧
      ∀ m : match_entry, m ∈ hits →
        0 ≤ m.boff ∧ m.boff + (m.blen : Int) ≤ (([99, 97, 98] : List Nat).length : Int) ∧
        (([99, 97, 98] : List Nat).drop m.boff.toNat).take m.blen ∈ [[97, 98], [98]] := by
  have t := no_false_positives [[97, 98], [98]] [99, 97, 98] (by decide) (by decide)
  obtain ⟨sm, hits, e, e1⟩ := t.2 (by decide) (by decide)
  exact ⟨by decide, by decide, by decide, by decide, sm, hits, e, e1, t.1 sm hits e e1⟩

/-- Instance of C5: "he" is a suffix of "she", which ends at position 3 of "ushers". -/
theorem overlap_completeness_witness :
    (∀ q : List Nat, q ∈ [[104, 101], [115, 104, 101]] → q ≠ []) ∧
    [104, 101] ∈ [[104, 101], [115, 104, 101]] ∧
    [115, 104, 101] ∈ [[104, 101], [115, 104, 101]] ∧
    ([104, 101] : List Nat) <:+ [115, 104, 101] ∧
    3 < ([117, 115, 104, 101, 114, 115] : List Nat).length ∧
    ([115, 104, 101] : List Nat).length ≤ 3 + 1 ∧
    (([117, 115, 104, 101, 114, 115] : List Nat).drop
      (3 + 1 - ([115, 104, 101] : List Nat).length)).take ([115, 104, 101] : List Nat).length =
      [115, 104, 101] ∧
    ([117, 115, 104, 101, 114, 115] : List Nat).length ≤ 2147483647 ∧
    (([[104, 101], [115, 104, 101]] : List (List Nat)).map List.length).sum < 4294966400 ∧
    ([117, 115, 104, 101, 114, 115] : List Nat).length *
      ([[104, 101], [115, 104, 101]] : List (List Nat)).length ≤ 2147483584 ∧
    ∃ (sm : string_matcher) (hits : List match_entry),
      new_string_matcher [[104, 101], [115, 104, 101]] = some sm ∧
      find_matched_string sm [117, 115, 104, 101, 114, 115] = some hits ∧
      (⟨((3 : Nat) : Int) - (([115, 104, 101] : List Nat).length : Int) + 1,
        ([115, 104, 101] : List Nat).length⟩ : match_entry) ∈ hits ∧
      (⟨((3 : Nat) : Int) - (([104, 101] : List Nat).length : Int) + 1,
        ([104, 101] : List Nat).length⟩ : match_entry) ∈ hits := by
  have t := overlap_completeness [[104, 101], [115, 104, 101]] [117, 115, 104, 101, 114, 115]
    [104, 101] [115, 104, 101] 3 (by decide) (by decide) (by decide) (by decide) (by decide)
    (by decide) (by decide) (by decide)
  obtain ⟨sm, hits, e, e1⟩ := t.2 (by decide) (by decide)
  exact ⟨by decide, by decide, by decide, by decide, by decide, by decide, by decide, by decide,
    by decide, by decide, sm, hits, e, e1, t.1 sm hits e e1⟩

/-- Instance of C6: the pattern "she" of the dictionary "he", "she". -/
theorem self_match_witness :
    (∀ q : List Nat, q ∈ [[104, 101], [115, 104, 101]] → q ≠ []) ∧
    [115, 104, 101] ∈ [[104, 101], [115, 104, 101]] ∧
    ([115, 104, 101] : List Nat).length ≤ 2147483647 ∧
    (([[104, 101], [115, 104, 101]] : List (List Nat)).map List.length).sum < 4294966400 ∧
    ([115, 104, 101] : List Nat).length *
      ([[104, 101], [115, 104, 101]] : List (List Nat)).length ≤ 2147483584 ∧
    ∃ (sm : string_matcher) (hits : List match_entry),
      new_string_matcher [[104, 101], [115, 104, 101]] = some sm ∧
      find_matched_string sm [115, 104, 101] = some hits ∧
      (⟨0, ([115, 104, 101] : List Nat).length⟩ : match_entry) ∈ hits := by
  have t := self_match [[104, 101], [115, 104, 101]] [115, 104, 101] (by decide) (by decide)
    (by decide)
  obtain ⟨sm, hits, e, e1⟩ := t.2 (by decide) (by decide)
  exact ⟨by decide, by decide, by decide, by decide, by decide, sm, hits, e, e1,
    t.1 sm hits e e1⟩

/-- Instance of C7: the dictionary "he", "she" and the same in the other order. -/
theorem insertion_order_independent_witness :
    (∀ q : List Nat, q ∈ [[104, 101], [115, 104, 101]] → q ≠ []) ∧
    ([[104, 101], [115, 104, 101]] : List (List Nat)).Perm [[115, 104, 101], [104, 101]] ∧
    (([[104, 101], [115, 104, 101]] : List (List Nat)).map List.length).sum < 4294966400 ∧
    ([117, 115, 104, 101, 114, 115] : List Nat).length *
      ([[104, 101], [115, 104, 101]] : List (List Nat)).length ≤ 2147483584 ∧
    ∃ (sm sm2 : string_matcher) (hits hits2 : List match_entry),
      new_string_matcher [[104, 101], [115, 104, 101]] = some sm ∧
      new_string_matcher [[115, 104, 101], [104, 101]] = some sm2 ∧
      find_matched_string sm [117, 115, 104, 101, 114, 115] = some hits ∧
      find_matched_string sm2 [117, 115, 104, 101, 114, 115] = some hits2 ∧
      ∀ m : match_entry, m ∈ hits ↔ m ∈ hits2 := by
  have t := insertion_order_independent [[104, 101], [115, 104, 101]]
    [[115, 104, 101], [104, 101]] [117, 115, 104, 101, 114, 115] (by decide)
    (List.Perm.swap _ _ _)
  obtain ⟨sm, sm2, hits, hits2, e, e2, e1, e3⟩ := t.2 (by decide) (by decide)
  exact ⟨by decide, List.Perm.swap _ _ _, by decide, by decide, sm, sm2, hits, hits2,
    e, e2, e1, e3, t.1 sm sm2 hits hits2 e e2 e1 e3⟩

/-- Instance of C9: the dictionary "he", "she". -/
theorem offsets_never_underflow_witness :
    (∀ q : List Nat, q ∈ [[104, 101], [115, 104, 101]] → q ≠ []) ∧
    (∀ q : List Nat, q ∈ [[104, 101], [115, 104, 101]] → q.length ≤ 2147483647) ∧
    (([[104, 101], [115, 104, 101]] : List (List Nat)).map List.length).sum < 4294966400 ∧
    ∃ sm : string_matcher, new_string_matcher [[104, 101], [115, 104, 101]] = some sm ∧
      (∀ s : Nat, s < sm.n →
        (∃ w : List Nat, walk sm 0 w = some s) ∧
        ∀ w : List Nat, walk sm 0 w = some s →
          ∀ l : Nat, l ∈ output_state sm s → 1 ≤ l ∧ l ≤ w.length) ∧
      ∀ text : List Nat,
        text.length * ([[104, 101], [115, 104, 101]] : List (List Nat)).length ≤ 2147483584 →
        ∃ hits : List match_entry,
        find_matched_string sm text = some hits ∧
        ∀ m : match_entry, m ∈ hits →
          1 ≤ m.blen ∧ 0 ≤ m.boff ∧
          ∃ i : Nat, i < text.length ∧ i < 2147483648 ∧ m.blen ≤ i + 1 ∧
            m.boff = (i : Int) - (m.blen : Int) + 1 ∧
            u32 (u32 ((i : Int) - (m.blen : Int)) + 1) = m.boff ∧
            (m.blen ≤ i → u32 ((i : Int) - (m.blen : Int)) = (i : Int) - (m.blen : Int)) ∧
            (m.blen = i + 1 → u32 ((i : Int) - (m.blen : Int)) = 4294967295) := by
  have t := offsets_never_underflow [[104, 101], [115, 104, 101]] (by decide) (by decide)
  obtain ⟨sm, e, hx⟩ := t.2 (by decide)
  refine ⟨by decide, by decide, by decide, sm, e, (t.1 sm e).1, ?_⟩
  intro text hc
  obtain ⟨hits, e1⟩ := hx text hc
  exact ⟨hits, e1, (t.1 sm e).2 text hits e1⟩

theorem Automaton.wd_iff_pat {pats : List (List Nat)} {path : Nat → List Nat}
    {sm : string_matcher} (A : Automaton pats path sm) {s : Nat} (hs : s < sm.n) (h0 : s ≠ 0)
    (u : List Nat) : Wd sm path u ↔ ∃ p : List Nat, p ∈ pats ∧ u <+: p := by
  rw [A.words u]
  constructor
  · rintro (h | h)
    · have hw : Wd sm path (path s) := ⟨s, hs, rfl⟩
      rcases (A.words (path s)).1 hw with h1 | ⟨p, hp, _⟩
      · exact absurd h1 ((A.shape.ne_zero hs).1 h0)
      · exact ⟨p, hp, by rw [h]; exact List.nil_prefix⟩
    · exact h
  · intro h; exact Or.inr h

/-- C12 (failure link is the longest proper suffix), for patterns whose
lengths fit `int`: for every list of patterns of at most 2147483647 characters:
(1) whenever `new_string_matcher` returns an automaton, `failure[0] = 0`, and
every non-root state `s` is spelled by a word `w` such that `failure[s]` is
spelled by a word `v` which is a proper suffix of `w`, a prefix of some
pattern, and at least as long as every proper suffix of `w` that is a prefix of
some pattern; (2) the automaton is returned when the patterns have fewer than
4294966400 characters in all (the states then fit the state arrays). -/
theorem failure_longest_proper_suffix (pats : List (List Nat))
    (hbp : ∀ q : List Nat, q ∈ pats → q.length ≤ 2147483647) :
    (∀ sm : string_matcher, new_string_matcher pats = some sm → fail_state sm 0 = 0 ∧
      ∀ s : Nat, s < sm.n → s ≠ 0 →
        ∃ w v : List Nat, walk sm 0 w = some s ∧ walk sm 0 v = some (fail_state sm s) ∧
          v <:+ w ∧ v.length < w.length ∧ (∃ p : List Nat, p ∈ pats ∧ v <+: p) ∧
          ∀ u : List Nat, u <:+ w → u.length < w.length →
            (∃ p : List Nat, p ∈ pats ∧ u <+: p) → u.length ≤ v.length) ∧
    ((pats.map List.length).sum < 4294966400 →
      ∃ sm : string_matcher, new_string_matcher pats = some sm) := by
  refine ⟨fun sm e => ?_, build_ok pats⟩
  obtain ⟨path, A⟩ := built_spec pats hbp sm e
  have K := A.core
  refine ⟨K.fail_root, ?_⟩
  intro s hs h0
  have hl := A.fail_lsuf s hs
  have hp : path s ≠ [] := (A.shape.ne_zero hs).1 h0
  have hlen : (path s).tail.length < (path s).length := by
    rw [List.length_tail]
    have := List.length_pos.2 hp
    omega
  rw [K.fail_state_eq hs]
  refine ⟨path s, path (sm.failure s), (K.walk_path _ _).2 ⟨hs, rfl⟩,
    (K.walk_path _ _).2 ⟨A.fail_lt s hs, rfl⟩, hl.1.trans (List.tail_suffix _),
    lt_of_le_of_lt hl.1.length_le hlen, (A.wd_iff_pat hs h0 _).1 hl.2.1, ?_⟩
  intro u hu hul hup
  apply hl.2.2 u _ ((A.wd_iff_pat hs h0 u).2 hup)
  rcases (suffix_tail_iff hp).1 hu with h1 | h1
  · rw [h1] at hul; omega
  · exact h1

/-- Instance of C12: the dictionary "he", "she". -/
theorem failure_longest_proper_suffix_witness :
    (∀ q : List Nat, q ∈ [[104, 101], [115, 104, 101]] → q.length ≤ 2147483647) ∧
    (([[104, 101], [115, 104, 101]] : List (List Nat)).map List.length).sum < 4294966400 ∧
    ∃ sm : string_matcher, new_string_matcher [[104, 101], [115, 104, 101]] = some sm ∧
      fail_state sm 0 = 0 ∧
      ∀ s : Nat, s < sm.n → s ≠ 0 →
        ∃ w v : List Nat, walk sm 0 w = some s ∧ walk sm 0 v = some (fail_state sm s) ∧
          v <:+ w ∧ v.length < w.length ∧
          (∃ p : List Nat, p ∈ [[104, 101], [115, 104, 101]] ∧ v <+: p) ∧
          ∀ u : List Nat, u <:+ w → u.length < w.length →
            (∃ p : List Nat, p ∈ [[104, 101], [115, 104, 101]] ∧ u <+: p) →
              u.length ≤ v.length := by
  have t := failure_longest_proper_suffix [[104, 101], [115, 104, 101]] (by decide)
  obtain ⟨sm, e⟩ := t.2 (by decide)
  exact ⟨by decide, by decide, sm, e, t.1 sm e⟩

theorem giant_starts : ([97] : List Nat) <+: List.replicate 2147483648 97 :=
  ⟨List.replicate 2147483647 97, rfl⟩

/-- C12 fails as stated. (1) With the pattern of 2147483648 letters "a" and the
pattern "ba", `int lp = strlen(pattern)` is negative for the first, which gets
no state; the state 2 spelled "ba" has the failure link 0, although "a" is a
proper suffix of "ba" and a prefix of the first pattern. (2) Moreover the
patterns of 2147483647 letters "a" and of 2147483647 letters "b" need
4294967295 states: at `n = sz = 4294966400` the sum `sz + 1024` wraps to 128,
the new state is written outside the state arrays and no automaton is returned.
-/
theorem failure_longest_proper_suffix_counterexample :
    (∃ sm : string_matcher,
      new_string_matcher [List.replicate 2147483648 97, [98, 97]] = some sm ∧
      2 < sm.n ∧ walk sm 0 [98, 97] = some 2 ∧ fail_state sm 2 = 0 ∧ walk sm 0 [] = some 0 ∧
      ([97] : List Nat) <:+ [98, 97] ∧ ([97] : List Nat).length < ([98, 97] : List Nat).length ∧
      (∃ p : List Nat, p ∈ [List.replicate 2147483648 97, [98, 97]] ∧ [97] <+: p) ∧
      ¬ ∃ w v : List Nat, walk sm 0 w = some 2 ∧ walk sm 0 v = some (fail_state sm 2) ∧
          v <:+ w ∧ v.length < w.length ∧
          (∃ p : List Nat, p ∈ [List.replicate 2147483648 97, [98, 97]] ∧ v <+: p) ∧
          ∀ u : List Nat, u <:+ w → u.length < w.length →
            (∃ p : List Nat, p ∈ [List.replicate 2147483648 97, [98, 97]] ∧ u <+: p) →
              u.length ≤ v.length) ∧
    new_string_matcher [List.replicate 2147483647 97, List.replicate 2147483647 98] =
      none := by
  refine ⟨?_, automaton_overflow []⟩
  obtain ⟨sm, path, e, K⟩ := new_string_matcher_core [List.replicate 2147483648 97, [98, 97]]
    (giant_sum _ (by decide))
  have h : (new_string_matcher [List.replicate 2147483648 97, [98, 97]]).map
      (fun sm => (decide (2 < sm.n), walk sm 0 [98, 97], fail_state sm 2)) =
      some (true, some 2, 0) := by
    rw [giant_build]
    set_option maxRecDepth 100000 in decide
  rw [e] at h
  simp only [Option.map_some', Option.some.injEq, Prod.mk.injEq, decide_eq_true_eq] at h
  obtain ⟨h1, h2, h3⟩ := h
  have hmem : ∃ p : List Nat, p ∈ [List.replicate 2147483648 97, [98, 97]] ∧ [97] <+: p :=
    ⟨_, List.mem_cons_self _ _, giant_starts⟩
  refine ⟨sm, e, h1, h2, h3, rfl, by decide, by decide, hmem, ?_⟩
  rintro ⟨w, v, hw, hv, _, _, _, hmax⟩
  rw [h3] at hv
  have hw2 := ((K.walk_path w 2).1 hw).2
  have hw3 := ((K.walk_path [98, 97] 2).1 h2).2
  have hv2 := ((K.walk_path v 0).1 hv).2
  rw [K.shape.root] at hv2
  rw [← hw2, hw3, ← hv2] at hmax
  have := hmax [97] (by decide) (by decide) hmem
  simp at this

theorem Automaton.mem_output_pat {pats : List (List Nat)} {path : Nat → List Nat}
    {sm : string_matcher} (A : Automaton pats path sm)
    (hne : ∀ p : List Nat, p ∈ pats → p ≠ []) {s : Nat} (hs : s < sm.n) (l : Nat) :
    l ∈ sm.output s ↔ ∃ p : List Nat, p ∈ pats ∧ p <:+ path s ∧ p.length = l := by
  rw [(A.out_perm hne _ s hs (le_refl _)).mem_iff]
  unfold suffix_lengths
  rw [List.mem_map]
  constructor
  · rintro ⟨p, hp, rfl⟩
    rw [List.mem_filter] at hp
    exact ⟨p, hp.1, by simpa using hp.2, rfl⟩
  · rintro ⟨p, hp, hsuf, rfl⟩
    exact ⟨p, List.mem_filter.2 ⟨hp, by simpa using hsuf⟩, rfl⟩

/-- C13 (output closure), for patterns whose lengths fit `int`: for every
list of non-empty patterns of at most 2147483647 characters: (1) whenever
`new_string_matcher` returns an automaton, every state is spelled by a word,
and for every state `s` spelled by `w` the lengths in `output[s]` are exactly
the lengths of the patterns that are suffixes of `w`; equivalently they are the
length of `w` when `w` is a pattern (the patterns ending at `s`) together with
the lengths in `output[t]` for the states `t` reached from `s` by one or more
failure links; (2) the automaton is returned when the patterns have fewer than
4294966400 characters in all (the states then fit the state arrays). -/
theorem output_closure (pats : List (List Nat))
    (hne : ∀ q : List Nat, q ∈ pats → q ≠ [])
    (hbp : ∀ q : List Nat, q ∈ pats → q.length ≤ 2147483647) :
    (∀ sm : string_matcher, new_string_matcher pats = some sm →
      (∀ s : Nat, s < sm.n → ∃ w : List Nat, walk sm 0 w = some s) ∧
      ∀ (s : Nat) (w : List Nat), walk sm 0 w = some s → ∀ l : Nat,
        (l ∈ output_state sm s ↔ ∃ p : List Nat, p ∈ pats ∧ p <:+ w ∧ p.length = l) ∧
        (l ∈ output_state sm s ↔
          ((w ∈ pats ∧ l = w.length) ∨
            ∃ k : Nat, 1 ≤ k ∧ l ∈ output_state sm ((fail_state sm)^[k] s)))) ∧
    ((pats.map List.length).sum < 4294966400 →
      ∃ sm : string_matcher, new_string_matcher pats = some sm) := by
  refine ⟨fun sm e => ?_, build_ok pats⟩
  obtain ⟨path, A⟩ := built_spec pats hbp sm e
  have K := A.core
  refine ⟨fun s hs => ⟨path s, (K.walk_path _ _).2 ⟨hs, rfl⟩⟩, ?_⟩
  intro s w hw l
  obtain ⟨hs, hps⟩ := (K.walk_path w s).1 hw
  subst hps
  unfold output_state
  refine ⟨A.mem_output_pat hne hs l, ?_⟩
  rw [A.mem_output_pat hne hs l]
  constructor
  · rintro ⟨p, hp, hsuf, rfl⟩
    by_cases hpe : p = path s
    · left; rw [← hpe]; exact ⟨hp, rfl⟩
    · right
      refine ⟨1, le_refl _, ?_⟩
      have hps : path s ≠ [] := by
        intro h
        rw [h] at hsuf
        exact hne p hp (List.suffix_nil.1 hsuf)
      have h1 : p <:+ (path s).tail := by
        rcases (suffix_tail_iff hps).1 hsuf with h | h
        · exact absurd h hpe
        · exact h
      have hl := A.fail_lsuf s hs
      have h2 : p <:+ path (sm.failure s) :=
        List.suffix_of_suffix_length_le h1 hl.1 (hl.2.2 p h1 (A.wd_pat p hp))
      rw [Function.iterate_one, K.fail_state_eq hs, A.mem_output_pat hne (A.fail_lt s hs)]
      exact ⟨p, hp, h2, rfl⟩
  · rintro (⟨hp, rfl⟩ | ⟨k, _, hk⟩)
    · exact ⟨path s, hp, List.suffix_refl _, rfl⟩
    · obtain ⟨h1, h2⟩ := K.fail_iterate s hs k
      obtain ⟨p, hp, hsuf, rfl⟩ := (A.mem_output_pat hne h1 l).1 hk
      exact ⟨p, hp, hsuf.trans h2, rfl⟩

/-- Instance of C13: the dictionary "he", "she". -/
theorem output_closure_witness :
    (∀ q : List Nat, q ∈ [[104, 101], [115, 104, 101]] → q ≠ []) ∧
    (∀ q : List Nat, q ∈ [[104, 101], [115, 104, 101]] → q.length ≤ 2147483647) ∧
    (([[104, 101], [115, 104, 101]] : List (List Nat)).map List.length).sum < 4294966400 ∧
    ∃ sm : string_matcher, new_string_matcher [[104, 101], [115, 104, 101]] = some sm ∧
      (∀ s : Nat, s < sm.n → ∃ w : List Nat, walk sm 0 w = some s) ∧
      ∀ (s : Nat) (w : List Nat), walk sm 0 w = some s → ∀ l : Nat,
        (l ∈ output_state sm s ↔
          ∃ p : List Nat, p ∈ [[104, 101], [115, 104, 101]] ∧ p <:+ w ∧ p.length = l) ∧
        (l ∈ output_state sm s ↔
          ((w ∈ [[104, 101], [115, 104, 101]] ∧ l = w.length) ∨
            ∃ k : Nat, 1 ≤ k ∧ l ∈ output_state sm ((fail_state sm)^[k] s))) := by
  have t := output_closure [[104, 101], [115, 104, 101]] (by decide) (by decide)
  obtain ⟨sm, e⟩ := t.2 (by decide)
  exact ⟨by decide, by decide, by decide, sm, e, t.1 sm e⟩

/-- C13 fails as stated. (1) For the one pattern of 2147483648 letters "a",
`int lp = strlen(pattern)` is negative, no state is inserted and the length
2147483648 is stored in the output list of the root, which is spelled by the
empty word: no pattern is a suffix of the empty word. (2) Moreover the patterns
of 2147483647 letters "a" and of 2147483647 letters "b" need 4294967295 states:
at `n = sz = 4294966400` the sum `sz + 1024` wraps to 128, the new state is
written outside the state arrays and no automaton is returned. -/
theorem output_closure_counterexample :
    ((∀ q : List Nat, q ∈ [List.replicate 2147483648 97] → q ≠ []) ∧
    ∃ sm : string_matcher, new_string_matcher [List.replicate 2147483648 97] = some sm ∧
      walk sm 0 [] = some 0 ∧ 2147483648 ∈ output_state sm 0 ∧
      ¬ ∃ p : List Nat, p ∈ [List.replicate 2147483648 97] ∧ p <:+ [] ∧ p.length = 2147483648) ∧
    new_string_matcher [List.replicate 2147483647 97, List.replicate 2147483647 98] =
      none := by
  refine ⟨?_, automaton_overflow []⟩
  refine ⟨?_, _, giant_matcher, by decide, by decide, ?_⟩
  · intro q hq
    rw [List.mem_singleton] at hq
    rw [hq]; exact giant_ne_nil
  · rintro ⟨p, hp, hsuf, _⟩
    rw [List.mem_singleton] at hp
    rw [hp] at hsuf
    exact giant_ne_nil (List.suffix_nil.1 hsuf)

theorem loop_split (sm : string_matcher) (len : Int) (text : List Nat) (i st sz : Nat)
    (res : List match_entry) (hi : i < text.length)
    (h : find_matched_run sm len (text.take (i + 1)) 0 0 64 [] = some (st, sz, res)) :
    find_matched_run sm len text 0 0 64 [] =
      find_matched_run sm len (text.drop (i + 1)) (i + 1) st sz res := by
  conv_lhs => rw [← List.take_append_drop (i + 1) text]
  rw [find_append, h]
  simp only [Option.some_bind, List.length_take]
  have e : 0 + min (i + 1) text.length = i + 1 := by omega
  rw [e]

theorem string_eq_run (sm : string_matcher) (text : List Nat) (i st sz : Nat)
    (res : List match_entry) (hi : i < text.length)
    (h : find_matched_run sm (to_int text.length) (text.take (i + 1)) 0 0 64 [] =
      some (st, sz, res)) :
    find_matched_string sm text =
      (find_matched_run sm (to_int text.length) (text.drop (i + 1)) (i + 1) st sz res).map
        (fun r => r.2.2) := by
  unfold find_matched_string
  rw [loop_split sm (to_int text.length) text i st sz res hi h]

/-- C14 (scan-state invariant), for inputs whose lengths fit `int`: for every
list of patterns of at most 2147483647 characters, every text of at most
2147483647 characters and every index `i` of the text: (1) whenever
`new_string_matcher` returns an automaton and the text loop of
`find_matched_string` run over `text[0..i]` stops in a state `st` (with the
array size `sz` and the hits `res`), the scan of the whole text continues from
there, and `st` is spelled by the longest suffix of `text[0..i]` that is empty
or a prefix of some pattern; (2) both return when the patterns have fewer than
4294966400 characters in all (the states then fit the state arrays) and
`(i + 1) * (number of patterns) <= 2147483584` (the hits up to the index then
fit the result array). -/
theorem scan_state_invariant (pats : List (List Nat)) (text : List Nat) (i : Nat)
    (hi : i < text.length)
    (hbp : ∀ q : List Nat, q ∈ pats → q.length ≤ 2147483647)
    (hbt : text.length ≤ 2147483647) :
    (∀ (sm : string_matcher) (st sz : Nat) (res : List match_entry),
      new_string_matcher pats = some sm →
      find_matched_run sm (to_int text.length) (text.take (i + 1)) 0 0 64 [] =
        some (st, sz, res) →
        find_matched_string sm text =
          (find_matched_run sm (to_int text.length) (text.drop (i + 1)) (i + 1) st sz res).map
            (fun r => r.2.2) ∧
        ∃ v : List Nat, walk sm 0 v = some st ∧ v <:+ text.take (i + 1) ∧
          (v = [] ∨ ∃ p : List Nat, p ∈ pats ∧ v <+: p) ∧
          ∀ u : List Nat, u <:+ text.take (i + 1) →
            (∃ p : List Nat, p ∈ pats ∧ u <+: p) → u.length ≤ v.length) ∧
    ((pats.map List.length).sum < 4294966400 → (i + 1) * pats.length ≤ 2147483584 →
      ∃ (sm : string_matcher) (st sz : Nat) (res : List match_entry),
        new_string_matcher pats = some sm ∧
        find_matched_run sm (to_int text.length) (text.take (i + 1)) 0 0 64 [] =
          some (st, sz, res)) := by
  have hrun : ∀ (sm : string_matcher) (path : Nat → List Nat), Core path sm →
      ∃ (st : Nat) (res : List match_entry),
        scan_run sm (to_int text.length) (text.take (i + 1)) 0 0 [] = some (st, res) ∧
        st < sm.n ∧ IsLSuf (Wd sm path) (text.take (i + 1)) (path st) ∧
        ∀ B : Nat, (∀ s : Nat, s < sm.n → (sm.output s).length ≤ B) →
          res.length ≤ (i + 1) * B := by
    intro sm path K
    obtain ⟨st, res, h1, h2, h3, _, h5⟩ :=
      run_spec K (to_int text.length) (text.take (i + 1)) [] 0 [] K.shape.n_pos K.lsuf_root
        (Or.inr (by
          rw [to_int_of_le hbt, List.length_nil, Nat.zero_add, List.length_take]
          have : min (i + 1) text.length ≤ text.length := Nat.min_le_right _ _
          omega))
    rw [List.nil_append] at h3
    refine ⟨st, res, h1, h2, h3, ?_⟩
    intro B hB
    have h6 := h5 B hB
    rw [List.length_nil, Nat.zero_add, List.length_take] at h6
    have h7 : min (i + 1) text.length = i + 1 := by omega
    rw [h7] at h6
    exact h6
  refine ⟨fun sm st sz res e h1b => ?_, fun hst hcap => ?_⟩
  · obtain ⟨path, A⟩ := built_spec pats hbp sm e
    have K := A.core
    obtain ⟨st1, res1, h1, h2, h3, _⟩ := hrun sm path K
    have h4 := run_some sm (to_int text.length) (text.take (i + 1)) 0 0 64 [] _ h1b
    rw [h1, Option.some.injEq, Prod.mk.injEq] at h4
    obtain ⟨h4a, _⟩ := h4
    simp only at h4a
    subst h4a
    refine ⟨string_eq_run sm text i st1 sz res hi h1b, path st1,
      (K.walk_path _ _).2 ⟨h2, rfl⟩, h3.1, (A.words _).1 h3.2.1, ?_⟩
    intro u hu hup
    exact h3.2.2 u hu ((A.words u).2 (Or.inr hup))
  · obtain ⟨sm, path, e, A1⟩ := new_string_matcher_items pats hst
    obtain ⟨st, res, h1, _, _, h5⟩ := hrun sm path A1.core
    have hres : res.length ≤ 2147483584 := by
      have h6 := h5 pats.length (fun s hs => by
        have := A1.out_length_le s hs
        rwa [List.length_map] at this)
      omega
    obtain ⟨sz, h1b, _⟩ :=
      run_ok sm (to_int text.length) (text.take (i + 1)) 0 0 64 [] (st, res) cap_init h1 hres
    exact ⟨sm, st, sz, res, e, h1b⟩

/-- Instance of C14: the dictionary "he", "she", the text "ushers", index 3. -/
theorem scan_state_invariant_witness :
    3 < ([117, 115, 104, 101, 114, 115] : List Nat).length ∧
    (∀ q : List Nat, q ∈ [[104, 101], [115, 104, 101]] → q.length ≤ 2147483647) ∧
    ([117, 115, 104, 101, 114, 115] : List Nat).length ≤ 2147483647 ∧
    (([[104, 101], [115, 104, 101]] : List (List Nat)).map List.length).sum < 4294966400 ∧
    (3 + 1) * ([[104, 101], [115, 104, 101]] : List (List Nat)).length ≤ 2147483584 ∧
    ∃ sm : string_matcher, new_string_matcher [[104, 101], [115, 104, 101]] = some sm ∧
      ∃ (st sz : Nat) (res : List match_entry),
        find_matched_run sm (to_int ([117, 115, 104, 101, 114, 115] : List Nat).length)
          (([117, 115, 104, 101, 114, 115] : List Nat).take (3 + 1)) 0 0 64 [] =
          some (st, sz, res) ∧
        find_matched_string sm [117, 115, 104, 101, 114, 115] =
          (find_matched_run sm (to_int ([117, 115, 104, 101, 114, 115] : List Nat).length)
            (([117, 115, 104, 101, 114, 115] : List Nat).drop (3 + 1)) (3 + 1) st sz res).map
            (fun r => r.2.2) ∧
        ∃ v : List Nat, walk sm 0 v = some st ∧
          v <:+ ([117, 115, 104, 101, 114, 115] : List Nat).take (3 + 1) ∧
          (v = [] ∨ ∃ p : List Nat, p ∈ [[104, 101], [115, 104, 101]] ∧ v <+: p) ∧
          ∀ u : List Nat, u <:+ ([117, 115, 104, 101, 114, 115] : List Nat).take (3 + 1) →
            (∃ p : List Nat, p ∈ [[104, 101], [115, 104, 101]] ∧ u <+: p) →
              u.length ≤ v.length := by
  have t := scan_state_invariant [[104, 101], [115, 104, 101]]
    [117, 115, 104, 101, 114, 115] 3 (by decide) (by decide) (by decide)
  obtain ⟨sm, st, sz, res, e, e1⟩ := t.2 (by decide) (by decide)
  exact ⟨by decide, by decide, by decide, by decide, by decide, sm, e, st, sz, res, e1,
    t.1 sm st sz res e e1⟩

/-- C14 fails as stated. (1) With the pattern "a" and the text of 2147483648
letters "a", `int len = strlen(text)` is negative: the loop does not process
index 0 and `state` stays the root, although "a" is a suffix of `text[0..0]`
and a prefix of the pattern. (2) For the one pattern of 2147483648 letters "a"
no state is inserted: after the index 0 of the text "a" the state is the root,
although "a" is a suffix of `text[0..0]` and a prefix of the pattern. (3) With
the pattern "a" and the text of 2147483585 letters "a" the hits up to the index
2147483584 do not fit the result array: `sz += 64` overflows `int` at `sz =
2147483584` and the loop does not reach that index. (4) And the patterns of
2147483647 letters "a" and of 2147483647 letters "b" need 4294967295 states: at
`n = sz = 4294966400` the sum `sz + 1024` wraps to 128, the new state is
written outside the state arrays and no automaton is returned. -/
theorem scan_state_invariant_counterexample :
    ((0 < (List.replicate 2147483648 97).length ∧
      ∃ sm : string_matcher, new_string_matcher [[97]] = some sm ∧
        find_matched_run sm (to_int (List.replicate 2147483648 97).length)
          ((List.replicate 2147483648 97).take (0 + 1)) 0 0 64 [] = some (0, 64, []) ∧
        ([97] : List Nat) <:+ (List.replicate 2147483648 97).take (0 + 1) ∧
        (∃ p : List Nat, p ∈ [[97]] ∧ [97] <+: p) ∧
        ¬ ∃ v : List Nat, walk sm 0 v = some 0 ∧
          ∀ u : List Nat, u <:+ (List.replicate 2147483648 97).take (0 + 1) →
            (∃ p : List Nat, p ∈ [[97]] ∧ u <+: p) → u.length ≤ v.length) ∧
    (0 < ([97] : List Nat).length ∧
      ∃ sm : string_matcher, new_string_matcher [List.replicate 2147483648 97] = some sm ∧
        find_matched_run sm (to_int ([97] : List Nat).length) (([97] : List Nat).take (0 + 1))
          0 0 64 [] = some (0, 64, [⟨-2147483647, 2147483648⟩]) ∧
        ([97] : List Nat) <:+ ([97] : List Nat).take (0 + 1) ∧
        (∃ p : List Nat, p ∈ [List.replicate 2147483648 97] ∧ [97] <+: p) ∧
        ¬ ∃ v : List Nat, walk sm 0 v = some 0 ∧
          ∀ u : List Nat, u <:+ ([97] : List Nat).take (0 + 1) →
            (∃ p : List Nat, p ∈ [List.replicate 2147483648 97] ∧ u <+: p) →
              u.length ≤ v.length)) ∧
    (∃ sm : string_matcher, new_string_matcher [[97]] = some sm ∧
      find_matched_run sm (to_int (List.replicate 2147483585 97).length)
        ((List.replicate 2147483585 97).take (2147483584 + 1)) 0 0 64 [] = none) ∧
    new_string_matcher [List.replicate 2147483647 97, List.replicate 2147483647 98] =
      none := by
  refine ⟨?_, overflow_run, automaton_overflow []⟩
  have htake : (List.replicate 2147483648 97).take (0 + 1) = [97] := rfl
  refine ⟨⟨by rw [giant_length]; decide, ?_⟩, ⟨by decide, ?_⟩⟩
  · obtain ⟨sm, path, e, K⟩ := new_string_matcher_core [[97]] (by decide)
    have hmem : ∃ p : List Nat, p ∈ [[97]] ∧ [97] <+: p := ⟨[97], by decide, by decide⟩
    refine ⟨sm, e, find_stop sm _ _ 0 0 64 [] (by rw [giant_length]; decide), ?_, hmem, ?_⟩
    · rw [htake]
    · rintro ⟨v, hv, hmax⟩
      have hv2 := ((K.walk_path v 0).1 hv).2
      rw [K.shape.root] at hv2
      rw [htake, ← hv2] at hmax
      have := hmax [97] (List.suffix_refl _) hmem
      simp at this
  · obtain ⟨sm, path, e, K⟩ := new_string_matcher_core [List.replicate 2147483648 97]
      (giant_sum _ (by decide))
    have e2 := giant_matcher
    rw [e] at e2
    have hmem : ∃ p : List Nat, p ∈ [List.replicate 2147483648 97] ∧ [97] <+: p :=
      ⟨_, List.mem_singleton.2 rfl, giant_starts⟩
    refine ⟨sm, e, ?_, by decide, hmem, ?_⟩
    · rw [Option.some.inj e2]
      decide
    · rintro ⟨v, hv, hmax⟩
      have hv2 := ((K.walk_path v 0).1 hv).2
      rw [K.shape.root] at hv2
      rw [← hv2] at hmax
      have := hmax [97] (by decide) hmem
      simp at this

/-- C17, as the code behaves for inputs whose lengths fit `int`: for every
list of patterns of at most 2147483647 characters that contains the empty
string, and every text of at most 2147483647 characters: (1) whenever
`new_string_matcher` returns an automaton, the length 0 is in the output list
of the root, and whenever `find_matched_string` returns a hit list on it, a
zero-length hit is stored at scan position `i` (it is the entry with offset
`i + 1` and length 0) exactly when `text[i]` is not the first symbol of any
pattern of the list; (2) both return when the patterns have fewer than
4294966400 characters in all (the states then fit the state arrays) and
`|text| * (number of patterns) <= 2147483584` (the hits then fit the result
array). -/
theorem zero_length_hits (pats : List (List Nat)) (text : List Nat) (hmem : [] ∈ pats)
    (hbp : ∀ q : List Nat, q ∈ pats → q.length ≤ 2147483647)
    (hbt : text.length ≤ 2147483647) :
    (∀ sm : string_matcher, new_string_matcher pats = some sm → 0 ∈ output_state sm 0 ∧
      ∀ hits : List match_entry, find_matched_string sm text = some hits →
        ∀ i c : Nat, text[i]? = some c →
          ((⟨(i : Int) + 1, 0⟩ : match_entry) ∈ hits ↔
            ∀ p : List Nat, p ∈ pats → ¬ [c] <+: p)) ∧
    ((pats.map List.length).sum < 4294966400 → text.length * pats.length ≤ 2147483584 →
      ∃ (sm : string_matcher) (hits : List match_entry),
        new_string_matcher pats = some sm ∧ find_matched_string sm text = some hits) := by
  refine ⟨fun sm e => ?_, scan_ok pats text⟩
  obtain ⟨path, A⟩ := built_items pats sm e
  have hnil : (([] : List Nat), 0) ∈ pats.map item := item_mem_of_le hmem (by simp)
  have hroot : 0 ∈ output_state sm 0 := by
    unfold output_state
    rw [A.mem_output _ 0 A.core.shape.n_pos (le_refl _) 0]
    refine ⟨([], 0), hnil, rfl, List.nil_suffix, ?_⟩
    intro _ c hc
    rw [A.core.shape.root] at hc
    have := hc.length_le
    simp at this
  refine ⟨hroot, ?_⟩
  intro hits e1 i c hic
  have hm := A.found_iff text hits e1
  rw [scanned_of_le hbt] at hm
  have hi : i < text.length := (List.getElem?_eq_some_iff.1 hic).1
  rw [hm]
  constructor
  · rintro ⟨k, it, _, hit, _, h4, hme⟩ p hp hpre
    have h1 := congrArg match_entry.blen hme
    have h2 := congrArg match_entry.boff hme
    simp only at h1 h2
    have hk : k = i := by omega
    subst hk
    obtain ⟨q, hq, rfl⟩ := (mem_items_of_le hbp it).1 hit
    have hq0 : q = [] := List.length_eq_zero.1 h1.symm
    exact h4 hq0 c hic (p, p.length) (item_mem_of_le hp (hbp p hp)) hpre
  · intro h
    refine ⟨i, ([], 0), hi, hnil, List.nil_suffix, ?_, by simp⟩
    intro _ d hd jt hjt hpre
    have hdc : d = c := by
      rw [hic] at hd
      exact (Option.some.inj hd).symm
    subst hdc
    obtain ⟨q, hq, rfl⟩ := (mem_items_of_le hbp jt).1 hjt
    exact h q hq hpre

/-- Instance of C17: the dictionary "", "a" and the text "ba". -/
theorem zero_length_hits_witness :
    [] ∈ ([[], [97]] : List (List Nat)) ∧
    (∀ q : List Nat, q ∈ ([[], [97]] : List (List Nat)) → q.length ≤ 2147483647) ∧
    ([98, 97] : List Nat).length ≤ 2147483647 ∧
    (([[], [97]] : List (List Nat)).map List.length).sum < 4294966400 ∧
    ([98, 97] : List Nat).length * ([[], [97]] : List (List Nat)).length ≤ 2147483584 ∧
    ∃ sm : string_matcher, new_string_matcher [[], [97]] = some sm ∧ 0 ∈ output_state sm 0 ∧
      ∃ hits : List match_entry, find_matched_string sm [98, 97] = some hits ∧
        ∀ i c : Nat, ([98, 97] : List Nat)[i]? = some c →
          ((⟨(i : Int) + 1, 0⟩ : match_entry) ∈ hits ↔
            ∀ p : List Nat, p ∈ ([[], [97]] : List (List Nat)) → ¬ [c] <+: p) := by
  have t := zero_length_hits [[], [97]] [98, 97] (by decide) (by decide) (by decide)
  obtain ⟨sm, hits, e, e1⟩ := t.2 (by decide) (by decide)
  exact ⟨by decide, by decide, by decide, by decide, by decide, sm, e, (t.1 sm e).1,
    hits, e1, (t.1 sm e).2 hits e1⟩

/-- C17 fails as stated. (1) With the patterns "" and "a" and the non-empty
text "a", the only hit is (0, 1); no zero-length hit is stored at position 0.
(2) With the pattern "" and the text of 2147483648 letters "a", `int len =
strlen(text)` is negative, the loop does not run and no hit is stored at all.
(3) With the patterns "" and "a", the hits in the text of 2147483585 letters
"a" do not fit the result array: `sz += 64` overflows `int` at `sz =
2147483584` and no hit list is returned. (4) The patterns of 2147483647 letters
"a", of 2147483647 letters "b" and "" need 4294967295 states: at `n = sz =
4294966400` the sum `sz + 1024` wraps to 128, the new state is written outside
the state arrays and no automaton is returned. -/
theorem zero_length_counterexample :
    (([] ∈ ([[], [97]] : List (List Nat)) ∧ ([97] : List Nat) ≠ [] ∧
      ∃ sm : string_matcher, new_string_matcher [[], [97]] = some sm ∧
        ∃ hits : List match_entry, find_matched_string sm [97] = some hits ∧
          hits = [⟨0, 1⟩] ∧ ¬ ∃ m : match_entry, m ∈ hits ∧ m.blen = 0) ∧
    ([] ∈ ([[]] : List (List Nat)) ∧ List.replicate 2147483648 97 ≠ [] ∧
      ∃ sm : string_matcher, new_string_matcher [[]] = some sm ∧
        ∃ hits : List match_entry,
          find_matched_string sm (List.replicate 2147483648 97) = some hits ∧
          hits = [] ∧ ¬ ∃ m : match_entry, m ∈ hits ∧ m.blen = 0)) ∧
    (∃ sm : string_matcher, new_string_matcher [[], [97]] = some sm ∧
      find_matched_string sm (List.replicate 2147483585 97) = none) ∧
    new_string_matcher [List.replicate 2147483647 97, List.replicate 2147483647 98, []] =
      none := by
  refine ⟨?_, overflow_empty, automaton_overflow [[]]⟩
  have h : (new_string_matcher [[], [97]]).bind (fun sm => find_matched_string sm [97]) =
      some [⟨0, 1⟩] := by
    set_option maxRecDepth 100000 in decide
  obtain ⟨sm, h1, h2⟩ := Option.bind_eq_some.1 h
  obtain ⟨sm2, path2, e2, _⟩ := new_string_matcher_core [[]] (by decide)
  refine ⟨⟨by decide, by decide, sm, h1, _, h2, rfl, ?_⟩,
    ⟨by decide, giant_ne_nil, sm2, e2, [],
      scan_nothing sm2 _ (by rw [giant_length]; decide), rfl, ?_⟩⟩
  · rintro ⟨m, hm, hb⟩
    rw [List.mem_singleton] at hm
    rw [hm] at hb
    exact absurd hb (by decide)
  · rintro ⟨m, hm, _⟩
    exact absurd hm (List.not_mem_nil m)

theorem edge_none_iff (sm : string_matcher) (s c : Nat) :
    edge sm s c = none ↔ c ∉ (sm.trans_matrix s).map (fun t => t.sym) := by
  unfold edge
  rw [Option.map_eq_none', List.find?_eq_none, List.mem_map]
  constructor
  · rintro h ⟨t, ht, hc⟩
    exact h t ht (by simp [hc])
  · intro h t ht hc
    exact h ⟨t, ht, by simpa using hc⟩

theorem step_trans_nodup (sm : string_matcher) (state c : Nat) (hs : state < sm.n)
    (hnone : edge sm state c = none) (h : TransNodup sm) :
    TransNodup (add_transition (grow_state sm).1 state c sm.n) := by
  intro s
  rw [(step_fields sm state c).2.1]
  have hne : state ≠ sm.n := by omega
  by_cases h1 : s = state
  · subst h1
    rw [upd_same, upd_other _ _ _ _ hne, List.map_cons, List.nodup_cons]
    exact ⟨(edge_none_iff sm s c).1 hnone, h s⟩
  · rw [upd_other _ _ _ _ h1]
    by_cases h2 : s = sm.n
    · subst h2; rw [upd_same]; exact List.nodup_nil
    · rw [upd_other _ _ _ _ h2]; exact h s

theorem extend_trie_nodup : ∀ (rest : List Nat) (sm : string_matcher) (state : Nat),
    state < sm.n → TransNodup sm →
    (∀ (c : Nat) (cs : List Nat), rest = c :: cs → edge sm state c = none) →
    TransNodup (extend_trie sm state rest).1 := by
  intro rest
  induction rest with
  | nil => intro sm state _ h _; exact h
  | cons c cs ih =>
    intro sm state hs h hfresh
    have hnone := hfresh c cs rfl
    have e : extend_trie sm state (c :: cs) =
        extend_trie (add_transition (grow_state sm).1 state c sm.n) sm.n cs := rfl
    rw [e]
    apply ih _ _ (by rw [(step_fields sm state c).1]; omega)
      (step_trans_nodup sm state c hs hnone h)
    intro d ds _
    rw [step_edge sm state c hs]
    have : sm.n ≠ state := by omega
    simp [this]

theorem insert_pattern_nodup (sm : string_matcher) (items : List (List Nat × Nat))
    (path : Nat → List Nat) (p : List Nat) (h : ItemTrie sm items path) (hn : TransNodup sm) :
    TransNodup (insert_pattern sm p) := by
  obtain ⟨hw1, _, _, _, hfresh⟩ := trie_walk_spec (item p).1 sm path 0 h.shape h.shape.n_pos
  have h1 := extend_trie_nodup (trie_walk sm 0 (item p).1).2 sm (trie_walk sm 0 (item p).1).1
    hw1 hn hfresh
  exact h1

theorem foldl_insert_pattern_nodup : ∀ (rest : List (List Nat)) (sm : string_matcher)
    (items : List (List Nat × Nat)) (path : Nat → List Nat), ItemTrie sm items path →
    TransNodup sm → TransNodup (rest.foldl insert_pattern sm) := by
  intro rest
  induction rest with
  | nil => intro sm items path _ hn; exact hn
  | cons p ps ih =>
    intro sm items path h hn
    obtain ⟨path1, h1⟩ := insert_pattern_spec sm items path p h
    exact ih _ _ path1 h1 (insert_pattern_nodup sm items path p h hn)

theorem goto_trie_nodup (pats : List (List Nat)) :
    TransNodup (goto_trie pats) := by
  apply foldl_insert_pattern_nodup pats _ [] _ trie_init
  intro s
  unfold grow_state init_string_matcher
  by_cases hs : s = 0
  · subst hs; simp [upd]
  · simp [upd, hs]

theorem Trie.card {sm : string_matcher} {pats : List (List Nat)} {path : Nat → List Nat}
    (h : Trie sm pats path) :
    sm.n = 1 + (((pats.flatMap List.inits).filter (fun w => decide (w ≠ []))).dedup).length := by
  have hl : ((List.range sm.n).map path).length = sm.n := by simp
  have hnd1 : ((List.range sm.n).map path).Nodup := by
    apply List.Nodup.map_on _ (List.nodup_range sm.n)
    intro x hx y hy hxy
    exact h.shape.inj x y (List.mem_range.1 hx) (List.mem_range.1 hy) hxy
  have hnd2 : ([] :: ((pats.flatMap List.inits).filter (fun w => decide (w ≠ []))).dedup).Nodup := by
    rw [List.nodup_cons]
    refine ⟨?_, List.nodup_dedup _⟩
    rw [List.mem_dedup, List.mem_filter]
    simp
  have hperm : ((List.range sm.n).map path).Perm
      ([] :: ((pats.flatMap List.inits).filter (fun w => decide (w ≠ []))).dedup) := by
    rw [List.perm_ext_iff_of_nodup hnd1 hnd2]
    intro w
    have h1 : w ∈ (List.range sm.n).map path ↔ Wd sm path w := by
      rw [List.mem_map]
      constructor
      · rintro ⟨s, hs, hp⟩; exact ⟨s, List.mem_range.1 hs, hp⟩
      · rintro ⟨s, hs, hp⟩; exact ⟨s, List.mem_range.2 hs, hp⟩
    rw [h1, h.words w, List.mem_cons, List.mem_dedup, List.mem_filter, List.mem_flatMap]
    simp only [List.mem_inits, ne_eq, decide_not, Bool.not_eq_true', decide_eq_false_iff_not]
    constructor
    · rintro (h2 | h2)
      · exact Or.inl h2
      · by_cases hw : w = []
        · exact Or.inl hw
        · exact Or.inr ⟨h2, hw⟩
    · rintro (h2 | ⟨h2, _⟩)
      · exact Or.inl h2
      · exact Or.inr h2
  have := hperm.length_eq
  rw [hl] at this
  rw [this]
  simp
  omega

/-- C18 (trie shape), for patterns whose lengths fit `int`: for every list of
patterns of at most 2147483647 characters: (1) whenever `create_goto_function`
returns a matcher, every state of it is spelled from the root by exactly one
word, the words that spell a state are the empty word and the prefixes of the
patterns, so `n` is 1 plus the number of distinct non-empty prefixes; no state
has two transitions with the same symbol; and walking a pattern from the root
ends at a state whose output list contains the length of the pattern; (2) the
matcher is returned when the patterns have fewer than 4294966400 characters in
all (the states then fit the state arrays). -/
theorem trie_shape (pats : List (List Nat))
    (hbp : ∀ q : List Nat, q ∈ pats → q.length ≤ 2147483647) :
    (∀ t : string_matcher, create_goto_function pats = some t →
      (∀ s : Nat, s < t.n →
        ∃ w : List Nat, walk t 0 w = some s ∧ ∀ u : List Nat, walk t 0 u = some s → u = w) ∧
      (∀ w : List Nat, (∃ s : Nat, walk t 0 w = some s) ↔
        (w = [] ∨ ∃ p : List Nat, p ∈ pats ∧ w <+: p)) ∧
      (∀ (w : List Nat) (s : Nat), walk t 0 w = some s → s < t.n) ∧
      walk t 0 [] = some 0 ∧
      t.n = 1 + (((pats.flatMap List.inits).filter (fun w => decide (w ≠ []))).dedup).length ∧
      (∀ s c : Nat, ((t.trans_matrix s).map (fun e => e.sym)).count c ≤ 1) ∧
      ∀ p : List Nat, p ∈ pats →
        ∃ s : Nat, walk t 0 p = some s ∧ p.length ∈ output_state t s) ∧
    ((pats.map List.length).sum < 4294966400 →
      ∃ t : string_matcher, create_goto_function pats = some t) := by
  refine ⟨fun t e => ?_, fun hst => ⟨goto_trie pats, create_goto_function_eq pats hst⟩⟩
  have ht := create_goto_function_sound pats t e
  subst ht
  obtain ⟨path, h⟩ := goto_trie_spec pats hbp
  have hw : ∀ (w : List Nat) (s : Nat), walk (goto_trie pats) 0 w = some s ↔
      s < (goto_trie pats).n ∧ path s = w := by
    intro w s
    rw [walk_iff h.shape w 0 s h.shape.n_pos, h.shape.root, List.nil_append]
  refine ⟨?_, ?_, ?_, rfl, h.card, ?_, ?_⟩
  · intro s hs
    refine ⟨path s, (hw _ _).2 ⟨hs, rfl⟩, ?_⟩
    intro u hu
    exact ((hw u s).1 hu).2.symm
  · intro w
    rw [← h.words w]
    constructor
    · rintro ⟨s, hs⟩; exact ⟨s, (hw w s).1 hs⟩
    · rintro ⟨s, hs⟩; exact ⟨s, (hw w s).2 hs⟩
  · intro w s hs; exact ((hw w s).1 hs).1
  · intro s c
    exact List.nodup_iff_count_le_one.1 (goto_trie_nodup pats s) c
  · intro p hp
    obtain ⟨s, hs, hps⟩ := (h.words p).2 (Or.inr ⟨p, hp, List.prefix_refl p⟩)
    refine ⟨s, (hw p s).2 ⟨hs, hps⟩, ?_⟩
    unfold output_state
    rw [h.out s hs, hps, List.mem_replicate]
    exact ⟨by rw [Ne, List.count_eq_zero]; exact fun hn => hn hp, rfl⟩

/-- Instance of C18: the dictionary "he", "she". -/
theorem trie_shape_witness :
    (∀ q : List Nat, q ∈ [[104, 101], [115, 104, 101]] → q.length ≤ 2147483647) ∧
    (([[104, 101], [115, 104, 101]] : List (List Nat)).map List.length).sum < 4294966400 ∧
    ∃ t : string_matcher, create_goto_function [[104, 101], [115, 104, 101]] = some t ∧
      (∀ s : Nat, s < t.n →
        ∃ w : List Nat, walk t 0 w = some s ∧ ∀ u : List Nat, walk t 0 u = some s → u = w) ∧
      (∀ w : List Nat, (∃ s : Nat, walk t 0 w = some s) ↔
        (w = [] ∨ ∃ p : List Nat, p ∈ [[104, 101], [115, 104, 101]] ∧ w <+: p)) ∧
      (∀ (w : List Nat) (s : Nat), walk t 0 w = some s → s < t.n) ∧
      walk t 0 [] = some 0 ∧
      t.n = 1 + (((([[104, 101], [115, 104, 101]] : List (List Nat)).flatMap List.inits).filter
        (fun w => decide (w ≠ []))).dedup).length ∧
      (∀ s c : Nat, ((t.trans_matrix s).map (fun e => e.sym)).count c ≤ 1) ∧
      ∀ p : List Nat, p ∈ [[104, 101], [115, 104, 101]] →
        ∃ s : Nat, walk t 0 p = some s ∧ p.length ∈ output_state t s := by
  have h := trie_shape [[104, 101], [115, 104, 101]] (by decide)
  obtain ⟨t, e⟩ := h.2 (by decide)
  exact ⟨by decide, by decide, t, e, h.1 t e⟩

/-- C18 fails as stated. (1) For the one pattern of 2147483648 letters "a",
`int lp = strlen(pattern)` is negative and no state is inserted: the matcher
has the root alone, `n = 1`, although "a" is a non-empty prefix of the pattern,
and the walk of the pattern from the root fails at its first symbol. (2)
Moreover the patterns of 2147483647 letters "a" and of 2147483647 letters "b"
need 4294967295 states: at `n = sz = 4294966400` the sum `sz + 1024` wraps to
128, the new state is written outside the state arrays and no matcher is
returned. -/
theorem trie_shape_counterexample :
    (∃ t : string_matcher, create_goto_function [List.replicate 2147483648 97] = some t ∧
      t.n = 1 ∧
      [97] ∈ ((([List.replicate 2147483648 97] : List (List Nat)).flatMap List.inits).filter
        (fun w => decide (w ≠ []))).dedup ∧
      t.n ≠ 1 + (((([List.replicate 2147483648 97] : List (List Nat)).flatMap
        List.inits).filter (fun w => decide (w ≠ []))).dedup).length ∧
      walk t 0 (List.replicate 2147483648 97) = none) ∧
    create_goto_function [List.replicate 2147483647 97, List.replicate 2147483647 98] =
      none := by
  refine ⟨?_, build_overflow []⟩
  have hmem : [97] ∈ ((([List.replicate 2147483648 97] : List (List Nat)).flatMap
      List.inits).filter (fun w => decide (w ≠ []))).dedup := by
    rw [List.mem_dedup, List.mem_filter, List.mem_flatMap]
    exact ⟨⟨_, List.mem_singleton.2 rfl, (List.mem_inits _ _).2 giant_starts⟩, by decide⟩
  have hn : (add_output_state (grow_state (init_string_matcher 128)).1 0 2147483648).n = 1 :=
    rfl
  refine ⟨add_output_state (grow_state (init_string_matcher 128)).1 0 2147483648,
    by rw [giant_first]; rfl, hn, hmem, ?_, rfl⟩
  rw [hn]
  have := List.length_pos_of_mem hmem
  omega

theorem Trie.alphabet_iff {sm : string_matcher} {pats : List (List Nat)}
    {path : Nat → List Nat} (h : Trie sm pats path) (c : Nat) :
    c ∈ sm.alphabet ↔ ∃ p : List Nat, p ∈ pats ∧ c ∈ p := by
  rw [h.shape.alpha_iff c]
  constructor
  · rintro ⟨s, t, hs, he⟩
    obtain ⟨ht, hpt⟩ := (h.shape.edge_iff s c t hs).1 he
    rcases (h.words (path t)).1 ⟨t, ht, rfl⟩ with h1 | ⟨p, hp, hpre⟩
    · rw [hpt] at h1; simp at h1
    · exact ⟨p, hp, hpre.subset (by rw [hpt]; simp)⟩
  · rintro ⟨p, hp, hc⟩
    obtain ⟨u, v, rfl⟩ := List.append_of_mem hc
    have hpre : u ++ [c] <+: u ++ c :: v := ⟨v, by simp⟩
    have hw : Wd sm path (u ++ [c]) := (h.words _).2 (Or.inr ⟨_, hp, hpre⟩)
    obtain ⟨t, ht, hpt⟩ := hw
    obtain ⟨s, hs, hps⟩ := h.shape.wd_snoc ⟨t, ht, hpt⟩
    exact ⟨s, t, hs, (h.shape.edge_iff s c t hs).2 ⟨ht, by rw [hpt, hps]⟩⟩

/-- C20 (alphabet registry), for patterns whose lengths fit `int`:
`add_symbol` on a symbol already in the alphabet leaves the matcher unchanged
and returns the index where the symbol is stored; applying `add_symbol` twice
is the same as once; and for every list of patterns of at most 2147483647
characters: (1) whenever `new_string_matcher` returns an automaton (and
`create_goto_function` its matcher), its alphabet is the one
`create_goto_function` leaves, has no duplicates and holds exactly the symbols
that occur in some pattern; (2) both return when the patterns have fewer than
4294966400 characters in all (the states then fit the state arrays). -/
theorem alphabet_registry :
    (∀ (sm : string_matcher) (c : Nat), c ∈ sm.alphabet →
      (add_symbol sm c).1 = sm ∧ (add_symbol sm c).1.alphabet = sm.alphabet ∧
      (add_symbol sm c).2 = sm.alphabet.indexOf c ∧
      (add_symbol sm c).2 < sm.alphabet.length ∧
      sm.alphabet[(add_symbol sm c).2]? = some c) ∧
    (∀ (sm : string_matcher) (c : Nat),
      (add_symbol (add_symbol sm c).1 c).1.alphabet = (add_symbol sm c).1.alphabet) ∧
    ∀ pats : List (List Nat), (∀ q : List Nat, q ∈ pats → q.length ≤ 2147483647) →
      (∀ sm t : string_matcher, new_string_matcher pats = some sm →
        create_goto_function pats = some t →
        sm.alphabet = t.alphabet ∧ sm.alphabet.Nodup ∧
        ∀ c : Nat, c ∈ sm.alphabet ↔ ∃ p : List Nat, p ∈ pats ∧ c ∈ p) ∧
      ((pats.map List.length).sum < 4294966400 →
        ∃ sm t : string_matcher, new_string_matcher pats = some sm ∧
          create_goto_function pats = some t) := by
  refine ⟨?_, ?_, ?_⟩
  · intro sm c hc
    have hi : List.indexOf c sm.alphabet < sm.alphabet.length := List.indexOf_lt_length.2 hc
    have h1 : add_symbol sm c = (sm, List.indexOf c sm.alphabet) := by
      simp [add_symbol, hi]
    rw [h1]
    refine ⟨rfl, rfl, rfl, hi, ?_⟩
    simp only
    rw [List.getElem?_eq_getElem hi]
    simp
  · intro sm c
    rw [add_symbol_alphabet (add_symbol sm c).1 c, add_symbol_alphabet sm c]
    by_cases hc : c ∈ sm.alphabet
    · simp [hc]
    · simp [hc]
  · intro pats hbp
    obtain ⟨path, ht⟩ := goto_trie_spec pats hbp
    obtain ⟨sm1, e, hf⟩ := create_failure_function_spec _ path ht.shape ht.fail0
    refine ⟨fun sm t e1 e2 => ?_, fun hst => ?_⟩
    · have h2 := create_goto_function_sound pats t e2
      subst h2
      have h3 := new_string_matcher_sound pats sm e1
      unfold automaton at h3
      rw [e, Option.some.injEq] at h3
      subst h3
      refine ⟨hf.frame_a, by rw [hf.frame_a]; exact ht.shape.alpha_nodup, ?_⟩
      intro c
      rw [hf.frame_a]
      exact ht.alphabet_iff c
    · exact ⟨sm1, goto_trie pats, by rw [new_string_matcher_eq pats hst]; exact e,
        create_goto_function_eq pats hst⟩

/-- Instance of C20: the symbol "a" in the alphabet "a", and the dictionary
"he", "she". -/
theorem alphabet_registry_witness :
    (97 ∈ (add_symbol (init_string_matcher 128) 97).1.alphabet ∧
      (add_symbol (add_symbol (init_string_matcher 128) 97).1 97).1 =
        (add_symbol (init_string_matcher 128) 97).1 ∧
      (add_symbol (add_symbol (init_string_matcher 128) 97).1 97).1.alphabet =
        (add_symbol (init_string_matcher 128) 97).1.alphabet ∧
      (add_symbol (add_symbol (init_string_matcher 128) 97).1 97).2 =
        (add_symbol (init_string_matcher 128) 97).1.alphabet.indexOf 97 ∧
      (add_symbol (add_symbol (init_string_matcher 128) 97).1 97).2 <
        (add_symbol (init_string_matcher 128) 97).1.alphabet.length ∧
      (add_symbol (init_string_matcher 128) 97).1.alphabet[
        (add_symbol (add_symbol (init_string_matcher 128) 97).1 97).2]? = some 97) ∧
    (∀ q : List Nat, q ∈ [[104, 101], [115, 104, 101]] → q.length ≤ 2147483647) ∧
    (([[104, 101], [115, 104, 101]] : List (List Nat)).map List.length).sum < 4294966400 ∧
    ∃ sm t : string_matcher, new_string_matcher [[104, 101], [115, 104, 101]] = some sm ∧
      create_goto_function [[104, 101], [115, 104, 101]] = some t ∧
      sm.alphabet = t.alphabet ∧ sm.alphabet.Nodup ∧
      ∀ c : Nat, c ∈ sm.alphabet ↔
        ∃ p : List Nat, p ∈ [[104, 101], [115, 104, 101]] ∧ c ∈ p := by
  have h := alphabet_registry.2.2 [[104, 101], [115, 104, 101]] (by decide)
  obtain ⟨sm, t, e, e1⟩ := h.2 (by decide)
  exact ⟨⟨by decide,
      alphabet_registry.1 (add_symbol (init_string_matcher 128) 97).1 97 (by decide)⟩,
    by decide, by decide, sm, t, e, e1, h.1 sm t e e1⟩

/-- C20 fails as stated. (1) For the one pattern of 2147483648 letters "a",
`int lp = strlen(pattern)` is negative and no transition is added: the alphabet
after construction is empty, although the symbol "a" occurs in the pattern. (2)
Moreover the patterns of 2147483647 letters "a" and of 2147483647 letters "b"
need 4294967295 states: at `n = sz = 4294966400` the sum `sz + 1024` wraps to
128, the new state is written outside the state arrays and no automaton is
returned. -/
theorem alphabet_registry_counterexample :
    (∃ sm : string_matcher, new_string_matcher [List.replicate 2147483648 97] = some sm ∧
      sm.alphabet = [] ∧
      (∃ p : List Nat, p ∈ [List.replicate 2147483648 97] ∧ 97 ∈ p) ∧
      ¬ (∀ c : Nat, c ∈ sm.alphabet ↔
        ∃ p : List Nat, p ∈ [List.replicate 2147483648 97] ∧ c ∈ p)) ∧
    new_string_matcher [List.replicate 2147483647 97, List.replicate 2147483647 98] =
      none := by
  refine ⟨?_, automaton_overflow []⟩
  have hocc : ∃ p : List Nat, p ∈ [List.replicate 2147483648 97] ∧ 97 ∈ p :=
    ⟨_, List.mem_singleton.2 rfl, List.mem_replicate.2 ⟨by decide, rfl⟩⟩
  refine ⟨_, giant_matcher, rfl, hocc, ?_⟩
  intro h
  have h1 := (h 97).2 hocc
  have h2 : (add_output_state (grow_state (init_string_matcher 128)).1 0
      2147483648).alphabet = [] := rfl
  rw [h2] at h1
  exact absurd h1 (List.not_mem_nil 97)

theorem hits_at_cons (p : List Nat) (ps : List (List Nat)) (t : List Nat) :
    hits_at (p :: ps) t = hits_at [p] t ++ hits_at ps t := by
  unfold hits_at
  by_cases h : p <:+ t
  · simp [List.filter_cons, h]
  · simp [List.filter_cons, h]

theorem ideal_nil_pats : ∀ (cs t : List Nat), ideal [] t cs = [] := by
  intro cs
  induction cs with
  | nil => intro t; rfl
  | cons c cs ih => intro t; simp [ideal, hits_at, ih]

theorem ideal_cons_perm (p : List Nat) (ps : List (List Nat)) :
    ∀ (cs t : List Nat), (ideal (p :: ps) t cs).Perm (ideal [p] t cs ++ ideal ps t cs) := by
  intro cs
  induction cs with
  | nil => intro t; simp [ideal]
  | cons c cs ih =>
    intro t
    simp only [ideal]
    rw [hits_at_cons]
    have h1 := ih (t ++ [c])
    have h2 : (hits_at [p] (t ++ [c]) ++ hits_at ps (t ++ [c]) ++
        (ideal [p] (t ++ [c]) cs ++ ideal ps (t ++ [c]) cs)).Perm
        (hits_at [p] (t ++ [c]) ++ ideal [p] (t ++ [c]) cs ++
          (hits_at ps (t ++ [c]) ++ ideal ps (t ++ [c]) cs)) := by
      rw [List.append_assoc, List.append_assoc]
      apply List.Perm.append_left
      rw [← List.append_assoc, ← List.append_assoc]
      exact List.Perm.append_right _ List.perm_append_comm
    exact (List.Perm.append_left _ h1).trans h2

theorem ideal_single_nodup (p : List Nat) :
    ∀ (cs t : List Nat), (ideal [p] t cs).Nodup := by
  intro cs
  induction cs with
  | nil => intro t; simp [ideal]
  | cons c cs ih =>
    intro t
    simp only [ideal]
    rw [List.nodup_append]
    refine ⟨?_, ih _, ?_⟩
    · unfold hits_at
      by_cases h : p <:+ t ++ [c]
      · simp [List.filter_cons, h]
      · simp [List.filter_cons, h]
    · intro m hm1 hm2
      obtain ⟨k, q, _, hq, _, hmq⟩ := (mem_ideal [p] m cs (t ++ [c])).1 hm2
      have hqp : q = p := by simpa using hq
      subst hqp
      unfold hits_at at hm1
      rw [List.mem_map] at hm1
      obtain ⟨q2, hq2, hm⟩ := hm1
      have hq3 : q2 = q := by
        have := (List.mem_filter.1 hq2).1
        simpa using this
      subst hq3
      rw [hmq] at hm
      have := congrArg match_entry.boff hm
      simp only at this
      omega

theorem mem_occurrences (text p : List Nat) (o : Nat) :
    o ∈ occurrences text p ↔ (o + p.length ≤ text.length ∧ (text.drop o).take p.length = p) := by
  unfold occurrences
  rw [List.mem_filter, List.mem_range]
  simp only [decide_eq_true_eq]
  constructor
  · rintro ⟨_, h⟩; exact h
  · intro h; exact ⟨by omega, h⟩

theorem block_nodup (text p : List Nat) :
    ((occurrences text p).map (fun (o : Nat) => (⟨(o : Int), p.length⟩ : match_entry))).Nodup := by
  apply List.Nodup.map _ ((List.nodup_range _).filter _)
  intro a b hab
  have := congrArg match_entry.boff hab
  simpa using this

theorem ideal_single_perm (text p : List Nat) (hp : p ≠ []) :
    (ideal [p] [] text).Perm
      ((occurrences text p).map (fun (o : Nat) => (⟨(o : Int), p.length⟩ : match_entry))) := by
  rw [List.perm_ext_iff_of_nodup (ideal_single_nodup p text []) (block_nodup text p)]
  intro m
  rw [mem_ideal, List.mem_map]
  have hpl : 0 < p.length := List.length_pos.2 hp
  constructor
  · rintro ⟨k, q, hk, hq, hs, hm⟩
    have hqp : q = p := by simpa using hq
    subst hqp
    simp only [List.nil_append, List.length_nil, Nat.zero_add] at hs hm
    obtain ⟨h1, h2⟩ := suffix_occurrence text q k hk hs
    refine ⟨k + 1 - q.length, (mem_occurrences _ _ _).2 ⟨by omega, h2⟩, ?_⟩
    rw [hm]
    congr 1
    omega
  · rintro ⟨o, ho, hm⟩
    obtain ⟨h1, h2⟩ := (mem_occurrences _ _ _).1 ho
    refine ⟨o + p.length - 1, p, by omega, by simp, ?_, ?_⟩
    · have e : o + p.length - 1 + 1 = o + p.length := by omega
      rw [List.nil_append, e]
      exact occurrence_suffix text p o h2
    · rw [← hm]
      congr 1
      simp only [List.length_nil, Nat.zero_add]
      omega

theorem ideal_perm_by_pattern (text : List Nat) :
    ∀ pats : List (List Nat), (∀ p : List Nat, p ∈ pats → p ≠ []) →
      (ideal pats [] text).Perm (by_pattern pats text) := by
  intro pats
  induction pats with
  | nil => intro _; rw [ideal_nil_pats]; simp [by_pattern]
  | cons p ps ih =>
    intro hne
    have h1 := ideal_cons_perm p ps text []
    have h2 := ideal_single_perm text p (hne p (List.mem_cons_self p ps))
    have h3 := ih (fun q hq => hne q (List.mem_cons_of_mem p hq))
    refine h1.trans ?_
    have e : by_pattern (p :: ps) text =
        (occurrences text p).map (fun (o : Nat) => (⟨(o : Int), p.length⟩ : match_entry)) ++
          by_pattern ps text := by
      simp [by_pattern]
    rw [e]
    exact List.Perm.append h2 h3

theorem count_by_pattern (text : List Nat) (o l : Nat) :
    ∀ pats : List (List Nat), (by_pattern pats text).count ⟨(o : Int), l⟩ =
      pats.countP (fun p => decide (p.length = l ∧ o + l ≤ text.length ∧
        (text.drop o).take l = p)) := by
  intro pats
  induction pats with
  | nil => simp [by_pattern]
  | cons p ps ih =>
    have e : by_pattern (p :: ps) text =
        (occurrences text p).map (fun (o : Nat) => (⟨(o : Int), p.length⟩ : match_entry)) ++
          by_pattern ps text := by
      simp [by_pattern]
    rw [e, List.count_append, ih, List.countP_cons, Nat.add_comm]
    congr 1
    by_cases hc : p.length = l ∧ o + l ≤ text.length ∧ (text.drop o).take l = p
    · have hmem : (⟨(o : Int), l⟩ : match_entry) ∈
          (occurrences text p).map (fun (o : Nat) => (⟨(o : Int), p.length⟩ : match_entry)) := by
        rw [List.mem_map]
        obtain ⟨h1, h2, h3⟩ := hc
        subst h1
        exact ⟨o, (mem_occurrences _ _ _).2 ⟨h2, h3⟩, rfl⟩
      rw [List.count_eq_one_of_mem (block_nodup text p) hmem]
      simp [hc]
    · have hmem : (⟨(o : Int), l⟩ : match_entry) ∉
          (occurrences text p).map (fun (o : Nat) => (⟨(o : Int), p.length⟩ : match_entry)) := by
        rw [List.mem_map]
        rintro ⟨o2, ho2, hm⟩
        have h1 := congrArg match_entry.boff hm
        have h2 := congrArg match_entry.blen hm
        simp only at h1 h2
        have h3 : o2 = o := by omega
        subst h3
        obtain ⟨h4, h5⟩ := (mem_occurrences _ _ _).1 ho2
        rw [h2] at h4 h5
        exact hc ⟨h2, h4, h5⟩
      rw [List.count_eq_zero_of_not_mem hmem]
      simp [hc]

theorem length_by_pattern (text : List Nat) :
    ∀ pats : List (List Nat), (by_pattern pats text).length =
      (pats.map (fun p => (occurrences text p).length)).sum := by
  intro pats
  induction pats with
  | nil => simp [by_pattern]
  | cons p ps ih =>
    have e : by_pattern (p :: ps) text =
        (occurrences text p).map (fun (o : Nat) => (⟨(o : Int), p.length⟩ : match_entry)) ++
          by_pattern ps text := by
      simp [by_pattern]
    rw [e, List.length_append, ih]
    simp

theorem occurrences_eq_nil (text p : List Nat) (h : text.length < p.length) :
    occurrences text p = [] := by
  rw [List.eq_nil_iff_forall_not_mem]
  intro o ho
  have := ((mem_occurrences text p o).1 ho).1
  omega

/-- C19 (match multiplicity), for inputs whose lengths fit `int`: for every
list of non-empty patterns of at most 2147483647 characters and every text of
at most 2147483647 characters: whenever `new_string_matcher` returns an
automaton and `find_matched_string` returns a hit list on it, (1) the number of
entries of the hit list equal to `(o, l)` is the number of indices of the
pattern list whose pattern has length `l` and equals `text[o .. o+l)`; (2) so a
pattern that occurs at `o` is reported there as many times as it is listed; (3)
the number of hits is the sum over the indices of the list of the number of
occurrences of the pattern at that index.  Both return when the patterns have
fewer than 4294966400 characters in all (the states then fit the state arrays)
and at most 2147483584 occurrences in the text, summed over the indices of the
list (the hits then fit the result array). -/
theorem match_multiplicity (pats : List (List Nat)) (text : List Nat)
    (hne : ∀ q : List Nat, q ∈ pats → q ≠ [])
    (hbp : ∀ q : List Nat, q ∈ pats → q.length ≤ 2147483647)
    (hbt : text.length ≤ 2147483647) :
    (∀ (sm : string_matcher) (hits : List match_entry),
      new_string_matcher pats = some sm → find_matched_string sm text = some hits →
        (∀ o l : Nat, hits.count ⟨(o : Int), l⟩ =
          pats.countP (fun p => decide (p.length = l ∧ o + l ≤ text.length ∧
            (text.drop o).take l = p))) ∧
        (∀ (p : List Nat) (o : Nat), o + p.length ≤ text.length →
          (text.drop o).take p.length = p → hits.count ⟨(o : Int), p.length⟩ = pats.count p) ∧
        hits.length = (pats.map (fun p => (occurrences text p).length)).sum) ∧
    ((pats.map List.length).sum < 4294966400 →
      (pats.map (fun p => (occurrences text p).length)).sum ≤ 2147483584 →
      ∃ (sm : string_matcher) (hits : List match_entry),
        new_string_matcher pats = some sm ∧ find_matched_string sm text = some hits) := by
  refine ⟨fun sm hits e e1 => ?_, fun hst hcap => ?_⟩
  · obtain ⟨path, A⟩ := built_spec pats hbp sm e
    have hp := A.found_perm hne text hits e1
    rw [scanned_of_le hbt] at hp
    have hperm := hp.trans (ideal_perm_by_pattern text pats hne)
    have hcount : ∀ o l : Nat, hits.count ⟨(o : Int), l⟩ =
        pats.countP (fun p => decide (p.length = l ∧ o + l ≤ text.length ∧
          (text.drop o).take l = p)) := by
      intro o l
      rw [hperm.count_eq, count_by_pattern]
    refine ⟨hcount, ?_, ?_⟩
    · intro p o h1 h2
      rw [hcount, List.count_eq_countP]
      apply List.countP_congr
      intro q _
      simp only [decide_eq_true_eq, beq_iff_eq]
      constructor
      · rintro ⟨_, _, h⟩; rw [← h, h2]
      · intro h; rw [h]; exact ⟨rfl, h1, h2⟩
    · rw [hperm.length_eq, length_by_pattern]
  · obtain ⟨sm, path, e, A⟩ := new_string_matcher_spec pats hbp hst
    obtain ⟨hits, e0, hp⟩ := scan_string_spec A hne text
    rw [scanned_of_le hbt] at hp
    have hperm := hp.trans (ideal_perm_by_pattern text pats hne)
    exact ⟨sm, hits, e, find_of_scan sm text hits e0
      (by rw [hperm.length_eq, length_by_pattern]; exact hcap)⟩

/-- Instance of C19: the dictionary "a", "a", "ab" and the text "aab". -/
theorem match_multiplicity_witness :
    (∀ q : List Nat, q ∈ [[97], [97], [97, 98]] → q ≠ []) ∧
    (∀ q : List Nat, q ∈ [[97], [97], [97, 98]] → q.length ≤ 2147483647) ∧
    ([97, 97, 98] : List Nat).length ≤ 2147483647 ∧
    (([[97], [97], [97, 98]] : List (List Nat)).map List.length).sum < 4294966400 ∧
    (([[97], [97], [97, 98]] : List (List Nat)).map
      (fun p => (occurrences [97, 97, 98] p).length)).sum ≤ 2147483584 ∧
    ∃ sm : string_matcher, new_string_matcher [[97], [97], [97, 98]] = some sm ∧
      ∃ hits : List match_entry, find_matched_string sm [97, 97, 98] = some hits ∧
        (∀ o l : Nat, hits.count ⟨(o : Int), l⟩ =
          ([[97], [97], [97, 98]] : List (List Nat)).countP
            (fun p => decide (p.length = l ∧ o + l ≤ ([97, 97, 98] : List Nat).length ∧
              (([97, 97, 98] : List Nat).drop o).take l = p))) ∧
        (∀ (p : List Nat) (o : Nat), o + p.length ≤ ([97, 97, 98] : List Nat).length →
          (([97, 97, 98] : List Nat).drop o).take p.length = p →
            hits.count ⟨(o : Int), p.length⟩ =
              ([[97], [97], [97, 98]] : List (List Nat)).count p) ∧
        hits.length = (([[97], [97], [97, 98]] : List (List Nat)).map
          (fun p => (occurrences [97, 97, 98] p).length)).sum := by
  have t := match_multiplicity [[97], [97], [97, 98]] [97, 97, 98] (by decide) (by decide)
    (by decide)
  obtain ⟨sm, hits, e, e1⟩ := t.2 (by decide) (by decide)
  exact ⟨by decide, by decide, by decide, by decide, by decide, sm, e, hits, e1,
    t.1 sm hits e e1⟩

/-- C19 fails as stated. (1) With the pattern "a" and the text of 2147483648
letters "a", the pattern is listed once and occurs at offset 0, but the hit
list is empty. (2) For the one pattern of 2147483648 letters "a" and the text
"b" the pattern does not occur, but one hit is returned. (3) Moreover the hits
of the pattern "a" in the text of 2147483585 letters "a" do not fit the result
array: `sz += 64` overflows `int` at `sz = 2147483584` and no hit list is
returned. (4) And the patterns of 2147483647 letters "a" and of 2147483647
letters "b" need 4294967295 states: at `n = sz = 4294966400` the sum `sz +
1024` wraps to 128, the new state is written outside the state arrays and no
automaton is returned. -/
theorem match_multiplicity_counterexample :
    (((∀ q : List Nat, q ∈ [[97]] → q ≠ []) ∧
      0 + ([97] : List Nat).length ≤ (List.replicate 2147483648 97).length ∧
      ((List.replicate 2147483648 97).drop 0).take ([97] : List Nat).length = [97] ∧
      ∃ sm : string_matcher, new_string_matcher [[97]] = some sm ∧
        ∃ hits : List match_entry,
          find_matched_string sm (List.replicate 2147483648 97) = some hits ∧
          hits.count ⟨((0 : Nat) : Int), ([97] : List Nat).length⟩ = 0 ∧
          ([[97]] : List (List Nat)).count [97] = 1) ∧
    ((∀ q : List Nat, q ∈ [List.replicate 2147483648 97] → q ≠ []) ∧
      ∃ sm : string_matcher, new_string_matcher [List.replicate 2147483648 97] = some sm ∧
        ∃ hits : List match_entry, find_matched_string sm [98] = some hits ∧
          hits.length = 1 ∧
          (([List.replicate 2147483648 97] : List (List Nat)).map
            (fun p => (occurrences [98] p).length)).sum = 0)) ∧
    (∃ sm : string_matcher, new_string_matcher [[97]] = some sm ∧
      find_matched_string sm (List.replicate 2147483585 97) = none) ∧
    new_string_matcher [List.replicate 2147483647 97, List.replicate 2147483647 98] =
      none := by
  refine ⟨?_, overflow_example, automaton_overflow []⟩
  refine ⟨⟨by decide, ?_, rfl, ?_⟩, ⟨?_, _, giant_matcher, [⟨-2147483647, 2147483648⟩],
    by decide, rfl, ?_⟩⟩
  · rw [giant_length]; decide
  · obtain ⟨sm, path, e, _⟩ := new_string_matcher_core [[97]] (by decide)
    exact ⟨sm, e, [], scan_nothing sm _ (by rw [giant_length]; decide), rfl, by decide⟩
  · intro q hq
    rw [List.mem_singleton] at hq
    rw [hq]; exact giant_ne_nil
  · rw [List.map_cons, List.map_nil,
      occurrences_eq_nil [98] _ (by rw [giant_length]; decide)]
    rfl

end AhoCorasick
